import Mathlib

/-!
# The NDN Face: pending interests, content store and dispatch

A shallow embedding of `face.go` and `name.go`.

* Go byte slices and strings are lists of byte values (`List Nat`).
* `map[chan<- *Data]*Selectors` is an association list keyed by channel
  identifiers; the list order stands for one (arbitrary) iteration order of
  the Go map.
* Channels live in a heap indexed by channel identifier; `make` allocates the
  next identifier.
* Goroutines that sleep and then act (`time.Sleep` followed by an update)
  are recorded as armed timers in the state; their bodies are separate steps.
* Go panics and sends that can never complete are results of type `Fault`.
-/

namespace Ndn

/-! ## Data model -/

/-- A name component: `lpm.Component`, a byte slice. -/
abbrev Component := List Nat

/-- A Go string, as its sequence of bytes. -/
abbrev GoString := List Nat

/-- The byte of the separator `"/"`. -/
def slash : Nat := 47

/-- The struct `Name` of `name.go`. -/
structure Name where
  Components : List Component
  ImplicitDigestSHA256 : Component
deriving DecidableEq, Repr

/-- Modelled from the spec: the key locator record (`name + optional digest`);
its declaration is not among the source files. Only the fields read by
`recvData` are kept. -/
structure KeyLocator where
  Name : Name
  Digest : List Nat
deriving DecidableEq, Repr

/-- Modelled from the spec: the `Exclude` selector (a set/range expression over
name components) and its method `IsExcluded` are not among the source files.
An exclude expression is represented by the predicate `IsExcluded` computes. -/
structure Exclude where
  IsExcluded : Component → Bool

/-- Modelled from the spec: the `Selectors` record; its declaration is not among
the source files. `MinSuffixComponents` and `MaxSuffixComponents` are `uint64`
in the code (compared with `uint64(suffix)`). -/
structure Selectors where
  MinSuffixComponents : Nat
  MaxSuffixComponents : Nat
  PublisherPublicKeyLocator : KeyLocator
  Exclude : Exclude
  ChildSelector : Nat
  MustBeFresh : Bool

/-- Modelled from the spec: the `MetaInfo` record of a data packet. -/
structure MetaInfo where
  ContentType : Nat
  FreshnessPeriod : Nat
deriving DecidableEq, Repr

/-- Modelled from the spec: the `SignatureInfo` record of a data packet. -/
structure SignatureInfo where
  SignatureType : Nat
  KeyLocator : KeyLocator
deriving DecidableEq, Repr

/-- Modelled from the spec: the `Data` packet; its declaration is not among the
source files. -/
structure Data where
  Name : Name
  MetaInfo : MetaInfo
  Content : List Nat
  SignatureInfo : SignatureInfo
  SignatureValue : List Nat
deriving DecidableEq, Repr

/-- Modelled from the spec: the `Interest` packet; its declaration is not among
the source files. -/
structure Interest where
  Name : Name
  Selectors : Selectors
  Nonce : List Nat
  LifeTime : Nat

/-- The ways a step of the Face can fail to complete: the Go runtime panics
(index out of range, send on a closed channel, close of a closed channel, use
of a channel that was never made) or a send blocks for ever on a full
single-slot channel that nobody drains. -/
inductive Fault where
  | indexOutOfRange
  | sendOnClosedChannel
  | closeOfClosedChannel
  | sendBlocked
  | nilChannel
deriving DecidableEq, Repr

/-! ## `name.go` -/

/-- Go `bytes.Compare`: lexicographic comparison of two byte slices, with
result `-1`, `0` or `1`. -/
def bytesCompare : List Nat → List Nat → Int
  | [], [] => 0
  | [], _ :: _ => -1
  | _ :: _, [] => 1
  | a :: as, b :: bs =>
    if a < b then -1 else if b < a then 1 else bytesCompare as bs

/-- Go `bytes.Equal`. -/
def bytesEqual (a b : List Nat) : Bool := decide (a = b)

/-- The body of `Name.Compare` on the two component slices: the loop runs over
the indices below both lengths and returns the first non-zero
`bytes.Compare`; when it runs out, the lengths decide. -/
def compareComponents : List Component → List Component → Int
  | [], [] => 0
  | [], _ :: _ => -1
  | _ :: _, [] => 1
  | a :: as, b :: bs =>
    let cmp := bytesCompare a b
    if cmp ≠ 0 then cmp else compareComponents as bs

/-- `Name.Len`. -/
def Name.Len (n : Name) : Nat := n.Components.length

/-- `Name.Compare`. -/
def Name.Compare (n n2 : Name) : Int := compareComponents n.Components n2.Components

/-- The loop of `Name.String` over a component slice: each component
contributes `'/'` followed by its own string. The method `String` of
`lpm.Component` belongs to a library outside the repository and is the
parameter `cstr`. -/
def componentsString (cstr : Component → GoString) : List Component → GoString
  | [] => []
  | c :: cs => slash :: (cstr c ++ componentsString cstr cs)

/-- `Name.String`. -/
def Name.String (cstr : Component → GoString) (n : Name) : GoString :=
  componentsString cstr n.Components

/-- Go `strings.Count(s, "/")`: the number of occurrences of the separator. -/
def stringsCount (s : GoString) : Nat := s.count slash

/-! ## Selector filter (the guards of the loop in `recvData`) -/

/-- The conversion `uint64(x)` of a Go `int`. -/
def toUint64 (x : Int) : Nat := (x % (2 : Int) ^ 64).toNat

/-- The indexing `xs[i]` with a Go `int` index: `none` stands for the
index-out-of-range panic. -/
def indexAt {α : Type} (xs : List α) (i : Int) : Option α :=
  if i < 0 then none else xs[i.toNat]?

/-- The five guards of the waiter loop in `recvData`, in the order of the
code; each `continue` is the result `false`. The component access of the last
guard is evaluated only when the first four guards pass and `suffix > 0`. -/
def selectorFilter (sel : Selectors) (d : Data) (suffix : Int) : Except Fault Bool :=
  if sel.MinSuffixComponents ≠ 0 ∧ sel.MinSuffixComponents > toUint64 suffix then
    .ok false
  else if sel.MaxSuffixComponents ≠ 0 ∧ sel.MaxSuffixComponents < toUint64 suffix then
    .ok false
  else if sel.PublisherPublicKeyLocator.Name.Components.length ≠ 0 ∧
      sel.PublisherPublicKeyLocator.Name.Compare d.SignatureInfo.KeyLocator.Name ≠ 0 then
    .ok false
  else if sel.PublisherPublicKeyLocator.Digest.length ≠ 0 ∧
      bytesEqual sel.PublisherPublicKeyLocator.Digest d.SignatureInfo.KeyLocator.Digest = false then
    .ok false
  else if suffix > 0 then
    match indexAt d.Name.Components ((d.Name.Components.length : Int) - suffix) with
    | none => .error Fault.indexOutOfRange
    | some c => if sel.Exclude.IsExcluded c then .ok false else .ok true
  else
    .ok true

/-! ## Go maps and channels -/

/-- Lookup in a Go map (an association list). -/
def mapGet {κ ν : Type} [DecidableEq κ] : List (κ × ν) → κ → Option ν
  | [], _ => none
  | (k, v) :: rest, key => if k = key then some v else mapGet rest key

/-- The assignment `m[key] = val`: replaces the value of a key already present,
appends a new pair otherwise. -/
def mapSet {κ ν : Type} [DecidableEq κ] : List (κ × ν) → κ → ν → List (κ × ν)
  | [], key, val => [(key, val)]
  | (k, v) :: rest, key, val =>
    if k = key then (k, val) :: rest else (k, v) :: mapSet rest key val

/-- The statement `delete(m, key)`. -/
def mapDelete {κ ν : Type} [DecidableEq κ] : List (κ × ν) → κ → List (κ × ν)
  | [], _ => []
  | (k, v) :: rest, key =>
    if k = key then mapDelete rest key else (k, v) :: mapDelete rest key

/-- The keys of a Go map. -/
def mapKeys {κ ν : Type} (m : List (κ × ν)) : List κ := m.map Prod.fst

/-- A channel identifier: the position of the channel in the heap. -/
abbrev ChanId := Nat

/-- A channel made by `make(chan *Data, 1)`: the values sent and not yet
received, and whether it has been closed. -/
structure Chan where
  buf : List Data
  closed : Bool
deriving DecidableEq, Repr

/-- The send `ch <- d` on a channel of capacity one: panics on a closed
channel, cannot complete on a full one. -/
def chanSend (chans : List Chan) (ch : ChanId) (d : Data) : Except Fault (List Chan) :=
  match chans[ch]? with
  | none => .error Fault.nilChannel
  | some c =>
    if c.closed then .error Fault.sendOnClosedChannel
    else if 1 ≤ c.buf.length then .error Fault.sendBlocked
    else .ok (chans.set ch (Chan.mk (c.buf ++ [d]) c.closed))

/-- The call `close(ch)`: panics on a closed channel. -/
def chanClose (chans : List Chan) (ch : ChanId) : Except Fault (List Chan) :=
  match chans[ch]? with
  | none => .error Fault.nilChannel
  | some c =>
    if c.closed then .error Fault.closeOfClosedChannel
    else .ok (chans.set ch (Chan.mk c.buf true))

/-! ## The name-keyed tables (`lpm.Matcher`, `exact.Matcher`) -/

/-- A table keyed by the string of a name. -/
abbrev Matcher (ν : Type) := List (GoString × ν)

/-- Modelled from the spec: `update(name, fn, _)` of the LPM trie, a library
outside the repository. It invokes `fn` on the value stored at exactly `key`
(or on nothing) and stores what `fn` returns; returning nothing deletes the
entry. The callback also transforms the state `σ` it closes over. -/
def Matcher.Update {ν σ : Type} (m : Matcher ν) (key : GoString)
    (fn : Option ν → σ → Except Fault (Option ν × σ)) (s : σ) :
    Except Fault (Matcher ν × σ) :=
  match fn (mapGet m key) s with
  | .error x => .error x
  | .ok (none, s1) => .ok (mapDelete m key, s1)
  | .ok (some v, s1) => .ok (mapSet m key v, s1)

/-- Modelled from the spec: `update_all(name, fn)` of the LPM trie. The list
`keys` holds the node names of the walk, shortest first; `fn` is invoked with
the node name and the value at every key that has an entry, and the entry is
replaced or deleted as `fn` says. -/
def Matcher.UpdateAll {ν σ : Type} (m : Matcher ν) (keys : List GoString)
    (fn : GoString → ν → σ → Except Fault (Option ν × σ)) (s : σ) :
    Except Fault (Matcher ν × σ) :=
  match keys with
  | [] => .ok (m, s)
  | key :: rest =>
    match mapGet m key with
    | none => Matcher.UpdateAll m rest fn s
    | some v =>
      match fn key v s with
      | .error x => .error x
      | .ok (none, s1) => Matcher.UpdateAll (mapDelete m key) rest fn s1
      | .ok (some v1, s1) => Matcher.UpdateAll (mapSet m key v1) rest fn s1

/-- The node names visited by `update_all` for a name: the strings of the
component sequences that start the name, from the empty one to the whole. -/
def walkKeys (cstr : Component → GoString) (n : Name) : List GoString :=
  (List.inits n.Components).map (componentsString cstr)

/-! ## The Face -/

/-- A Go `error` value. -/
abbrev GoError := String

/-- The waiters of one PIT entry: `map[chan<- *Data]*Selectors`. -/
abbrev Waiters := List (ChanId × Selectors)

/-- What the callbacks of the PIT close over: the process-wide `ContentStore`,
the channel heap, the interests written to the transport `w`, and the sleeping
goroutines (lifetime timers of `SendInterest`, eviction timers of
`recvData`). -/
structure Runtime where
  ContentStore : Matcher Data
  chans : List Chan
  w : List Interest
  lifetimeTimers : List (Name × ChanId × Nat)
  evictionTimers : List (Name × Nat)

/-- The state of a `Face`: its PIT and the runtime around it. -/
structure Face where
  pit : Matcher Waiters
  rt : Runtime

/-- The callback `SendInterest` passes to `pit.Update`. `wr` is the result of
`i.WriteTo(this.w)` should the write be attempted; the second component of the
state is the captured variable `err`. -/
def sendInterestUpdate (i : Interest) (ch : ChanId) (wr : Option GoError) :
    Option Waiters → Runtime × Option GoError →
    Except Fault (Option Waiters × (Runtime × Option GoError))
  | none, (rt, _) =>
    match wr with
    | some e => .ok (none, (rt, some e))
    | none => .ok (some [(ch, i.Selectors)], ({ rt with w := rt.w ++ [i] }, none))
  | some chs, (rt, err) => .ok (some (mapSet chs ch i.Selectors), (rt, err))

/-- `Face.SendInterest`. The result pairs the new state with the returned
`(channel, error)`: `.ok ch` is `(ch, nil)` and `.error e` is `(nil, e)`. -/
def Face.SendInterest (cstr : Component → GoString) (f : Face) (i : Interest)
    (wr : Option GoError) : Except Fault (Face × Except GoError ChanId) :=
  let ch := f.rt.chans.length
  let rt0 : Runtime := { f.rt with chans := f.rt.chans ++ [Chan.mk [] false] }
  match mapGet rt0.ContentStore (i.Name.String cstr) with
  | some e =>
    match chanSend rt0.chans ch e with
    | .error x => .error x
    | .ok c1 =>
      match chanClose c1 ch with
      | .error x => .error x
      | .ok c2 => .ok (Face.mk f.pit { rt0 with chans := c2 }, .ok ch)
  | none =>
    match Matcher.Update f.pit (i.Name.String cstr) (sendInterestUpdate i ch wr) (rt0, none) with
    | .error x => .error x
    | .ok (pit1, (rt1, some e)) => .ok (Face.mk pit1 rt1, .error e)
    | .ok (pit1, (rt1, none)) =>
      .ok (Face.mk pit1
        { rt1 with lifetimeTimers := rt1.lifetimeTimers ++ [(i.Name, ch, i.LifeTime)] }, .ok ch)

/-- A sequence of `SendInterest` calls, one after the other, on a transport
whose writes succeed; the results of the calls are returned in order. -/
def sendInterests (cstr : Component → GoString) :
    Face → List Interest → Except Fault (Face × List (Except GoError ChanId))
  | f, [] => .ok (f, [])
  | f, i :: rest =>
    match f.SendInterest cstr i none with
    | .error x => .error x
    | .ok (f1, r) =>
      match sendInterests cstr f1 rest with
      | .error x => .error x
      | .ok (f2, rs) => .ok (f2, r :: rs)

/-- The waiters installed by a sequence of calls that allocate the channels
`base`, `base + 1`, and so on. -/
def waitersFrom (base : Nat) : List Interest → Waiters
  | [] => []
  | i :: rest => (base, i.Selectors) :: waitersFrom (base + 1) rest

/-- The channels `base`, `base + 1`, ... returned by `n` successful calls. -/
def channelsFrom (base : Nat) : Nat → List (Except GoError ChanId)
  | 0 => []
  | n + 1 => .ok base :: channelsFrom (base + 1) n

/-- The callback the lifetime goroutine of `SendInterest` passes to
`pit.Update` once its sleep is over. -/
def lifetimeExpiryUpdate (ch : ChanId) :
    Option Waiters → Runtime → Except Fault (Option Waiters × Runtime)
  | none, rt => .ok (none, rt)
  | some m, rt =>
    match mapGet m ch with
    | none => .ok (some m, rt)
    | some _ =>
      match chanClose rt.chans ch with
      | .error x => .error x
      | .ok c =>
        if (mapDelete m ch).length = 0 then .ok (none, { rt with chans := c })
        else .ok (some (mapDelete m ch), { rt with chans := c })

/-- The lifetime-expiry step of the waiter `ch` installed by `SendInterest` for
the interest name `name`: the body of the goroutine after `time.Sleep`. -/
def Face.lifetimeExpiry (cstr : Component → GoString) (f : Face) (name : Name)
    (ch : ChanId) : Except Fault Face :=
  match Matcher.Update f.pit (name.String cstr) (lifetimeExpiryUpdate ch) f.rt with
  | .error x => .error x
  | .ok (pit1, rt1) => .ok (Face.mk pit1 rt1)

/-- The waiter loop of `recvData` over the pairs of the map still to visit:
`m` is the map being mutated. A waiter that passes the filter is sent `d`, has
its channel closed and is deleted from the map. -/
def fanout (d : Data) (suffix : Int) :
    List (ChanId × Selectors) → Waiters → List Chan → Except Fault (Waiters × List Chan)
  | [], m, chans => .ok (m, chans)
  | (ch, sel) :: rest, m, chans =>
    match selectorFilter sel d suffix with
    | .error x => .error x
    | .ok false => fanout d suffix rest m chans
    | .ok true =>
      match chanSend chans ch d with
      | .error x => .error x
      | .ok c1 =>
        match chanClose c1 ch with
        | .error x => .error x
        | .ok c2 => fanout d suffix rest (mapDelete m ch) c2

/-- Whether the filter lets the waiter through (a panic lets nobody through). -/
def passes (sel : Selectors) (d : Data) (suffix : Int) : Bool :=
  match selectorFilter sel d suffix with
  | .ok true => true
  | _ => false

/-- The channels of the waiters of a map that pass the filter. -/
def deliveredTo (d : Data) (suffix : Int) (m : Waiters) : List ChanId :=
  (m.filter (fun p => passes p.2 d suffix)).map Prod.fst

/-- The suffix length `len(d.Name.Components) - strings.Count(name, "/") + 1`. -/
def suffixLen (d : Data) (name : GoString) : Int :=
  (d.Name.Components.length : Int) - (stringsCount name : Int) + 1

/-- The Content Store part of the visitor of `recvData`: insert `d` and arm its
eviction when `d` is fresh and the store has no entry at its name. -/
def cacheFresh (dkey : GoString) (d : Data) (rt : Runtime) : Runtime :=
  if 0 < d.MetaInfo.FreshnessPeriod ∧ (mapGet rt.ContentStore dkey).isNone then
    { rt with
      ContentStore := mapSet rt.ContentStore dkey d
      evictionTimers := rt.evictionTimers ++ [(d.Name, d.MetaInfo.FreshnessPeriod)] }
  else rt

/-- The visitor `recvData` passes to `pit.UpdateAll`; `dkey` is the key of
`d.Name` in the Content Store. -/
def recvDataVisit (dkey : GoString) (d : Data) (name : GoString) (m : Waiters)
    (rt : Runtime) : Except Fault (Option Waiters × Runtime) :=
  let rt1 := cacheFresh dkey d rt
  match fanout d (suffixLen d name) m m rt1.chans with
  | .error x => .error x
  | .ok (m1, c) =>
    if m1.length = 0 then .ok (none, { rt1 with chans := c })
    else .ok (some m1, { rt1 with chans := c })

/-- `Face.recvData`. -/
def Face.recvData (cstr : Component → GoString) (f : Face) (d : Data) : Except Fault Face :=
  match Matcher.UpdateAll f.pit (walkKeys cstr d.Name)
      (recvDataVisit (d.Name.String cstr) d) f.rt with
  | .error x => .error x
  | .ok (pit1, rt1) => .ok (Face.mk pit1 rt1)

/-- The eviction goroutine armed by `recvData`, after its sleep:
`ContentStore.Remove(d.Name)`. -/
def Face.evict (cstr : Component → GoString) (f : Face) (name : Name) : Face :=
  Face.mk f.pit { f.rt with ContentStore := mapDelete f.rt.ContentStore (name.String cstr) }

/-! ## The reader goroutine of `NewFace` -/

/-- What the next bytes of the transport decode as. -/
inductive Packet where
  | data (d : Data)
  | interest (i : Interest)
  | undecodable

/-- A call made by the reader goroutine. -/
inductive ReaderCall where
  | recvData (d : Data)
  | recvInterest (i : Interest)

/-- The loop of the goroutine started by `NewFace`, as the calls it makes on
an inbound packet stream; `hasSink` says whether `interestIn` is non-nil. A
failed `ReadFrom` consumes nothing (the reader is a peek reader); the end of
the stream fails both decodes. -/
def NewFace.readerCalls (hasSink : Bool) : List Packet → List ReaderCall
  | [] => []
  | Packet.data d :: rest => ReaderCall.recvData d :: NewFace.readerCalls hasSink rest
  | Packet.interest i :: rest =>
    if hasSink then ReaderCall.recvInterest i :: NewFace.readerCalls hasSink rest
    else []
  | Packet.undecodable :: _ => []

/-- The data packets passed to `recvData`, in order. -/
def recvDataCalls : List ReaderCall → List Data
  | [] => []
  | ReaderCall.recvData d :: rest => d :: recvDataCalls rest
  | ReaderCall.recvInterest _ :: rest => recvDataCalls rest

/-- The data packets of an inbound stream, in order. -/
def streamData : List Packet → List Data
  | [] => []
  | Packet.data d :: rest => d :: streamData rest
  | _ :: rest => streamData rest

/-! ## The management client (`SendControlInterest`, `Register`, `Unregister`) -/

/-- The struct `Parameters` of `nfd.go`. -/
structure Parameters where
  Name : List (List Nat)
  FaceId : Nat
  Uri : String
  LocalControlFeature : Nat
  Cost : Nat
  Strategy : List (List Nat)
deriving DecidableEq, Repr

/-- The struct `ControlResponse` of `nfd.go`. -/
structure ControlResponse where
  StatusCode : Nat
  StatusText : String
  Body : Parameters
deriving DecidableEq, Repr

/-- Modelled from the spec: the control-interest descriptor (`module`, `command`,
parameters containing the name of the registered name space); its declaration
is not among the source files. Only the fields written by `Register` and
`Unregister` are kept. -/
structure ControlInterest where
  Module : String
  Command : String
  ParametersName : Name

/-- The functions `SendControlInterest` and `Register` call whose code is not
among the source files: `lpm.NewComponents` (behind `NewName`), `Copy(control,
i)`, which converts the descriptor into an interest or fails, and
`Unmarshal(buf, resp, type)`, which fills `resp` and returns an error or
nil. -/
structure ControlEnv where
  NewComponents : GoString → List Component
  Copy : ControlInterest → Except GoError Interest
  Unmarshal : List Nat → Nat → ControlResponse × Option GoError

/-- `NewName`. -/
def NewName (env : ControlEnv) (s : GoString) : Name := Name.mk (env.NewComponents s) []

/-- The error `fmt.Errorf("(%d) %s", resp.StatusCode, resp.StatusText)`. -/
def statusError (code : Nat) (text : String) : GoError :=
  "(" ++ Nat.repr code ++ ") " ++ text

/-- The error `fmt.Errorf("control response timeout")`. -/
def timeoutError : GoError := "control response timeout"

/-- `Face.SendControlInterest`. `wr` is the result of the transport write should
`SendInterest` attempt it; `received` is what `d, ok := <-ch` yields once the
response channel holds a value or has been closed (`none` is `ok = false`).
The result holds the new state and the returned `(resp, err)`. -/
def Face.SendControlInterest (cstr : Component → GoString) (env : ControlEnv) (f : Face)
    (control : ControlInterest) (wr : Option GoError) (received : Option Data) :
    Except Fault (Face × Option ControlResponse × Option GoError) :=
  match env.Copy control with
  | .error e => .ok (f, none, some e)
  | .ok i =>
    match f.SendInterest cstr i wr with
    | .error x => .error x
    | .ok (f1, .error e) => .ok (f1, none, some e)
    | .ok (f1, .ok _) =>
      match received with
      | none => .ok (f1, none, some timeoutError)
      | some d =>
        match env.Unmarshal d.Content 101 with
        | (resp, some e) => .ok (f1, some resp, some e)
        | (resp, none) =>
          if resp.StatusCode ≠ 200 then
            .ok (f1, some resp, some (statusError resp.StatusCode resp.StatusText))
          else .ok (f1, some resp, none)

/-- The descriptor built by `Register` (`command = "register"`) and by
`Unregister` (`command = "unregister"`). -/
def ribControl (env : ControlEnv) (command : String) (name : GoString) : ControlInterest :=
  ControlInterest.mk "rib" command (NewName env name)

/-- `Face.Register`: the error of `SendControlInterest` on the `register`
descriptor. -/
def Face.Register (cstr : Component → GoString) (env : ControlEnv) (f : Face)
    (name : GoString) (wr : Option GoError) (received : Option Data) :
    Except Fault (Face × Option GoError) :=
  match f.SendControlInterest cstr env (ribControl env "register" name) wr received with
  | .error x => .error x
  | .ok (f1, _, err) => .ok (f1, err)

/-- `Face.Unregister`: the error of `SendControlInterest` on the `unregister`
descriptor. -/
def Face.Unregister (cstr : Component → GoString) (env : ControlEnv) (f : Face)
    (name : GoString) (wr : Option GoError) (received : Option Data) :
    Except Fault (Face × Option GoError) :=
  match f.SendControlInterest cstr env (ribControl env "unregister" name) wr received with
  | .error x => .error x
  | .ok (f1, _, err) => .ok (f1, err)

/-! ## Reachable states -/

/-- One step of a Face: a call of `SendInterest`, a call of `recvData`, the
expiry of an armed lifetime timer, or the firing of an armed eviction timer.
Only steps that complete have a successor state. -/
inductive Step (cstr : Component → GoString) : Face → Face → Prop where
  | sendInterest (f : Face) (i : Interest) (wr : Option GoError) (f1 : Face)
      (r : Except GoError ChanId) :
      f.SendInterest cstr i wr = .ok (f1, r) → Step cstr f f1
  | recvData (f : Face) (d : Data) (f1 : Face) :
      f.recvData cstr d = .ok f1 → Step cstr f f1
  | lifetimeExpiry (f : Face) (name : Name) (ch : ChanId) (lt : Nat) (f1 : Face) :
      (name, ch, lt) ∈ f.rt.lifetimeTimers →
      f.lifetimeExpiry cstr name ch = .ok f1 →
      Step cstr f (Face.mk f1.pit
        { f1.rt with lifetimeTimers := f1.rt.lifetimeTimers.erase (name, ch, lt) })
  | evict (f : Face) (name : Name) (fp : Nat) :
      (name, fp) ∈ f.rt.evictionTimers →
      Step cstr f (Face.mk (f.evict cstr name).pit
        { (f.evict cstr name).rt with
          evictionTimers := (f.evict cstr name).rt.evictionTimers.erase (name, fp) })

/-- The states a Face can reach from a state with an empty PIT. -/
inductive Reachable (cstr : Component → GoString) : Face → Prop where
  | init (f : Face) : f.pit = [] → Reachable cstr f
  | step (f f1 : Face) : Reachable cstr f → Step cstr f f1 → Reachable cstr f1

/-- Every PIT entry has at least one waiter. -/
def NonEmptyEntries (pit : Matcher Waiters) : Prop := ∀ p ∈ pit, p.2 ≠ []

/-- The data `d` needs no insertion into the store of `rt`: it is not fresh or
the store has an entry at its key. -/
def Settled (dkey : GoString) (d : Data) (rt : Runtime) : Prop :=
  ¬ (0 < d.MetaInfo.FreshnessPeriod ∧ (mapGet rt.ContentStore dkey).isNone = true)

/-- Every waiter channel of the map is open and holds no value. -/
def WaitersOpen (chans : List Chan) (m : Waiters) : Prop :=
  ∀ ch ∈ mapKeys m, chans[ch]? = some (Chan.mk [] false)

/-- The PIT and the channel heap fit together: in every entry the waiter
channels are pairwise distinct, open and empty, and no channel waits in two
entries. -/
def WellFormedPIT (pit : Matcher Waiters) (chans : List Chan) : Prop :=
  ∀ k m, mapGet pit k = some m →
    (mapKeys m).Nodup ∧ WaitersOpen chans m ∧
    ∀ k2 m2, k2 ≠ k → mapGet pit k2 = some m2 → ∀ ch ∈ mapKeys m, ch ∉ mapKeys m2

/-- The state of a Face is well formed. -/
def WellFormed (f : Face) : Prop := WellFormedPIT f.pit f.rt.chans

/-- No waiter of an entry at one of the keys makes the exclude lookup of the
filter panic for the data `d`. -/
def NoPanic (d : Data) (keys : List GoString) (pit : Matcher Waiters) : Prop :=
  ∀ k ∈ keys, ∀ m, mapGet pit k = some m →
    ∀ p ∈ m, ∃ b, selectorFilter p.2 d (suffixLen d k) = .ok b

/-- The entry left at a node by the visit of `recvData`: the waiters that do
not pass the filter, or no entry when none is left. -/
def entryAfter (d : Data) (k : GoString) (m : Waiters) : Option Waiters :=
  if (m.filter (fun p => !passes p.2 d (suffixLen d k))).length = 0 then none
  else some (m.filter (fun p => !passes p.2 d (suffixLen d k)))

/-- The channel `c` waits, in the entry at one of the keys, with selectors that
pass the filter for the data `d`. -/
def Delivered (d : Data) (keys : List GoString) (pit : Matcher Waiters) (c : ChanId) : Prop :=
  ∃ k ∈ keys, ∃ m, mapGet pit k = some m ∧ c ∈ deliveredTo d (suffixLen d k) m

/-! ## The canonical order the doc comment of `Name.Compare` cites -/

/-- The order of two name components in the NDN canonical order, written from
the words of the name specification: a component with fewer bytes is smaller
than any component with more bytes, and two components of equal length are
ordered bytewise. -/
def canonicalComponentOrder (a b : Component) : Int :=
  if a.length < b.length then -1
  else if b.length < a.length then 1
  else bytesCompare a b

/-- The NDN canonical order of two component sequences, written from the words
of the name specification: components are compared from the first by
`canonicalComponentOrder`, and when all shared components are equal the
sequence with fewer components is smaller. -/
def canonicalOrder : List Component → List Component → Int
  | [], [] => 0
  | [], _ :: _ => -1
  | _ :: _, [] => 1
  | a :: as, b :: bs =>
    if canonicalComponentOrder a b ≠ 0 then canonicalComponentOrder a b
    else canonicalOrder as bs

/-- The string of a component never holds the separator `'/'`. -/
def SlashFree (cstr : Component → GoString) : Prop := ∀ c, slash ∉ cstr c

/-- Zero or more steps of a Face. -/
inductive Steps (cstr : Component → GoString) : Face → Face → Prop where
  | refl (f : Face) : Steps cstr f f
  | tail (f g h : Face) : Steps cstr f g → Step cstr g h → Steps cstr f h

/-- Every Content Store entry is stored at the key of the name of its data. -/
def CSConsistent (cstr : Component → GoString) (cs : Matcher Data) : Prop :=
  ∀ k d, mapGet cs k = some d → k = d.Name.String cstr

/-- The string of a name determines its components. -/
def NameInjective (cstr : Component → GoString) : Prop :=
  ∀ p q : List Component, componentsString cstr p = componentsString cstr q → p = q

/-- The channel `ch` returned by `SendInterest(i)`, followed through the states
of the Face: the state is well formed, `ch` is in the heap, `ch` waits in no
entry other than the one at the name of `i`, and every data on `ch` was walked
to through the name of `i`. -/
def Tracks (cstr : Component → GoString) (i : Interest) (ch : ChanId) (f : Face) : Prop :=
  WellFormed f ∧ (∃ c, f.rt.chans[ch]? = some c) ∧
    (∀ k m, mapGet f.pit k = some m → ch ∈ mapKeys m → k = i.Name.String cstr) ∧
    (∀ c, f.rt.chans[ch]? = some c →
      ∀ d ∈ c.buf, i.Name.String cstr ∈ walkKeys cstr d.Name)

/-- The data `d` with the name of its key locator replaced by `n`. -/
def withKeyLocatorName (d : Data) (n : Name) : Data :=
  { d with SignatureInfo :=
      { d.SignatureInfo with KeyLocator := { d.SignatureInfo.KeyLocator with Name := n } } }

/-! ## `recvData` with the state it leaves behind at a panic -/

/-- A run that stopped on a fault or ran to its end, read as a result: the
state left behind by a fault is dropped. -/
def toExcept {α : Type} : Option Fault × α → Except Fault α
  | (none, a) => .ok a
  | (some x, _) => .error x

/-- The waiter loop of `recvData` together with what it leaves behind when it
stops: the fault, if it stopped on one, and the map and the channel heap as
mutated so far (the Go map and the channels are mutated in place). -/
def fanoutUntil (d : Data) (suffix : Int) :
    List (ChanId × Selectors) → Waiters → List Chan → Option Fault × Waiters × List Chan
  | [], m, chans => (none, m, chans)
  | (ch, sel) :: rest, m, chans =>
    match selectorFilter sel d suffix with
    | .error x => (some x, m, chans)
    | .ok false => fanoutUntil d suffix rest m chans
    | .ok true =>
      match chanSend chans ch d with
      | .error x => (some x, m, chans)
      | .ok c1 =>
        match chanClose c1 ch with
        | .error x => (some x, m, c1)
        | .ok c2 => fanoutUntil d suffix rest (mapDelete m ch) c2

/-- The visitor of `recvData` together with what it leaves behind when it
stops: the Content Store insert comes first, so it is done even when the
waiter loop panics; on a fault the entry is the map as mutated so far. -/
def recvDataVisitUntil (dkey : GoString) (d : Data) (name : GoString) (m : Waiters)
    (rt : Runtime) : Option Fault × Option Waiters × Runtime :=
  match fanoutUntil d (suffixLen d name) m m (cacheFresh dkey d rt).chans with
  | (some x, m1, c) => (some x, some m1, { cacheFresh dkey d rt with chans := c })
  | (none, m1, c) =>
    if m1.length = 0 then (none, none, { cacheFresh dkey d rt with chans := c })
    else (none, some m1, { cacheFresh dkey d rt with chans := c })

/-- The walk of `recvData` over the node names together with what it leaves
behind when it stops: a fault in a visit ends the walk at that node. -/
def walkUntil (dkey : GoString) (d : Data) :
    List GoString → Matcher Waiters → Runtime → Option Fault × Matcher Waiters × Runtime
  | [], pit, rt => (none, pit, rt)
  | key :: rest, pit, rt =>
    match mapGet pit key with
    | none => walkUntil dkey d rest pit rt
    | some m =>
      match recvDataVisitUntil dkey d key m rt with
      | (some x, some m1, rt1) => (some x, mapSet pit key m1, rt1)
      | (some x, none, rt1) => (some x, pit, rt1)
      | (none, none, rt1) => walkUntil dkey d rest (mapDelete pit key) rt1
      | (none, some m1, rt1) => walkUntil dkey d rest (mapSet pit key m1) rt1

/-- `Face.recvData` together with the state it leaves behind when it stops,
on its return or on a panic. -/
def Face.recvDataUntil (cstr : Component → GoString) (f : Face) (d : Data) :
    Option Fault × Face :=
  match walkUntil (d.Name.String cstr) d (walkKeys cstr d.Name) f.pit f.rt with
  | (x, pit1, rt1) => (x, Face.mk pit1 rt1)

/-! ## Sample packets -/

/-- The exclude expression that excludes nothing. -/
def noExclude : Exclude := Exclude.mk (fun _ => false)

/-- The exclude expression that excludes exactly the component `c`. -/
def excludeOnly (c : Component) : Exclude := Exclude.mk (fun x => decide (x = c))

/-- The name with the given components and no implicit digest. -/
def nameOf (cs : List Component) : Name := Name.mk cs []

/-- Selectors with every field unset. -/
def noSelectors : Selectors :=
  Selectors.mk 0 0 (KeyLocator.mk (nameOf []) []) noExclude 0 false

/-- Selectors with only `MaxSuffixComponents` set. -/
def maxSuffix (n : Nat) : Selectors :=
  Selectors.mk 0 n (KeyLocator.mk (nameOf []) []) noExclude 0 false

/-- A data packet with the given name components, freshness period and content. -/
def dataOf (cs : List Component) (fresh : Nat) (content : List Nat) : Data :=
  Data.mk (nameOf cs) (MetaInfo.mk 0 fresh) content
    (SignatureInfo.mk 0 (KeyLocator.mk (nameOf []) [])) []

/-- An interest with the given name components, selectors and lifetime. -/
def interestOf (cs : List Component) (sel : Selectors) (lifetime : Nat) : Interest :=
  Interest.mk (nameOf cs) sel [] lifetime

/-- A component string function that copies the bytes of the component. -/
def rawString : Component → GoString := fun c => c

/-- A state with nothing in it: empty PIT, empty Content Store, no channel. -/
def emptyFace : Face := Face.mk [] (Runtime.mk [] [] [] [] [])


/-- The interest `/a` with no selectors and a lifetime of four seconds. -/
def interestA : Interest := interestOf [[97]] noSelectors 4000

/-- The state of a Face after `SendInterest(interestA)` on `emptyFace`: one PIT
entry at `/a` with the waiter channel `0`, one interest written, one lifetime
timer armed. -/
def faceWaitingA : Face :=
  Face.mk [([47, 97], [(0, noSelectors)])]
    (Runtime.mk [] [Chan.mk [] false] [interestA] [(nameOf [[97]], 0, 4000)] [])

/-- The data `/a/b`, not fresh. -/
def dataAB : Data := dataOf [[97], [98]] 0 [104, 105]

/-- The data `/a`, fresh for half a second. -/
def dataA : Data := dataOf [[97]] 500 [104, 105]

/-- A state whose Content Store holds `dataA` at `/a`. -/
def faceCachedA : Face := Face.mk [] (Runtime.mk [([47, 97], dataA)] [] [] [] [])

/-- The interest `/a` that accepts at most one suffix component. -/
def interestA1 : Interest := interestOf [[97]] (maxSuffix 1) 4000

/-- The state after `SendInterest(interestA1)` on `emptyFace`. -/
def faceWaitingA1 : Face :=
  Face.mk [([47, 97], [(0, maxSuffix 1)])]
    (Runtime.mk [] [Chan.mk [] false] [interestA1] [(nameOf [[97]], 0, 4000)] [])

/-- The state after `SendInterest(interestA1)` then `SendInterest(interestA)` on
`emptyFace`: the two interests are aggregated in one entry at `/a`. -/
def faceTwoWaiters : Face :=
  Face.mk [([47, 97], [(0, maxSuffix 1), (1, noSelectors)])]
    (Runtime.mk [] [Chan.mk [] false, Chan.mk [] false] [interestA1]
      [(nameOf [[97]], 0, 4000), (nameOf [[97]], 1, 4000)] [])

/-- The string of one byte of a component in a percent-escaping component
string: `'/'` is written `%2F`, `'%'` is written `%25`, any other byte is
itself. -/
def percentByte (b : Nat) : GoString :=
  if b = 47 then [37, 50, 70] else if b = 37 then [37, 50, 53] else [b]

/-- A component string function that percent-escapes `'/'` and `'%'`. -/
def percentString : Component → GoString
  | [] => []
  | b :: rest => percentByte b ++ percentString rest

/-- The interest for the empty name `/`, with no selectors. -/
def interestRoot : Interest := interestOf [] noSelectors 4000

/-- The state after `SendInterest(interestRoot)` on `emptyFace`: one PIT entry at
the empty name string, with the waiter channel `0`. -/
def faceWaitingRoot : Face :=
  Face.mk [([], [(0, noSelectors)])]
    (Runtime.mk [] [Chan.mk [] false] [interestRoot] [(nameOf [], 0, 4000)] [])

/-- The state after `recvData(dataAB)` on `faceWaitingA`: the waiter of `/a` has
been sent the data `/a/b` and its entry is gone. -/
def faceDeliveredAB : Face :=
  Face.mk []
    (Runtime.mk [] [Chan.mk [dataAB] true] [interestA] [(nameOf [[97]], 0, 4000)] [])

/-- Control parameters with nothing set. -/
def noParameters : Parameters := Parameters.mk [] 0 "" 0 0 []

/-- A toy codec for the management client: a name string is parsed as one
component, the descriptor converts to an interest for its parameter name, and
a content of one element `c` decodes to the response with status code `c`
(text `OK` for `200`, `bad` otherwise); any other content fails to decode. -/
def toyEnv : ControlEnv :=
  ControlEnv.mk (fun s => [s])
    (fun control => .ok (interestOf control.ParametersName.Components noSelectors 4000))
    (fun buf _ =>
      match buf with
      | [c] => (ControlResponse.mk c (if c = 200 then "OK" else "bad") noParameters, none)
      | _ => (ControlResponse.mk 0 "" noParameters, some "unexpected TLV"))

/-- Selectors whose exclude covers exactly the component `c`. -/
def excludeSelectors (c : Component) : Selectors :=
  Selectors.mk 0 0 (KeyLocator.mk (nameOf []) []) (excludeOnly c) 0 false

/-- Selectors that ask for the publisher key locator name `/k`. -/
def publisherSelectors : Selectors :=
  Selectors.mk 0 0 (KeyLocator.mk (nameOf [[107]]) []) noExclude 0 false

/-- The state after `SendInterest(interestRoot)` then `SendInterest(interestA)` on
`emptyFace`, with percent-escaped component strings: one waiter at the empty
name and one at `/a`. -/
def faceRootAndA : Face :=
  Face.mk [([], [(0, noSelectors)]), ([47, 97], [(1, noSelectors)])]
    (Runtime.mk [] [Chan.mk [] false, Chan.mk [] false] [interestRoot, interestA]
      [(nameOf [], 0, 4000), (nameOf [[97]], 1, 4000)] [])

/-- The state after `recvData(dataAB)` on `faceTwoWaiters`: the waiter on channel
`1` has been sent the data and removed, the waiter on channel `0` is still in
the entry at `/a`. -/
def faceTwoAfterAB : Face :=
  Face.mk [([47, 97], [(0, maxSuffix 1)])]
    (Runtime.mk [] [Chan.mk [] false, Chan.mk [dataAB] true] [interestA1]
      [(nameOf [[97]], 0, 4000), (nameOf [[97]], 1, 4000)] [])

/-- The state after `recvData(dataA)` on `faceWaitingA`: the waiter of `/a` has
been sent the fresh data `/a`, which is now in the Content Store with its
eviction armed. -/
def faceCachedDeliveredA : Face :=
  Face.mk []
    (Runtime.mk [([47, 97], dataA)] [Chan.mk [dataA] true] [interestA]
      [(nameOf [[97]], 0, 4000)] [(nameOf [[97]], 500)])

/-- The state after a second `SendInterest(interestA)` on `faceCachedDeliveredA`:
a Content Store hit, the new channel `1` holds the cached data. -/
def faceHitA : Face :=
  Face.mk []
    (Runtime.mk [([47, 97], dataA)] [Chan.mk [dataA] true, Chan.mk [dataA] true]
      [interestA] [(nameOf [[97]], 0, 4000)] [(nameOf [[97]], 500)])

/-- The interest `/a/b` that accepts at most one suffix component (scenario
S4). -/
def interestAB1 : Interest := interestOf [[97], [98]] (maxSuffix 1) 4000

/-- The state after `SendInterest(interestAB1)` on `emptyFace`. -/
def faceWaitingAB1 : Face :=
  Face.mk [([47, 97, 47, 98], [(0, maxSuffix 1)])]
    (Runtime.mk [] [Chan.mk [] false] [interestAB1] [(nameOf [[97], [98]], 0, 4000)] [])

/-- The data `/a/b/c`, not fresh (scenario S4). -/
def dataABC : Data := dataOf [[97], [98], [99]] 0 [104, 105]

/-! ## Lemmas on maps -/

theorem mapGet_mapSet_self {κ ν : Type} [DecidableEq κ] (m : List (κ × ν)) (k : κ) (v : ν) :
    mapGet (mapSet m k v) k = some v := by
  induction m with
  | nil => simp [mapSet, mapGet]
  | cons p rest ih =>
    obtain ⟨a, b⟩ := p
    by_cases h : a = k
    · simp [mapSet, mapGet, h]
    · simp [mapSet, mapGet, h, ih]

theorem mapGet_mapSet_ne {κ ν : Type} [DecidableEq κ] (m : List (κ × ν)) (k k1 : κ) (v : ν)
    (hne : k ≠ k1) : mapGet (mapSet m k v) k1 = mapGet m k1 := by
  induction m with
  | nil => simp [mapSet, mapGet, hne]
  | cons p rest ih =>
    obtain ⟨a, b⟩ := p
    by_cases h : a = k
    · subst h; simp [mapSet, mapGet, hne]
    · by_cases h1 : a = k1
      · subst h1; simp [mapSet, mapGet, h]
      · simp [mapSet, mapGet, h, h1, ih]

theorem mapGet_mapDelete_self {κ ν : Type} [DecidableEq κ] (m : List (κ × ν)) (k : κ) :
    mapGet (mapDelete m k) k = none := by
  induction m with
  | nil => simp [mapDelete, mapGet]
  | cons p rest ih =>
    obtain ⟨a, b⟩ := p
    by_cases h : a = k
    · simp [mapDelete, h, ih]
    · simp [mapDelete, mapGet, h, ih]

theorem mapGet_mapDelete_ne {κ ν : Type} [DecidableEq κ] (m : List (κ × ν)) (k k1 : κ)
    (hne : k ≠ k1) : mapGet (mapDelete m k) k1 = mapGet m k1 := by
  induction m with
  | nil => simp [mapDelete, mapGet]
  | cons p rest ih =>
    obtain ⟨a, b⟩ := p
    by_cases h : a = k
    · subst h; simp [mapDelete, mapGet, hne, ih]
    · by_cases h1 : a = k1
      · subst h1; simp [mapDelete, mapGet, h]
      · simp [mapDelete, mapGet, h, h1, ih]

theorem mapGet_eq_none_iff {κ ν : Type} [DecidableEq κ] (m : List (κ × ν)) (k : κ) :
    mapGet m k = none ↔ k ∉ mapKeys m := by
  induction m with
  | nil => simp [mapGet, mapKeys]
  | cons p rest ih =>
    obtain ⟨a, b⟩ := p
    by_cases h : a = k
    · simp [mapGet, mapKeys, h]
    · have h2 : ¬ k = a := fun e => h e.symm
      simp only [mapGet, h, if_false, ih, mapKeys, List.map_cons, List.mem_cons, h2, false_or]

theorem mapDelete_eq_filter {κ ν : Type} [DecidableEq κ] (m : List (κ × ν)) (k : κ) :
    mapDelete m k = m.filter (fun p => decide (p.1 ≠ k)) := by
  induction m with
  | nil => simp [mapDelete]
  | cons p rest ih =>
    obtain ⟨a, b⟩ := p
    by_cases h : a = k
    · simp [mapDelete, h, ih]
    · simp [mapDelete, h, ih]

theorem mapDelete_of_absent {κ ν : Type} [DecidableEq κ] (m : List (κ × ν)) (k : κ)
    (h : mapGet m k = none) : mapDelete m k = m := by
  rw [mapDelete_eq_filter]
  rw [mapGet_eq_none_iff] at h
  apply List.filter_eq_self.mpr
  intro p hp
  simp only [ne_eq, decide_not, Bool.not_eq_true', decide_eq_false_iff_not]
  intro e
  exact h (by rw [← e]; exact List.mem_map_of_mem Prod.fst hp)

theorem mapSet_of_present {κ ν : Type} [DecidableEq κ] (m : List (κ × ν)) (k : κ) (v : ν)
    (h : mapGet m k = some v) : mapSet m k v = m := by
  induction m with
  | nil => simp [mapGet] at h
  | cons p rest ih =>
    obtain ⟨a, b⟩ := p
    by_cases h1 : a = k
    · simp [mapGet, h1] at h
      simp [mapSet, h1, h]
    · simp [mapGet, h1] at h
      simp [mapSet, h1, ih h]

theorem mapSet_of_absent {κ ν : Type} [DecidableEq κ] (m : List (κ × ν)) (k : κ) (v : ν)
    (h : mapGet m k = none) : mapSet m k v = m ++ [(k, v)] := by
  induction m with
  | nil => simp [mapSet]
  | cons p rest ih =>
    obtain ⟨a, b⟩ := p
    by_cases h1 : a = k
    · simp [mapGet, h1] at h
    · simp [mapGet, h1] at h
      simp [mapSet, h1, ih h]

theorem mapGet_of_mem {κ ν : Type} [DecidableEq κ] (m : List (κ × ν)) (k : κ) (v : ν)
    (hnd : (mapKeys m).Nodup) (h : (k, v) ∈ m) : mapGet m k = some v := by
  induction m with
  | nil => simp at h
  | cons p rest ih =>
    obtain ⟨a, b⟩ := p
    simp only [mapKeys, List.map_cons, List.nodup_cons] at hnd
    rcases List.mem_cons.mp h with e | hin
    · cases e; simp [mapGet]
    · have hne : a ≠ k := by
        intro e; subst e
        exact hnd.1 (List.mem_map_of_mem Prod.fst hin)
      simp [mapGet, hne, ih hnd.2 hin]

theorem mem_of_mapGet {κ ν : Type} [DecidableEq κ] (m : List (κ × ν)) (k : κ) (v : ν)
    (h : mapGet m k = some v) : (k, v) ∈ m := by
  induction m with
  | nil => simp [mapGet] at h
  | cons p rest ih =>
    obtain ⟨a, b⟩ := p
    by_cases h1 : a = k
    · simp [mapGet, h1] at h
      simp [h1, h]
    · simp [mapGet, h1] at h
      exact List.mem_cons_of_mem _ (ih h)

/-! ## Lemmas on channels -/

theorem chanSend_open_empty (chans : List Chan) (ch : ChanId) (d : Data)
    (h : chans[ch]? = some (Chan.mk [] false)) :
    chanSend chans ch d = .ok (chans.set ch (Chan.mk [d] false)) := by
  simp [chanSend, h]

theorem chanClose_open (chans : List Chan) (ch : ChanId) (b : List Data)
    (h : chans[ch]? = some (Chan.mk b false)) :
    chanClose chans ch = .ok (chans.set ch (Chan.mk b true)) := by
  simp [chanClose, h]

theorem getElem?_set_self_of_some (chans : List Chan) (ch : ChanId) (c c1 : Chan)
    (h : chans[ch]? = some c) : (chans.set ch c1)[ch]? = some c1 := by
  have hlt : ch < chans.length := by
    by_contra hc
    rw [List.getElem?_eq_none (Nat.le_of_not_lt hc)] at h
    cases h
  simp [List.getElem?_set_self, hlt]

/-! ## Selector filter -/

theorem toUint64_of_nonneg (s : Int) (h0 : 0 ≤ s) (h1 : s < 2 ^ 63) :
    (toUint64 s : Int) = s := by
  unfold toUint64
  have h2 : s % (2 : Int) ^ 64 = s := Int.emod_eq_of_lt h0 (by omega)
  rw [h2]
  exact Int.toNat_of_nonneg h0

/-- C1: for a suffix length `s` (a non-negative Go `int`), the guards of the
waiter loop let a waiter through exactly when all five selector conditions
hold: minimum unset or met, maximum unset or met, publisher name unset or
comparing equal, publisher digest unset or byte-equal, and `s ≤ 0` or the
component at index `len - s` exists and is not excluded. -/
theorem selectorFilter_matched_iff (sel : Selectors) (d : Data) (s : Int)
    (h0 : 0 ≤ s) (h1 : s < 2 ^ 63) :
    selectorFilter sel d s = .ok true ↔
      ((sel.MinSuffixComponents = 0 ∨ (sel.MinSuffixComponents : Int) ≤ s) ∧
       (sel.MaxSuffixComponents = 0 ∨ s ≤ (sel.MaxSuffixComponents : Int)) ∧
       (sel.PublisherPublicKeyLocator.Name.Components = [] ∨
          sel.PublisherPublicKeyLocator.Name.Compare d.SignatureInfo.KeyLocator.Name = 0) ∧
       (sel.PublisherPublicKeyLocator.Digest = [] ∨
          sel.PublisherPublicKeyLocator.Digest = d.SignatureInfo.KeyLocator.Digest) ∧
       (s ≤ 0 ∨ ∃ c, indexAt d.Name.Components ((d.Name.Components.length : Int) - s) = some c ∧
          sel.Exclude.IsExcluded c = false)) := by
  have hu := toUint64_of_nonneg s h0 h1
  have guards : ¬ (sel.MinSuffixComponents ≠ 0 ∧ sel.MinSuffixComponents > toUint64 s) →
      ¬ (sel.MaxSuffixComponents ≠ 0 ∧ sel.MaxSuffixComponents < toUint64 s) →
      ¬ (sel.PublisherPublicKeyLocator.Name.Components ≠ [] ∧
        sel.PublisherPublicKeyLocator.Name.Compare d.SignatureInfo.KeyLocator.Name ≠ 0) →
      ¬ (sel.PublisherPublicKeyLocator.Digest ≠ [] ∧
        sel.PublisherPublicKeyLocator.Digest ≠ d.SignatureInfo.KeyLocator.Digest) →
      (sel.MinSuffixComponents = 0 ∨ (sel.MinSuffixComponents : Int) ≤ s) ∧
      (sel.MaxSuffixComponents = 0 ∨ s ≤ (sel.MaxSuffixComponents : Int)) ∧
      (sel.PublisherPublicKeyLocator.Name.Components = [] ∨
        sel.PublisherPublicKeyLocator.Name.Compare d.SignatureInfo.KeyLocator.Name = 0) ∧
      (sel.PublisherPublicKeyLocator.Digest = [] ∨
        sel.PublisherPublicKeyLocator.Digest = d.SignatureInfo.KeyLocator.Digest) := by
    intro c1 c2 c3 c4
    refine ⟨?_, ?_, ?_, ?_⟩
    · by_contra hc; push_neg at hc; exact c1 ⟨hc.1, by omega⟩
    · by_contra hc; push_neg at hc; exact c2 ⟨hc.1, by omega⟩
    · by_contra hc; push_neg at hc; exact c3 hc
    · by_contra hc; push_neg at hc; exact c4 hc
  unfold selectorFilter
  simp only [bytesEqual, List.length_eq_zero, ne_eq, gt_iff_lt, decide_eq_false_iff_not]
  split_ifs with c1 c2 c3 c4 c5
  · simp; intro h; rcases h with h | h <;> omega
  · simp; intro _ h; rcases h with h | h <;> omega
  · simp; intro _ _ h; rcases h with h | h
    · exact absurd h c3.1
    · exact absurd h c3.2
  · simp; intro _ _ _ h; rcases h with h | h
    · exact absurd h c4.1
    · exact absurd h c4.2
  · obtain ⟨e1, e2, e3, e4⟩ := guards c1 c2 c3 c4
    cases hidx : indexAt d.Name.Components ((d.Name.Components.length : Int) - s) with
    | none => simp; intro _ _ _ _; omega
    | some c =>
      cases hex : sel.Exclude.IsExcluded c with
      | true => simp [hex]; intro _ _ _ _; omega
      | false => simp [hex]; exact ⟨e1, e2, e3, e4⟩
  · obtain ⟨e1, e2, e3, e4⟩ := guards c1 c2 c3 c4
    simp; exact ⟨e1, e2, e3, e4, Or.inl (by omega)⟩

theorem selectorFilter_matched_iff_witness :
    (0 : Int) ≤ 1 ∧ (1 : Int) < 2 ^ 63 ∧
      selectorFilter (maxSuffix 1) (dataOf [[97], [98]] 0 []) 1 = .ok true :=
  ⟨by decide, by decide,
    (selectorFilter_matched_iff (maxSuffix 1) (dataOf [[97], [98]] 0 []) 1
      (by decide) (by decide)).mpr
      ⟨Or.inl rfl, Or.inr (by decide), Or.inl rfl, Or.inl rfl,
        Or.inr ⟨[98], by decide, rfl⟩⟩⟩

/-! ## Fanout -/

theorem passes_iff (sel : Selectors) (d : Data) (s : Int) :
    passes sel d s = true ↔ selectorFilter sel d s = .ok true := by
  unfold passes
  split <;> simp_all

theorem fanout_spec (d : Data) (s : Int) (rest : List (ChanId × Selectors)) :
    ∀ (m : Waiters) (chans : List Chan),
      (mapKeys rest).Nodup →
      (∀ ch ∈ mapKeys rest, chans[ch]? = some (Chan.mk [] false)) →
      (∀ p ∈ rest, ∃ b, selectorFilter p.2 d s = .ok b) →
      ∃ chans1, fanout d s rest m chans =
          .ok (m.filter (fun p => decide (p.1 ∉ deliveredTo d s rest)), chans1) ∧
        chans1.length = chans.length ∧
        (∀ ch ∈ deliveredTo d s rest, chans1[ch]? = some (Chan.mk [d] true)) ∧
        (∀ ch, ch ∉ deliveredTo d s rest → chans1[ch]? = chans[ch]?) := by
  induction rest with
  | nil =>
    intro m chans _ _ _
    exact ⟨chans, by simp [fanout, deliveredTo], rfl, by simp [deliveredTo], fun _ _ => rfl⟩
  | cons p rest ih =>
    obtain ⟨ch, sel⟩ := p
    intro m chans hnd hopen hok
    simp only [mapKeys, List.map_cons, List.nodup_cons] at hnd
    have hopen1 : ∀ c ∈ mapKeys rest, chans[c]? = some (Chan.mk [] false) :=
      fun c hc => hopen c (List.mem_cons_of_mem _ hc)
    have hok1 : ∀ q ∈ rest, ∃ b, selectorFilter q.2 d s = .ok b :=
      fun q hq => hok q (List.mem_cons_of_mem _ hq)
    obtain ⟨b, hb⟩ := hok (ch, sel) (List.mem_cons_self _ _)
    simp only at hb
    cases b with
    | false =>
      have hdel : deliveredTo d s ((ch, sel) :: rest) = deliveredTo d s rest := by
        simp [deliveredTo, List.filter_cons, passes, hb]
      obtain ⟨chans1, h1, h2, h3, h4⟩ := ih m chans hnd.2 hopen1 hok1
      refine ⟨chans1, ?_, h2, ?_, ?_⟩
      · simp only [fanout, hb, hdel]; exact h1
      · rw [hdel]; exact h3
      · rw [hdel]; exact h4
    | true =>
      have hdel : deliveredTo d s ((ch, sel) :: rest) = ch :: deliveredTo d s rest := by
        simp [deliveredTo, List.filter_cons, passes, hb]
      have hch : chans[ch]? = some (Chan.mk [] false) := hopen ch (List.mem_cons_self _ _)
      have hsend := chanSend_open_empty chans ch d hch
      have hc1 : (chans.set ch (Chan.mk [d] false))[ch]? = some (Chan.mk [d] false) :=
        getElem?_set_self_of_some chans ch _ _ hch
      have hclose := chanClose_open (chans.set ch (Chan.mk [d] false)) ch [d] hc1
      simp only [List.set_set] at hclose
      have hopen2 : ∀ c ∈ mapKeys rest, (chans.set ch (Chan.mk [d] true))[c]? =
          some (Chan.mk [] false) := by
        intro c hc
        have hne : ch ≠ c := by
          intro e; subst e; exact hnd.1 hc
        rw [List.getElem?_set_ne hne]
        exact hopen1 c hc
      obtain ⟨chans1, h1, h2, h3, h4⟩ :=
        ih (mapDelete m ch) (chans.set ch (Chan.mk [d] true)) hnd.2 hopen2 hok1
      have hnotin : ch ∉ deliveredTo d s rest := by
        intro hin
        apply hnd.1
        simp only [deliveredTo, List.mem_map] at hin
        obtain ⟨q, hq, e⟩ := hin
        rw [← e]
        exact List.mem_map_of_mem Prod.fst (List.mem_filter.mp hq).1
      refine ⟨chans1, ?_, ?_, ?_, ?_⟩
      · simp only [fanout, hb, hsend, hclose, h1, hdel]
        congr 2
        rw [mapDelete_eq_filter, List.filter_filter]
        apply List.filter_congr
        intro q _
        simp only [List.mem_cons, not_or, ne_eq, decide_not, Bool.decide_and, Bool.and_comm]
      · rw [h2, List.length_set]
      · intro c hc
        rw [hdel] at hc
        rcases List.mem_cons.mp hc with e | hin
        · subst e
          rw [h4 c hnotin]
          exact getElem?_set_self_of_some chans c _ _ hch
        · exact h3 c hin
      · intro c hc
        rw [hdel] at hc
        simp only [List.mem_cons, not_or] at hc
        rw [h4 c hc.2]
        exact List.getElem?_set_ne (fun e => hc.1 e.symm)

theorem mem_deliveredTo_iff (d : Data) (s : Int) (m : Waiters) (hnd : (mapKeys m).Nodup)
    (p : ChanId × Selectors) (hp : p ∈ m) :
    p.1 ∈ deliveredTo d s m ↔ passes p.2 d s = true := by
  constructor
  · intro h
    simp only [deliveredTo, List.mem_map, List.mem_filter] at h
    obtain ⟨q, ⟨hq, hpass⟩, e⟩ := h
    have h1 := mapGet_of_mem m q.1 q.2 hnd hq
    have h2 := mapGet_of_mem m p.1 p.2 hnd hp
    rw [e, h2] at h1
    have e2 : p.2 = q.2 := Option.some.inj h1
    rw [e2]; exact hpass
  · intro h
    simp only [deliveredTo, List.mem_map, List.mem_filter]
    exact ⟨p, ⟨hp, h⟩, rfl⟩

/-- The visit of one PIT entry whose waiter channels are pairwise distinct, open
and empty and whose exclude lookup does not panic: the visit completes and
splits the waiters into those that pass the filter (sent `d`, closed, removed)
and those that fail (untouched, kept). -/
theorem recvDataVisit_split (dkey : GoString) (d : Data) (name : GoString)
    (m : Waiters) (rt : Runtime)
    (hnd : (mapKeys m).Nodup)
    (hopen : ∀ ch ∈ mapKeys m, rt.chans[ch]? = some (Chan.mk [] false))
    (hok : ∀ p ∈ m, ∃ b, selectorFilter p.2 d (suffixLen d name) = .ok b) :
    ∃ r rt1, recvDataVisit dkey d name m rt = .ok (r, rt1) ∧
      (∀ p ∈ m, selectorFilter p.2 d (suffixLen d name) = .ok true →
        rt1.chans[p.1]? = some (Chan.mk [d] true) ∧ ∀ m1, r = some m1 → p.1 ∉ mapKeys m1) ∧
      (∀ p ∈ m, selectorFilter p.2 d (suffixLen d name) = .ok false →
        rt1.chans[p.1]? = some (Chan.mk [] false) ∧ ∃ m1, r = some m1 ∧ p ∈ m1) ∧
      (∀ m1, r = some m1 → m1 = m.filter (fun p => !passes p.2 d (suffixLen d name))) ∧
      (r = none ↔ ∀ p ∈ m, passes p.2 d (suffixLen d name) = true) := by
  have hch : (cacheFresh dkey d rt).chans = rt.chans := by
    unfold cacheFresh; split <;> rfl
  obtain ⟨chans1, h1, _, h3, h4⟩ :=
    fanout_spec d (suffixLen d name) m m (cacheFresh dkey d rt).chans hnd
      (by rw [hch]; exact hopen) hok
  have hfil : m.filter (fun p => decide (p.1 ∉ deliveredTo d (suffixLen d name) m)) =
      m.filter (fun p => !passes p.2 d (suffixLen d name)) := by
    apply List.filter_congr
    intro p hp
    have := mem_deliveredTo_iff d (suffixLen d name) m hnd p hp
    cases hpass : passes p.2 d (suffixLen d name) <;> simp_all
  rw [hfil] at h1
  have hdeliv : ∀ p ∈ m, selectorFilter p.2 d (suffixLen d name) = .ok true →
      chans1[p.1]? = some (Chan.mk [d] true) := by
    intro p hp hsel
    exact h3 p.1 ((mem_deliveredTo_iff d _ m hnd p hp).mpr ((passes_iff _ _ _).mpr hsel))
  have hkeep : ∀ p ∈ m, selectorFilter p.2 d (suffixLen d name) = .ok false →
      chans1[p.1]? = some (Chan.mk [] false) ∧
        p ∈ m.filter (fun p => !passes p.2 d (suffixLen d name)) := by
    intro p hp hsel
    have hnp : passes p.2 d (suffixLen d name) = false := by
      simp [passes, hsel]
    have hnot : p.1 ∉ deliveredTo d (suffixLen d name) m := by
      intro hin
      rw [mem_deliveredTo_iff d _ m hnd p hp, hnp] at hin
      cases hin
    refine ⟨?_, ?_⟩
    · rw [h4 p.1 hnot, hch]
      exact hopen p.1 (List.mem_map_of_mem Prod.fst hp)
    · exact List.mem_filter.mpr ⟨hp, by simp [hnp]⟩
  have hgone : ∀ p ∈ m, selectorFilter p.2 d (suffixLen d name) = .ok true →
      p.1 ∉ mapKeys (m.filter (fun p => !passes p.2 d (suffixLen d name))) := by
    intro p hp hsel hin
    simp only [mapKeys, List.mem_map, List.mem_filter] at hin
    obtain ⟨q, ⟨hq, hqp⟩, e⟩ := hin
    have h5 := mapGet_of_mem m q.1 q.2 hnd hq
    have h6 := mapGet_of_mem m p.1 p.2 hnd hp
    rw [e, h6] at h5
    have e2 : p.2 = q.2 := Option.some.inj h5
    rw [← e2, (passes_iff _ _ _).mpr hsel] at hqp
    simp at hqp
  by_cases hlen : (m.filter (fun p => !passes p.2 d (suffixLen d name))).length = 0
  · refine ⟨none, { cacheFresh dkey d rt with chans := chans1 }, ?_, ?_, ?_, ?_, ?_⟩
    · simp only [recvDataVisit, h1, hlen, if_true]
    · intro p hp hsel
      exact ⟨hdeliv p hp hsel, fun m1 e => by cases e⟩
    · intro p hp hsel
      have := (hkeep p hp hsel).2
      rw [List.length_eq_zero] at hlen
      rw [hlen] at this
      cases this
    · intro m1 e; cases e
    · simp only [true_iff]
      intro p hp
      rw [List.length_eq_zero, List.filter_eq_nil_iff] at hlen
      have := hlen p hp
      simpa using this
  · refine ⟨some (m.filter (fun p => !passes p.2 d (suffixLen d name))),
      { cacheFresh dkey d rt with chans := chans1 }, ?_, ?_, ?_, ?_, ?_⟩
    · simp only [recvDataVisit, h1, hlen, if_false]
    · intro p hp hsel
      refine ⟨hdeliv p hp hsel, ?_⟩
      intro m1 e
      cases e
      exact hgone p hp hsel
    · intro p hp hsel
      exact ⟨(hkeep p hp hsel).1, _, rfl, (hkeep p hp hsel).2⟩
    · intro m1 e; cases e; rfl
    · simp only [false_iff, reduceCtorEq]
      intro hall
      apply hlen
      rw [List.length_eq_zero, List.filter_eq_nil_iff]
      intro p hp
      simp [hall p hp]

/-! ## `SendInterest` -/

theorem set_concat_length (l : List Chan) (a b : Chan) :
    (l ++ [a]).set l.length b = l ++ [b] := by
  induction l with
  | nil => rfl
  | cons x xs ih => simp [List.set, ih]

theorem SendInterest_hit_eq (cstr : Component → GoString) (f : Face) (i : Interest)
    (wr : Option GoError) (e : Data)
    (h : mapGet f.rt.ContentStore (i.Name.String cstr) = some e) :
    f.SendInterest cstr i wr =
      .ok (Face.mk f.pit { f.rt with chans := f.rt.chans ++ [Chan.mk [e] true] },
        .ok f.rt.chans.length) := by
  simp [Face.SendInterest, h, chanSend, chanClose, set_concat_length]

theorem SendInterest_writeFails_eq (cstr : Component → GoString) (f : Face) (i : Interest)
    (err : GoError)
    (hcs : mapGet f.rt.ContentStore (i.Name.String cstr) = none)
    (hpit : mapGet f.pit (i.Name.String cstr) = none) :
    f.SendInterest cstr i (some err) =
      .ok (Face.mk f.pit { f.rt with chans := f.rt.chans ++ [Chan.mk [] false] },
        .error err) := by
  simp [Face.SendInterest, hcs, hpit, Matcher.Update, sendInterestUpdate,
    mapDelete_of_absent]

theorem SendInterest_new_eq (cstr : Component → GoString) (f : Face) (i : Interest)
    (hcs : mapGet f.rt.ContentStore (i.Name.String cstr) = none)
    (hpit : mapGet f.pit (i.Name.String cstr) = none) :
    f.SendInterest cstr i none =
      .ok (Face.mk (f.pit ++ [(i.Name.String cstr, [(f.rt.chans.length, i.Selectors)])])
        { f.rt with
          chans := f.rt.chans ++ [Chan.mk [] false]
          w := f.rt.w ++ [i]
          lifetimeTimers := f.rt.lifetimeTimers ++ [(i.Name, f.rt.chans.length, i.LifeTime)] },
        .ok f.rt.chans.length) := by
  simp [Face.SendInterest, hcs, hpit, Matcher.Update, sendInterestUpdate,
    mapSet_of_absent]

theorem SendInterest_aggregate_eq (cstr : Component → GoString) (f : Face) (i : Interest)
    (wr : Option GoError) (chs : Waiters)
    (hcs : mapGet f.rt.ContentStore (i.Name.String cstr) = none)
    (hpit : mapGet f.pit (i.Name.String cstr) = some chs) :
    f.SendInterest cstr i wr =
      .ok (Face.mk (mapSet f.pit (i.Name.String cstr) (mapSet chs f.rt.chans.length i.Selectors))
        { f.rt with
          chans := f.rt.chans ++ [Chan.mk [] false]
          lifetimeTimers := f.rt.lifetimeTimers ++ [(i.Name, f.rt.chans.length, i.LifeTime)] },
        .ok f.rt.chans.length) := by
  simp [Face.SendInterest, hcs, hpit, Matcher.Update, sendInterestUpdate]

theorem mapSet_mapSet {κ ν : Type} [DecidableEq κ] (m : List (κ × ν)) (k : κ) (v v1 : ν) :
    mapSet (mapSet m k v) k v1 = mapSet m k v1 := by
  induction m with
  | nil => simp [mapSet]
  | cons p rest ih =>
    obtain ⟨a, b⟩ := p
    by_cases h : a = k
    · simp [mapSet, h]
    · simp [mapSet, h, ih]

theorem mapKeys_waitersFrom_lt (base : Nat) (is : List Interest) :
    ∀ c : Nat, c ∈ mapKeys (waitersFrom base is) → base ≤ c ∧ c < base + is.length := by
  induction is generalizing base with
  | nil => intro c hc; simp [waitersFrom, mapKeys] at hc
  | cons i rest ih =>
    intro c hc
    simp only [waitersFrom, mapKeys, List.map_cons, List.mem_cons] at hc
    rcases hc with e | hin
    · rw [e]; simp only [List.length_cons]
      exact ⟨Nat.le_refl _, by omega⟩
    · obtain ⟨h1, h2⟩ := ih (base + 1) c hin
      simp only [List.length_cons]
      exact ⟨by omega, by omega⟩

theorem sendInterests_aggregate (cstr : Component → GoString) (name : Name)
    (is : List Interest) :
    ∀ (f : Face) (chs : Waiters),
      (∀ i ∈ is, i.Name = name) →
      mapGet f.rt.ContentStore (name.String cstr) = none →
      mapGet f.pit (name.String cstr) = some chs →
      (∀ c ∈ mapKeys chs, c < f.rt.chans.length) →
      ∃ f1, sendInterests cstr f is =
          .ok (f1, channelsFrom f.rt.chans.length is.length) ∧
        f1.pit = mapSet f.pit (name.String cstr)
          (chs ++ waitersFrom f.rt.chans.length is) ∧
        f1.rt.w = f.rt.w ∧
        f1.rt.ContentStore = f.rt.ContentStore := by
  induction is with
  | nil =>
    intro f chs _ _ hpit _
    exact ⟨f, rfl, by simp [waitersFrom, mapSet_of_present _ _ _ hpit], rfl, rfl⟩
  | cons i rest ih =>
    intro f chs hname hcs hpit hlt
    have hi : i.Name = name := hname i (List.mem_cons_self _ _)
    have hstep := SendInterest_aggregate_eq cstr f i none chs (by rw [hi]; exact hcs)
      (by rw [hi]; exact hpit)
    rw [hi] at hstep
    have habs : mapGet chs f.rt.chans.length = none := by
      rw [mapGet_eq_none_iff]
      intro hin
      exact Nat.lt_irrefl _ (hlt _ hin)
    rw [mapSet_of_absent chs _ _ habs] at hstep
    obtain ⟨f1, h1, h2, h3, h4⟩ := ih
      (Face.mk (mapSet f.pit (name.String cstr) (chs ++ [(f.rt.chans.length, i.Selectors)]))
        { f.rt with
          chans := f.rt.chans ++ [Chan.mk [] false]
          lifetimeTimers := f.rt.lifetimeTimers ++ [(name, f.rt.chans.length, i.LifeTime)] })
      (chs ++ [(f.rt.chans.length, i.Selectors)])
      (fun j hj => hname j (List.mem_cons_of_mem _ hj))
      hcs
      (mapGet_mapSet_self _ _ _)
      (by
        intro c hc
        simp only [mapKeys, List.map_append, List.map_cons, List.map_nil, List.mem_append,
          List.mem_singleton] at hc
        dsimp only
        simp only [List.length_append, List.length_singleton]
        rcases hc with hc | hc
        · exact Nat.lt_succ_of_lt (hlt c hc)
        · rw [hc]; exact Nat.lt_succ_self _)
    dsimp only at h1 h2 h3 h4
    simp only [List.length_append, List.length_singleton] at h1 h2
    refine ⟨f1, ?_, ?_, ?_, ?_⟩
    · simp only [sendInterests, hstep, h1, List.length_cons, channelsFrom]
    · rw [h2]
      simp only [mapSet_mapSet, waitersFrom, List.append_assoc, List.singleton_append]
    · rw [h3]
    · rw [h4]

theorem channelsFrom_eq (base : Nat) (is : List Interest) :
    channelsFrom base is.length = (mapKeys (waitersFrom base is)).map Except.ok := by
  induction is generalizing base with
  | nil => rfl
  | cons i rest ih => simp [channelsFrom, waitersFrom, mapKeys, ih (base + 1)]

theorem waitersFrom_length (base : Nat) (is : List Interest) :
    (waitersFrom base is).length = is.length := by
  induction is generalizing base with
  | nil => rfl
  | cons i rest ih => simp [waitersFrom, ih (base + 1)]

theorem waitersFrom_selectors (base : Nat) (is : List Interest) :
    (waitersFrom base is).map Prod.snd = is.map Interest.Selectors := by
  induction is generalizing base with
  | nil => rfl
  | cons i rest ih => simp [waitersFrom, ih (base + 1)]

theorem waitersFrom_nodup (base : Nat) (is : List Interest) :
    (mapKeys (waitersFrom base is)).Nodup := by
  induction is generalizing base with
  | nil => simp [waitersFrom, mapKeys]
  | cons i rest ih =>
    simp only [waitersFrom, mapKeys, List.map_cons, List.nodup_cons]
    refine ⟨?_, ih (base + 1)⟩
    intro hin
    have := (mapKeys_waitersFrom_lt (base + 1) rest base hin).1
    omega

/-- C3: a sequence of N ≥ 1 `SendInterest` calls with one name that has neither
a Content Store entry nor a PIT entry, on a transport whose writes succeed,
completes, writes exactly one interest (the first) to the transport, and adds
to the PIT exactly one entry, at that name, whose waiters are the N returned
channels (pairwise distinct) with the selectors of the N interests. -/
theorem sendInterests_aggregation (cstr : Component → GoString) (f : Face) (name : Name)
    (is : List Interest) (hN : is ≠ [])
    (hname : ∀ i ∈ is, i.Name = name)
    (hcs : mapGet f.rt.ContentStore (name.String cstr) = none)
    (hpit : mapGet f.pit (name.String cstr) = none) :
    ∃ f1 rs m, sendInterests cstr f is = .ok (f1, rs) ∧
      f1.rt.w = f.rt.w ++ [is.head hN] ∧
      f1.pit = f.pit ++ [(name.String cstr, m)] ∧
      mapGet f1.pit (name.String cstr) = some m ∧
      rs = (mapKeys m).map Except.ok ∧
      m.length = is.length ∧
      (mapKeys m).Nodup ∧
      m.map Prod.snd = is.map Interest.Selectors := by
  cases is with
  | nil => exact absurd rfl hN
  | cons i rest =>
    have hi : i.Name = name := hname i (List.mem_cons_self _ _)
    have hstep := SendInterest_new_eq cstr f i (by rw [hi]; exact hcs) (by rw [hi]; exact hpit)
    rw [hi] at hstep
    obtain ⟨f1, h1, h2, h3, _⟩ := sendInterests_aggregate cstr name rest
      (Face.mk (f.pit ++ [(name.String cstr, [(f.rt.chans.length, i.Selectors)])])
        { f.rt with
          chans := f.rt.chans ++ [Chan.mk [] false]
          w := f.rt.w ++ [i]
          lifetimeTimers := f.rt.lifetimeTimers ++ [(name, f.rt.chans.length, i.LifeTime)] })
      [(f.rt.chans.length, i.Selectors)]
      (fun j hj => hname j (List.mem_cons_of_mem _ hj))
      hcs
      (by
        dsimp only
        rw [← mapSet_of_absent _ _ _ hpit]
        exact mapGet_mapSet_self _ _ _)
      (by
        intro c hc
        simp only [mapKeys, List.map_cons, List.map_nil, List.mem_singleton] at hc
        dsimp only
        simp only [List.length_append, List.length_singleton]
        rw [hc]; exact Nat.lt_succ_self _)
    dsimp only at h1 h2 h3
    simp only [List.length_append, List.length_singleton] at h1 h2
    have hpit1 : f1.pit = f.pit ++ [(name.String cstr, waitersFrom f.rt.chans.length (i :: rest))] := by
      rw [h2, ← mapSet_of_absent _ _ _ hpit, mapSet_mapSet, mapSet_of_absent _ _ _ hpit]
      rfl
    refine ⟨f1, channelsFrom f.rt.chans.length (i :: rest).length,
      waitersFrom f.rt.chans.length (i :: rest), ?_, ?_, hpit1, ?_, ?_, ?_, ?_, ?_⟩
    · simp only [sendInterests, hstep, h1, List.length_cons, channelsFrom]
    · rw [h3]; rfl
    · rw [hpit1, ← mapSet_of_absent _ _ _ hpit]
      exact mapGet_mapSet_self _ _ _
    · exact channelsFrom_eq _ _
    · exact waitersFrom_length _ _
    · exact waitersFrom_nodup _ _
    · exact waitersFrom_selectors _ _

/-- C4: when the Content Store holds `d` at the name of the interest,
`SendInterest` completes and returns, without error, a newly made channel that
holds exactly `d` and is closed; the transport log, the PIT, the armed lifetime
timers and the Content Store are as before. -/
theorem SendInterest_contentStore_hit (cstr : Component → GoString) (f : Face)
    (i : Interest) (wr : Option GoError) (d : Data)
    (h : mapGet f.rt.ContentStore (i.Name.String cstr) = some d) :
    ∃ f1 ch, f.SendInterest cstr i wr = .ok (f1, .ok ch) ∧
      f.rt.chans[ch]? = none ∧
      f1.rt.chans[ch]? = some (Chan.mk [d] true) ∧
      f1.rt.w = f.rt.w ∧
      f1.pit = f.pit ∧
      f1.rt.lifetimeTimers = f.rt.lifetimeTimers ∧
      f1.rt.ContentStore = f.rt.ContentStore := by
  refine ⟨_, _, SendInterest_hit_eq cstr f i wr d h, ?_, ?_, rfl, rfl, rfl, rfl⟩
  · simp
  · simp

/-- C5: when neither the Content Store nor the PIT has an entry at the name of
the interest and the write to the transport fails with `err`, `SendInterest`
completes and returns `(nil, err)`; the PIT is as before and still has no
entry at the name, no lifetime timer is armed and nothing is recorded as
written. -/
theorem SendInterest_write_failure (cstr : Component → GoString) (f : Face)
    (i : Interest) (err : GoError)
    (hcs : mapGet f.rt.ContentStore (i.Name.String cstr) = none)
    (hpit : mapGet f.pit (i.Name.String cstr) = none) :
    ∃ f1, f.SendInterest cstr i (some err) = .ok (f1, .error err) ∧
      f1.pit = f.pit ∧
      mapGet f1.pit (i.Name.String cstr) = none ∧
      f1.rt.lifetimeTimers = f.rt.lifetimeTimers ∧
      f1.rt.w = f.rt.w ∧
      f1.rt.ContentStore = f.rt.ContentStore := by
  exact ⟨_, SendInterest_writeFails_eq cstr f i err hcs hpit, rfl, hpit, rfl, rfl, rfl⟩

/-! ## Lifetime expiry -/

theorem lifetimeExpiry_present_eq (cstr : Component → GoString) (f : Face) (name : Name)
    (ch : ChanId) (m : Waiters) (sel : Selectors) (buf : List Data)
    (hpit : mapGet f.pit (name.String cstr) = some m)
    (hin : mapGet m ch = some sel)
    (hch : f.rt.chans[ch]? = some (Chan.mk buf false)) :
    f.lifetimeExpiry cstr name ch =
      .ok (Face.mk
        (if (mapDelete m ch).length = 0 then mapDelete f.pit (name.String cstr)
          else mapSet f.pit (name.String cstr) (mapDelete m ch))
        { f.rt with chans := f.rt.chans.set ch (Chan.mk buf true) }) := by
  by_cases hlen : (mapDelete m ch).length = 0
  · simp [Face.lifetimeExpiry, Matcher.Update, lifetimeExpiryUpdate, hpit, hin, chanClose,
      hch, hlen]
  · simp [Face.lifetimeExpiry, Matcher.Update, lifetimeExpiryUpdate, hpit, hin, chanClose,
      hch, hlen]

theorem lifetimeExpiry_absent_eq (cstr : Component → GoString) (f : Face) (name : Name)
    (ch : ChanId)
    (h : mapGet f.pit (name.String cstr) = none ∨
      ∃ m, mapGet f.pit (name.String cstr) = some m ∧ mapGet m ch = none) :
    f.lifetimeExpiry cstr name ch = .ok f := by
  rcases h with h | ⟨m, h, hm⟩
  · simp [Face.lifetimeExpiry, Matcher.Update, lifetimeExpiryUpdate, h,
      mapDelete_of_absent]
  · simp [Face.lifetimeExpiry, Matcher.Update, lifetimeExpiryUpdate, h, hm,
      mapSet_of_present]

/-- The lifetime-expiry step of a waiter `ch` that is still in the entry at the
interest name and whose channel is open with buffer `buf`. -/
theorem lifetimeExpiry_present (cstr : Component → GoString) (f : Face) (name : Name)
    (ch : ChanId) (m : Waiters) (sel : Selectors) (buf : List Data)
    (hpit : mapGet f.pit (name.String cstr) = some m)
    (hin : mapGet m ch = some sel)
    (hch : f.rt.chans[ch]? = some (Chan.mk buf false)) :
    ∃ f1, f.lifetimeExpiry cstr name ch = .ok f1 ∧
      f1.rt.chans[ch]? = some (Chan.mk buf true) ∧
      (∀ c, c ≠ ch → f1.rt.chans[c]? = f.rt.chans[c]?) ∧
      (mapDelete m ch ≠ [] → mapGet f1.pit (name.String cstr) = some (mapDelete m ch)) ∧
      (mapDelete m ch = [] → mapGet f1.pit (name.String cstr) = none) ∧
      mapGet (mapDelete m ch) ch = none ∧
      (∀ c, c ≠ ch → mapGet (mapDelete m ch) c = mapGet m c) ∧
      (∀ k, k ≠ name.String cstr → mapGet f1.pit k = mapGet f.pit k) ∧
      f1.rt.w = f.rt.w ∧ f1.rt.ContentStore = f.rt.ContentStore := by
  refine ⟨_, lifetimeExpiry_present_eq cstr f name ch m sel buf hpit hin hch,
    ?_, ?_, ?_, ?_, ?_, ?_, ?_, rfl, rfl⟩
  · exact getElem?_set_self_of_some _ _ _ _ hch
  · intro c hc
    exact List.getElem?_set_ne (fun e => hc e.symm)
  · intro hne
    have hlen : ¬ (mapDelete m ch).length = 0 := by
      rw [List.length_eq_zero]; exact hne
    simp only [hlen, if_false]
    exact mapGet_mapSet_self _ _ _
  · intro he
    have hlen : (mapDelete m ch).length = 0 := by
      rw [List.length_eq_zero]; exact he
    simp only [hlen, if_true]
    exact mapGet_mapDelete_self _ _
  · exact mapGet_mapDelete_self _ _
  · intro c hc
    exact mapGet_mapDelete_ne _ _ _ (fun e => hc e.symm)
  · intro k hk
    dsimp only
    split
    · exact mapGet_mapDelete_ne _ _ _ (fun e => hk e.symm)
    · exact mapGet_mapSet_ne _ _ _ _ (fun e => hk e.symm)

/-- C7: when the waiter `ch` is no longer in the PIT at the interest name
(the entry is gone, or it is there without `ch`), its lifetime-expiry step
completes and leaves the whole state as it was: PIT, channels, transport log,
Content Store and timers; no entry is created, and running the step a second
time gives the same state again. -/
theorem lifetimeExpiry_satisfied_noop (cstr : Component → GoString) (f : Face)
    (name : Name) (ch : ChanId)
    (h : mapGet f.pit (name.String cstr) = none ∨
      ∃ m, mapGet f.pit (name.String cstr) = some m ∧ mapGet m ch = none) :
    f.lifetimeExpiry cstr name ch = .ok f ∧
      (∀ f1, f.lifetimeExpiry cstr name ch = .ok f1 →
        f1.lifetimeExpiry cstr name ch = .ok f1 ∧ f1 = f) ∧
      (mapGet f.pit (name.String cstr) = none →
        ∀ f1, f.lifetimeExpiry cstr name ch = .ok f1 →
          mapGet f1.pit (name.String cstr) = none) := by
  have h0 := lifetimeExpiry_absent_eq cstr f name ch h
  refine ⟨h0, ?_, ?_⟩
  · intro f1 h1
    rw [h0] at h1
    cases h1
    exact ⟨h0, rfl⟩
  · intro hn f1 h1
    rw [h0] at h1
    cases h1
    exact hn

/-- After a lifetime-expiry step that completed, the same step is a no-op:
the step is idempotent whatever the state it starts from. -/
theorem lifetimeExpiry_idempotent (cstr : Component → GoString) (f f1 : Face)
    (name : Name) (ch : ChanId) (h : f.lifetimeExpiry cstr name ch = .ok f1) :
    f1.lifetimeExpiry cstr name ch = .ok f1 := by
  cases hpit : mapGet f.pit (name.String cstr) with
  | none =>
    have h0 := lifetimeExpiry_absent_eq cstr f name ch (Or.inl hpit)
    rw [h0] at h; cases h; exact h0
  | some m =>
    cases hin : mapGet m ch with
    | none =>
      have h0 := lifetimeExpiry_absent_eq cstr f name ch (Or.inr ⟨m, hpit, hin⟩)
      rw [h0] at h; cases h; exact h0
    | some sel =>
      cases hc : f.rt.chans[ch]? with
      | none =>
        simp [Face.lifetimeExpiry, Matcher.Update, lifetimeExpiryUpdate, hpit, hin,
          chanClose, hc] at h
      | some c =>
        obtain ⟨buf, closed⟩ := c
        cases closed with
        | true =>
          simp [Face.lifetimeExpiry, Matcher.Update, lifetimeExpiryUpdate, hpit, hin,
            chanClose, hc] at h
        | false =>
          rw [lifetimeExpiry_present_eq cstr f name ch m sel buf hpit hin hc] at h
          cases h
          apply lifetimeExpiry_absent_eq
          dsimp only
          split
          · exact Or.inl (mapGet_mapDelete_self _ _)
          · exact Or.inr ⟨_, mapGet_mapSet_self _ _ _, mapGet_mapDelete_self _ _⟩

/-! ## The PIT has no empty entry -/

theorem mem_mapSet {κ ν : Type} [DecidableEq κ] (m : List (κ × ν)) (k : κ) (v : ν)
    (p : κ × ν) (hp : p ∈ mapSet m k v) : p ∈ m ∨ p = (k, v) := by
  induction m with
  | nil =>
    simp only [mapSet, List.mem_singleton] at hp
    exact Or.inr hp
  | cons q rest ih =>
    obtain ⟨a, b⟩ := q
    by_cases h : a = k
    · simp only [mapSet, h, if_true, List.mem_cons] at hp
      rcases hp with e | hin
      · exact Or.inr e
      · exact Or.inl (List.mem_cons_of_mem _ hin)
    · simp only [mapSet, h, if_false, List.mem_cons] at hp
      rcases hp with e | hin
      · exact Or.inl (by rw [e]; exact List.mem_cons_self _ _)
      · rcases ih hin with h1 | h1
        · exact Or.inl (List.mem_cons_of_mem _ h1)
        · exact Or.inr h1

theorem mem_mapDelete {κ ν : Type} [DecidableEq κ] (m : List (κ × ν)) (k : κ)
    (p : κ × ν) (hp : p ∈ mapDelete m k) : p ∈ m := by
  rw [mapDelete_eq_filter] at hp
  exact (List.mem_filter.mp hp).1

theorem mapSet_ne_nil {κ ν : Type} [DecidableEq κ] (m : List (κ × ν)) (k : κ) (v : ν) :
    mapSet m k v ≠ [] := by
  cases m with
  | nil => simp [mapSet]
  | cons q rest =>
    obtain ⟨a, b⟩ := q
    by_cases h : a = k <;> simp [mapSet, h]

theorem NonEmptyEntries_mapSet (pit : Matcher Waiters) (k : GoString) (v : Waiters)
    (h : NonEmptyEntries pit) (hv : v ≠ []) : NonEmptyEntries (mapSet pit k v) := by
  intro p hp
  rcases mem_mapSet pit k v p hp with h1 | h1
  · exact h p h1
  · rw [h1]; exact hv

theorem NonEmptyEntries_mapDelete (pit : Matcher Waiters) (k : GoString)
    (h : NonEmptyEntries pit) : NonEmptyEntries (mapDelete pit k) :=
  fun p hp => h p (mem_mapDelete pit k p hp)

theorem NonEmptyEntries_Update {σ : Type} (pit pit1 : Matcher Waiters) (key : GoString)
    (fn : Option Waiters → σ → Except Fault (Option Waiters × σ)) (s s1 : σ)
    (h : NonEmptyEntries pit)
    (hfn : ∀ o v t t1, (∀ v0, o = some v0 → v0 ≠ []) → fn o t = .ok (some v, t1) → v ≠ [])
    (hrun : Matcher.Update pit key fn s = .ok (pit1, s1)) : NonEmptyEntries pit1 := by
  unfold Matcher.Update at hrun
  have hin : ∀ v0, mapGet pit key = some v0 → v0 ≠ [] :=
    fun v0 e => h (key, v0) (mem_of_mapGet pit key v0 e)
  cases hres : fn (mapGet pit key) s with
  | error x => rw [hres] at hrun; cases hrun
  | ok r =>
    obtain ⟨o, t⟩ := r
    rw [hres] at hrun
    cases o with
    | none =>
      simp only [Except.ok.injEq, Prod.mk.injEq] at hrun
      rw [← hrun.1]
      exact NonEmptyEntries_mapDelete pit key h
    | some v =>
      simp only [Except.ok.injEq, Prod.mk.injEq] at hrun
      rw [← hrun.1]
      exact NonEmptyEntries_mapSet pit key v h (hfn _ v s t hin hres)

theorem NonEmptyEntries_UpdateAll {σ : Type} (keys : List GoString)
    (fn : GoString → Waiters → σ → Except Fault (Option Waiters × σ))
    (hfn : ∀ k v0 v t t1, fn k v0 t = .ok (some v, t1) → v ≠ []) :
    ∀ (pit pit1 : Matcher Waiters) (s s1 : σ), NonEmptyEntries pit →
      Matcher.UpdateAll pit keys fn s = .ok (pit1, s1) → NonEmptyEntries pit1 := by
  induction keys with
  | nil =>
    intro pit pit1 s s1 h hrun
    simp only [Matcher.UpdateAll, Except.ok.injEq, Prod.mk.injEq] at hrun
    rw [← hrun.1]; exact h
  | cons key rest ih =>
    intro pit pit1 s s1 h hrun
    unfold Matcher.UpdateAll at hrun
    cases hget : mapGet pit key with
    | none =>
      rw [hget] at hrun
      exact ih pit pit1 s s1 h hrun
    | some v0 =>
      rw [hget] at hrun
      dsimp only at hrun
      cases hres : fn key v0 s with
      | error x => rw [hres] at hrun; cases hrun
      | ok r =>
        obtain ⟨o, t⟩ := r
        rw [hres] at hrun
        cases o with
        | none => exact ih _ pit1 t s1 (NonEmptyEntries_mapDelete pit key h) hrun
        | some v =>
          exact ih _ pit1 t s1
            (NonEmptyEntries_mapSet pit key v h (hfn key v0 v s t hres)) hrun

theorem sendInterestUpdate_nonempty (i : Interest) (ch : ChanId) (wr : Option GoError)
    (o : Option Waiters) (v : Waiters) (t t1 : Runtime × Option GoError)
    (h : sendInterestUpdate i ch wr o t = .ok (some v, t1)) : v ≠ [] := by
  obtain ⟨rt, e⟩ := t
  cases o with
  | none =>
    cases wr with
    | none =>
      simp only [sendInterestUpdate, Except.ok.injEq, Prod.mk.injEq, Option.some.injEq] at h
      rw [← h.1]; simp
    | some err => simp [sendInterestUpdate] at h
  | some chs =>
    simp only [sendInterestUpdate, Except.ok.injEq, Prod.mk.injEq, Option.some.injEq] at h
    rw [← h.1]; exact mapSet_ne_nil _ _ _

theorem lifetimeExpiryUpdate_nonempty (ch : ChanId) (o : Option Waiters) (v : Waiters)
    (t t1 : Runtime) (hin : ∀ v0, o = some v0 → v0 ≠ [])
    (h : lifetimeExpiryUpdate ch o t = .ok (some v, t1)) : v ≠ [] := by
  cases o with
  | none => simp [lifetimeExpiryUpdate] at h
  | some m =>
    cases hget : mapGet m ch with
    | none =>
      simp only [lifetimeExpiryUpdate, hget, Except.ok.injEq, Prod.mk.injEq,
        Option.some.injEq] at h
      rw [← h.1]; exact hin m rfl
    | some sel =>
      cases hc : chanClose t.chans ch with
      | error x => simp [lifetimeExpiryUpdate, hget, hc] at h
      | ok c =>
        simp only [lifetimeExpiryUpdate, hget, hc] at h
        split at h
        · cases h
        · rename_i hlen
          simp only [Except.ok.injEq, Prod.mk.injEq, Option.some.injEq] at h
          rw [← h.1]
          intro e
          exact hlen (by rw [e]; rfl)

theorem recvDataVisit_nonempty (dkey : GoString) (d : Data) (k : GoString)
    (v0 v : Waiters) (t t1 : Runtime)
    (h : recvDataVisit dkey d k v0 t = .ok (some v, t1)) : v ≠ [] := by
  unfold recvDataVisit at h
  dsimp only at h
  cases hf : fanout d (suffixLen d k) v0 v0 (cacheFresh dkey d t).chans with
  | error x => rw [hf] at h; cases h
  | ok r =>
    obtain ⟨m1, c⟩ := r
    rw [hf] at h
    dsimp only at h
    split at h
    · cases h
    · rename_i hlen
      simp only [Except.ok.injEq, Prod.mk.injEq, Option.some.injEq] at h
      rw [← h.1]
      intro e
      exact hlen (by rw [e]; rfl)

theorem NonEmptyEntries_SendInterest (cstr : Component → GoString) (f f1 : Face)
    (i : Interest) (wr : Option GoError) (r : Except GoError ChanId)
    (h : NonEmptyEntries f.pit) (hrun : f.SendInterest cstr i wr = .ok (f1, r)) :
    NonEmptyEntries f1.pit := by
  cases hcs : mapGet f.rt.ContentStore (i.Name.String cstr) with
  | some e =>
    rw [SendInterest_hit_eq cstr f i wr e hcs] at hrun
    simp only [Except.ok.injEq, Prod.mk.injEq] at hrun
    rw [← hrun.1]; exact h
  | none =>
    cases hpit : mapGet f.pit (i.Name.String cstr) with
    | some chs =>
      rw [SendInterest_aggregate_eq cstr f i wr chs hcs hpit] at hrun
      simp only [Except.ok.injEq, Prod.mk.injEq] at hrun
      rw [← hrun.1]
      exact NonEmptyEntries_mapSet _ _ _ h (mapSet_ne_nil _ _ _)
    | none =>
      cases wr with
      | some err =>
        rw [SendInterest_writeFails_eq cstr f i err hcs hpit] at hrun
        simp only [Except.ok.injEq, Prod.mk.injEq] at hrun
        rw [← hrun.1]; exact h
      | none =>
        rw [SendInterest_new_eq cstr f i hcs hpit] at hrun
        simp only [Except.ok.injEq, Prod.mk.injEq] at hrun
        rw [← hrun.1]
        intro p hp
        rcases List.mem_append.mp hp with h1 | h1
        · exact h p h1
        · rw [List.mem_singleton.mp h1]; simp

theorem NonEmptyEntries_lifetimeExpiry (cstr : Component → GoString) (f f1 : Face)
    (name : Name) (ch : ChanId)
    (h : NonEmptyEntries f.pit) (hrun : f.lifetimeExpiry cstr name ch = .ok f1) :
    NonEmptyEntries f1.pit := by
  unfold Face.lifetimeExpiry at hrun
  cases hu : Matcher.Update f.pit (name.String cstr) (lifetimeExpiryUpdate ch) f.rt with
  | error x => rw [hu] at hrun; cases hrun
  | ok res =>
    obtain ⟨pit1, rt1⟩ := res
    rw [hu] at hrun
    simp only [Except.ok.injEq] at hrun
    rw [← hrun]
    exact NonEmptyEntries_Update f.pit pit1 _ _ _ _ h
      (fun o v t t1 hin hfn => lifetimeExpiryUpdate_nonempty ch o v t t1 hin hfn) hu

theorem NonEmptyEntries_recvData (cstr : Component → GoString) (f f1 : Face) (d : Data)
    (h : NonEmptyEntries f.pit) (hrun : f.recvData cstr d = .ok f1) :
    NonEmptyEntries f1.pit := by
  unfold Face.recvData at hrun
  cases hu : Matcher.UpdateAll f.pit (walkKeys cstr d.Name)
      (recvDataVisit (d.Name.String cstr) d) f.rt with
  | error x => rw [hu] at hrun; cases hrun
  | ok res =>
    obtain ⟨pit1, rt1⟩ := res
    rw [hu] at hrun
    simp only [Except.ok.injEq] at hrun
    rw [← hrun]
    exact NonEmptyEntries_UpdateAll _ _
      (fun k v0 v t t1 hfn => recvDataVisit_nonempty _ d k v0 v t t1 hfn) f.pit pit1 _ _ h hu

theorem NonEmptyEntries_Step (cstr : Component → GoString) (f f1 : Face)
    (h : NonEmptyEntries f.pit) (hstep : Step cstr f f1) : NonEmptyEntries f1.pit := by
  cases hstep with
  | sendInterest i wr _ r hrun => exact NonEmptyEntries_SendInterest cstr f f1 i wr r h hrun
  | recvData d _ hrun => exact NonEmptyEntries_recvData cstr f f1 d h hrun
  | lifetimeExpiry name ch lt f2 _ hrun =>
    exact NonEmptyEntries_lifetimeExpiry cstr f f2 name ch h hrun
  | evict name fp _ => exact h

/-- C8: in every state reachable from an empty PIT by `SendInterest`,
`recvData`, lifetime-expiry (and eviction) steps, every PIT entry has at least
one waiter; a step that empties an entry leaves no entry at its key. -/
theorem reachable_pit_nonempty (cstr : Component → GoString) (f : Face)
    (h : Reachable cstr f) :
    ∀ key m, mapGet f.pit key = some m → m ≠ [] := by
  have hall : NonEmptyEntries f.pit := by
    induction h with
    | init g hg => intro p hp; rw [hg] at hp; cases hp
    | step g g1 _ hstep ih => exact NonEmptyEntries_Step cstr g g1 ih hstep
  intro key m hget
  exact hall (key, m) (mem_of_mapGet f.pit key m hget)

/-! ## Content Store insertion in `recvData` -/

theorem cacheFresh_settled (dkey : GoString) (d : Data) (rt : Runtime) :
    Settled dkey d (cacheFresh dkey d rt) := by
  unfold cacheFresh
  split
  · intro h
    have := h.2
    simp [mapGet_mapSet_self] at this
  · rename_i hc; exact hc

theorem cacheFresh_of_settled (dkey : GoString) (d : Data) (rt : Runtime)
    (h : Settled dkey d rt) : cacheFresh dkey d rt = rt := by
  unfold cacheFresh
  rw [if_neg h]

theorem recvDataVisit_store (dkey : GoString) (d : Data) (name : GoString) (m : Waiters)
    (rt rt1 : Runtime) (r : Option Waiters)
    (h : recvDataVisit dkey d name m rt = .ok (r, rt1)) :
    rt1.ContentStore = (cacheFresh dkey d rt).ContentStore ∧
      rt1.evictionTimers = (cacheFresh dkey d rt).evictionTimers ∧
      rt1.w = rt.w ∧ rt1.lifetimeTimers = rt.lifetimeTimers := by
  have hw : (cacheFresh dkey d rt).w = rt.w := by unfold cacheFresh; split <;> rfl
  have hl : (cacheFresh dkey d rt).lifetimeTimers = rt.lifetimeTimers := by
    unfold cacheFresh; split <;> rfl
  unfold recvDataVisit at h
  dsimp only at h
  cases hf : fanout d (suffixLen d name) m m (cacheFresh dkey d rt).chans with
  | error x => rw [hf] at h; cases h
  | ok res =>
    obtain ⟨m1, c⟩ := res
    rw [hf] at h
    dsimp only at h
    split at h
    · simp only [Except.ok.injEq, Prod.mk.injEq] at h
      rw [← h.2]
      exact ⟨rfl, rfl, hw, hl⟩
    · simp only [Except.ok.injEq, Prod.mk.injEq] at h
      rw [← h.2]
      exact ⟨rfl, rfl, hw, hl⟩

theorem UpdateAll_store_settled (dkey : GoString) (d : Data) (keys : List GoString) :
    ∀ (pit pit1 : Matcher Waiters) (rt rt1 : Runtime), Settled dkey d rt →
      Matcher.UpdateAll pit keys (recvDataVisit dkey d) rt = .ok (pit1, rt1) →
      rt1.ContentStore = rt.ContentStore ∧ rt1.evictionTimers = rt.evictionTimers := by
  induction keys with
  | nil =>
    intro pit pit1 rt rt1 _ hrun
    simp only [Matcher.UpdateAll, Except.ok.injEq, Prod.mk.injEq] at hrun
    rw [← hrun.2]; exact ⟨rfl, rfl⟩
  | cons key rest ih =>
    intro pit pit1 rt rt1 hs hrun
    unfold Matcher.UpdateAll at hrun
    cases hget : mapGet pit key with
    | none =>
      rw [hget] at hrun
      exact ih pit pit1 rt rt1 hs hrun
    | some v0 =>
      rw [hget] at hrun
      dsimp only at hrun
      cases hres : recvDataVisit dkey d key v0 rt with
      | error x => rw [hres] at hrun; cases hrun
      | ok r =>
        obtain ⟨o, t⟩ := r
        rw [hres] at hrun
        obtain ⟨h1, h2, _, _⟩ := recvDataVisit_store dkey d key v0 rt t o hres
        rw [cacheFresh_of_settled dkey d rt hs] at h1 h2
        have hs1 : Settled dkey d t := by
          unfold Settled; rw [h1]; exact hs
        cases o with
        | none =>
          obtain ⟨h3, h4⟩ := ih _ pit1 t rt1 hs1 hrun
          exact ⟨h3.trans h1, h4.trans h2⟩
        | some v =>
          obtain ⟨h3, h4⟩ := ih _ pit1 t rt1 hs1 hrun
          exact ⟨h3.trans h1, h4.trans h2⟩

theorem UpdateAll_store (dkey : GoString) (d : Data) (keys : List GoString) :
    ∀ (pit pit1 : Matcher Waiters) (rt rt1 : Runtime),
      Matcher.UpdateAll pit keys (recvDataVisit dkey d) rt = .ok (pit1, rt1) →
      ((∃ k ∈ keys, mapGet pit k ≠ none) →
        rt1.ContentStore = (cacheFresh dkey d rt).ContentStore ∧
        rt1.evictionTimers = (cacheFresh dkey d rt).evictionTimers) ∧
      ((∀ k ∈ keys, mapGet pit k = none) → pit1 = pit ∧ rt1 = rt) := by
  induction keys with
  | nil =>
    intro pit pit1 rt rt1 hrun
    simp only [Matcher.UpdateAll, Except.ok.injEq, Prod.mk.injEq] at hrun
    refine ⟨?_, fun _ => ⟨hrun.1.symm, hrun.2.symm⟩⟩
    rintro ⟨k, hk, _⟩
    cases hk
  | cons key rest ih =>
    intro pit pit1 rt rt1 hrun
    unfold Matcher.UpdateAll at hrun
    cases hget : mapGet pit key with
    | none =>
      rw [hget] at hrun
      obtain ⟨ih1, ih2⟩ := ih pit pit1 rt rt1 hrun
      refine ⟨?_, ?_⟩
      · rintro ⟨k, hk, hne⟩
        rcases List.mem_cons.mp hk with e | hin
        · rw [e] at hne; exact absurd hget hne
        · exact ih1 ⟨k, hin, hne⟩
      · intro hall
        exact ih2 (fun k hk => hall k (List.mem_cons_of_mem _ hk))
    | some v0 =>
      rw [hget] at hrun
      dsimp only at hrun
      refine ⟨?_, ?_⟩
      · intro _
        cases hres : recvDataVisit dkey d key v0 rt with
        | error x => rw [hres] at hrun; cases hrun
        | ok r =>
          obtain ⟨o, t⟩ := r
          rw [hres] at hrun
          obtain ⟨h1, h2, _, _⟩ := recvDataVisit_store dkey d key v0 rt t o hres
          have hs1 : Settled dkey d t := by
            have := cacheFresh_settled dkey d rt
            unfold Settled at this ⊢
            rw [h1]; exact this
          cases o with
          | none =>
            obtain ⟨h3, h4⟩ := UpdateAll_store_settled dkey d rest _ pit1 t rt1 hs1 hrun
            exact ⟨h3.trans h1, h4.trans h2⟩
          | some v =>
            obtain ⟨h3, h4⟩ := UpdateAll_store_settled dkey d rest _ pit1 t rt1 hs1 hrun
            exact ⟨h3.trans h1, h4.trans h2⟩
      · intro hall
        have := hall key (List.mem_cons_self _ _)
        rw [hget] at this
        cases this

/-- The Content Store after a `recvData` that completed and visited at least one
PIT node: one guarded insert, whatever the number of nodes visited. -/
theorem recvData_store_of_ok (cstr : Component → GoString) (f f1 : Face) (d : Data)
    (hrun : f.recvData cstr d = .ok f1)
    (hvisit : ∃ k ∈ walkKeys cstr d.Name, mapGet f.pit k ≠ none) :
    ((0 < d.MetaInfo.FreshnessPeriod ∧ mapGet f.rt.ContentStore (d.Name.String cstr) = none) →
      f1.rt.ContentStore = mapSet f.rt.ContentStore (d.Name.String cstr) d ∧
      mapGet f1.rt.ContentStore (d.Name.String cstr) = some d ∧
      f1.rt.evictionTimers =
        f.rt.evictionTimers ++ [(d.Name, d.MetaInfo.FreshnessPeriod)]) ∧
    (¬ (0 < d.MetaInfo.FreshnessPeriod ∧
        mapGet f.rt.ContentStore (d.Name.String cstr) = none) →
      f1.rt.ContentStore = f.rt.ContentStore ∧
      f1.rt.evictionTimers = f.rt.evictionTimers) := by
  unfold Face.recvData at hrun
  cases hu : Matcher.UpdateAll f.pit (walkKeys cstr d.Name)
      (recvDataVisit (d.Name.String cstr) d) f.rt with
  | error x => rw [hu] at hrun; cases hrun
  | ok res =>
    obtain ⟨pit1, rt1⟩ := res
    rw [hu] at hrun
    simp only [Except.ok.injEq] at hrun
    rw [← hrun]
    obtain ⟨h1, h2⟩ := (UpdateAll_store _ d _ f.pit pit1 f.rt rt1 hu).1 hvisit
    dsimp only
    refine ⟨?_, ?_⟩
    · intro hc
      have hcond : 0 < d.MetaInfo.FreshnessPeriod ∧
          (mapGet f.rt.ContentStore (d.Name.String cstr)).isNone = true := by
        refine ⟨hc.1, ?_⟩
        rw [hc.2]; rfl
      rw [h1, h2]
      unfold cacheFresh
      rw [if_pos hcond]
      exact ⟨rfl, mapGet_mapSet_self _ _ _, rfl⟩
    · intro hc
      have hcond : ¬ (0 < d.MetaInfo.FreshnessPeriod ∧
          (mapGet f.rt.ContentStore (d.Name.String cstr)).isNone = true) := by
        intro hh
        apply hc
        refine ⟨hh.1, ?_⟩
        exact Option.isNone_iff_eq_none.mp hh.2
      rw [h1, h2]
      unfold cacheFresh
      rw [if_neg hcond]
      exact ⟨rfl, rfl⟩

/-! ## The state `recvData` leaves behind at a panic -/

theorem fanout_toExcept (d : Data) (s : Int) (rest : List (ChanId × Selectors)) :
    ∀ (m : Waiters) (chans : List Chan),
      fanout d s rest m chans = toExcept (fanoutUntil d s rest m chans) := by
  induction rest with
  | nil => intro m chans; rfl
  | cons p rest ih =>
    intro m chans
    obtain ⟨ch, sel⟩ := p
    unfold fanout fanoutUntil
    cases selectorFilter sel d s with
    | error x => rfl
    | ok b =>
      cases b with
      | false => exact ih m chans
      | true =>
        dsimp only
        cases chanSend chans ch d with
        | error x => rfl
        | ok c1 =>
          dsimp only
          cases chanClose c1 ch with
          | error x => rfl
          | ok c2 => exact ih _ c2

theorem recvDataVisit_toExcept (dkey : GoString) (d : Data) (name : GoString) (m : Waiters)
    (rt : Runtime) :
    recvDataVisit dkey d name m rt = toExcept (recvDataVisitUntil dkey d name m rt) := by
  unfold recvDataVisit recvDataVisitUntil
  dsimp only
  rw [fanout_toExcept]
  rcases fanoutUntil d (suffixLen d name) m m (cacheFresh dkey d rt).chans with ⟨x, m1, c⟩
  cases x with
  | some x => rfl
  | none =>
    dsimp only [toExcept]
    split <;> rfl

/-- The store and the armed evictions after a visit, completed or not: one
guarded insert. -/
theorem recvDataVisitUntil_store (dkey : GoString) (d : Data) (name : GoString) (m : Waiters)
    (rt : Runtime) :
    (recvDataVisitUntil dkey d name m rt).2.2.ContentStore =
        (cacheFresh dkey d rt).ContentStore ∧
      (recvDataVisitUntil dkey d name m rt).2.2.evictionTimers =
        (cacheFresh dkey d rt).evictionTimers := by
  unfold recvDataVisitUntil
  rcases fanoutUntil d (suffixLen d name) m m (cacheFresh dkey d rt).chans with ⟨x, m1, c⟩
  cases x with
  | some x => exact ⟨rfl, rfl⟩
  | none =>
    dsimp only
    split <;> exact ⟨rfl, rfl⟩

theorem UpdateAll_toExcept (dkey : GoString) (d : Data) (keys : List GoString) :
    ∀ (pit : Matcher Waiters) (rt : Runtime),
      Matcher.UpdateAll pit keys (recvDataVisit dkey d) rt =
        toExcept (walkUntil dkey d keys pit rt) := by
  induction keys with
  | nil => intro pit rt; rfl
  | cons key rest ih =>
    intro pit rt
    unfold Matcher.UpdateAll walkUntil
    cases mapGet pit key with
    | none => exact ih pit rt
    | some m =>
      dsimp only
      rw [recvDataVisit_toExcept]
      rcases recvDataVisitUntil dkey d key m rt with ⟨x, o, rt1⟩
      cases x with
      | some x => cases o <;> rfl
      | none =>
        cases o with
        | none => exact ih _ rt1
        | some m1 => exact ih _ rt1

/-- What `recvData` returns is the state it leaves behind when it stops without
a panic. -/
theorem recvData_toExcept (cstr : Component → GoString) (f : Face) (d : Data) :
    f.recvData cstr d = toExcept (f.recvDataUntil cstr d) := by
  unfold Face.recvData Face.recvDataUntil
  rw [UpdateAll_toExcept]
  rcases walkUntil (d.Name.String cstr) d (walkKeys cstr d.Name) f.pit f.rt with ⟨x, pit1, rt1⟩
  cases x <;> rfl

theorem walkUntil_store_settled (dkey : GoString) (d : Data) (keys : List GoString) :
    ∀ (pit : Matcher Waiters) (rt : Runtime), Settled dkey d rt →
      (walkUntil dkey d keys pit rt).2.2.ContentStore = rt.ContentStore ∧
      (walkUntil dkey d keys pit rt).2.2.evictionTimers = rt.evictionTimers := by
  induction keys with
  | nil => intro pit rt _; exact ⟨rfl, rfl⟩
  | cons key rest ih =>
    intro pit rt hs
    unfold walkUntil
    cases mapGet pit key with
    | none => exact ih pit rt hs
    | some m =>
      dsimp only
      obtain ⟨h1, h2⟩ := recvDataVisitUntil_store dkey d key m rt
      rw [cacheFresh_of_settled dkey d rt hs] at h1 h2
      rcases hres : recvDataVisitUntil dkey d key m rt with ⟨x, o, rt1⟩
      rw [hres] at h1 h2
      dsimp only at h1 h2
      have hs1 : Settled dkey d rt1 := by
        unfold Settled; rw [h1]; exact hs
      cases x with
      | some x => cases o <;> exact ⟨h1, h2⟩
      | none =>
        cases o with
        | none =>
          obtain ⟨h3, h4⟩ := ih (mapDelete pit key) rt1 hs1
          exact ⟨h3.trans h1, h4.trans h2⟩
        | some m1 =>
          obtain ⟨h3, h4⟩ := ih (mapSet pit key m1) rt1 hs1
          exact ⟨h3.trans h1, h4.trans h2⟩

theorem walkUntil_store (dkey : GoString) (d : Data) (keys : List GoString) :
    ∀ (pit : Matcher Waiters) (rt : Runtime),
      (∃ k ∈ keys, mapGet pit k ≠ none) →
      (walkUntil dkey d keys pit rt).2.2.ContentStore = (cacheFresh dkey d rt).ContentStore ∧
      (walkUntil dkey d keys pit rt).2.2.evictionTimers =
        (cacheFresh dkey d rt).evictionTimers := by
  induction keys with
  | nil =>
    intro pit rt h
    obtain ⟨k, hk, _⟩ := h
    cases hk
  | cons key rest ih =>
    intro pit rt h
    unfold walkUntil
    cases hget : mapGet pit key with
    | none =>
      dsimp only
      apply ih pit rt
      obtain ⟨k, hk, hne⟩ := h
      rcases List.mem_cons.mp hk with e | hin
      · rw [e] at hne; exact absurd hget hne
      · exact ⟨k, hin, hne⟩
    | some m =>
      dsimp only
      obtain ⟨h1, h2⟩ := recvDataVisitUntil_store dkey d key m rt
      rcases hres : recvDataVisitUntil dkey d key m rt with ⟨x, o, rt1⟩
      rw [hres] at h1 h2
      dsimp only at h1 h2
      have hs1 : Settled dkey d rt1 := by
        have := cacheFresh_settled dkey d rt
        unfold Settled at this ⊢
        rw [h1]; exact this
      cases x with
      | some x => cases o <;> exact ⟨h1, h2⟩
      | none =>
        cases o with
        | none =>
          obtain ⟨h3, h4⟩ := walkUntil_store_settled dkey d rest (mapDelete pit key) rt1 hs1
          exact ⟨h3.trans h1, h4.trans h2⟩
        | some m1 =>
          obtain ⟨h3, h4⟩ := walkUntil_store_settled dkey d rest (mapSet pit key m1) rt1 hs1
          exact ⟨h3.trans h1, h4.trans h2⟩

/-- The store and the armed evictions in the state `recvData` leaves behind,
on its return or on a panic, when its walk visits at least one PIT node: one
guarded insert. -/
theorem recvDataUntil_store (cstr : Component → GoString) (f : Face) (d : Data)
    (hvisit : ∃ k ∈ walkKeys cstr d.Name, mapGet f.pit k ≠ none) :
    (f.recvDataUntil cstr d).2.rt.ContentStore =
        (cacheFresh (d.Name.String cstr) d f.rt).ContentStore ∧
      (f.recvDataUntil cstr d).2.rt.evictionTimers =
        (cacheFresh (d.Name.String cstr) d f.rt).evictionTimers := by
  have h := walkUntil_store (d.Name.String cstr) d (walkKeys cstr d.Name) f.pit f.rt hvisit
  unfold Face.recvDataUntil
  revert h
  rcases walkUntil (d.Name.String cstr) d (walkKeys cstr d.Name) f.pit f.rt with ⟨x, pit1, rt1⟩
  exact fun h => h

/-! ## The reader goroutine -/

/-- C10: a Face made with a nil interest channel does not skip an inbound
Interest: the reader loop ends at it, so a Data packet that arrives after an
Interest is never passed to `recvData`, although it is a data packet of the
stream. -/
theorem reader_without_sink_stops_at_interest (i : Interest) (d : Data) :
    recvDataCalls (NewFace.readerCalls false [Packet.interest i, Packet.data d]) = [] ∧
      streamData [Packet.interest i, Packet.data d] = [d] :=
  ⟨rfl, rfl⟩

/-- With a nil interest channel the reader passes to `recvData` exactly the data
packets that come before the first packet that is not a Data. -/
theorem reader_without_sink_calls (stream : List Packet) :
    recvDataCalls (NewFace.readerCalls false stream) =
      streamData (stream.takeWhile (fun p => match p with
        | Packet.data _ => true
        | _ => false)) := by
  induction stream with
  | nil => rfl
  | cons p rest ih =>
    cases p with
    | data d => simp [NewFace.readerCalls, recvDataCalls, streamData, List.takeWhile, ih]
    | interest i => simp [NewFace.readerCalls, recvDataCalls, streamData, List.takeWhile]
    | undecodable => simp [NewFace.readerCalls, recvDataCalls, streamData, List.takeWhile]

/-! ## Well-formed states -/

theorem mapKeys_filter_subset (m : Waiters) (q : ChanId × Selectors → Bool) (c : ChanId)
    (h : c ∈ mapKeys (m.filter q)) : c ∈ mapKeys m := by
  simp only [mapKeys, List.mem_map, List.mem_filter] at h ⊢
  obtain ⟨p, ⟨hp, _⟩, e⟩ := h
  exact ⟨p, hp, e⟩

theorem mapKeys_filter_nodup (m : Waiters) (q : ChanId × Selectors → Bool)
    (h : (mapKeys m).Nodup) : (mapKeys (m.filter q)).Nodup := by
  unfold mapKeys at h ⊢
  exact List.Nodup.sublist (List.Sublist.map Prod.fst (List.filter_sublist m)) h

/-- Replacing the entry at `key` by a part of it, while touching only channels
of the entry that are no longer in it, keeps the PIT well formed. -/
theorem WellFormedPIT_shrink (pit : Matcher Waiters) (chans chans1 : List Chan)
    (key : GoString) (m : Waiters) (q : ChanId × Selectors → Bool)
    (hwf : WellFormedPIT pit chans) (hget : mapGet pit key = some m)
    (hch : ∀ c, c ∉ mapKeys m ∨ c ∈ mapKeys (m.filter q) → chans1[c]? = chans[c]?) :
    WellFormedPIT (mapSet pit key (m.filter q)) chans1 ∧
      WellFormedPIT (mapDelete pit key) chans1 := by
  obtain ⟨hnd, hopen, hdis⟩ := hwf key m hget
  have other : ∀ k m1, k ≠ key → mapGet pit k = some m1 →
      (mapKeys m1).Nodup ∧ WaitersOpen chans1 m1 ∧ ∀ ch ∈ mapKeys m1, ch ∉ mapKeys m := by
    intro k m1 hk hg
    obtain ⟨h1, h2, h3⟩ := hwf k m1 hg
    have hd : ∀ ch ∈ mapKeys m1, ch ∉ mapKeys m :=
      fun ch hc => h3 key m (fun e => hk e.symm) hget ch hc
    refine ⟨h1, ?_, hd⟩
    intro ch hc
    rw [hch ch (Or.inl (hd ch hc))]
    exact h2 ch hc
  constructor
  · intro k m1 hg
    by_cases hk : k = key
    · subst hk
      rw [mapGet_mapSet_self] at hg
      cases hg
      refine ⟨mapKeys_filter_nodup m q hnd, ?_, ?_⟩
      · intro ch hc
        rw [hch ch (Or.inr hc)]
        exact hopen ch (mapKeys_filter_subset m q ch hc)
      · intro k2 m2 hk2 hg2 ch hc
        rw [mapGet_mapSet_ne _ _ _ _ (fun e => hk2 e.symm)] at hg2
        exact hdis k2 m2 hk2 hg2 ch (mapKeys_filter_subset m q ch hc)
    · rw [mapGet_mapSet_ne _ _ _ _ (fun e => hk e.symm)] at hg
      obtain ⟨h1, h2, h3⟩ := other k m1 hk hg
      refine ⟨h1, h2, ?_⟩
      intro k2 m2 hk2 hg2 ch hc
      by_cases hk3 : k2 = key
      · subst hk3
        rw [mapGet_mapSet_self] at hg2
        cases hg2
        exact fun hin => h3 ch hc (mapKeys_filter_subset m q ch hin)
      · rw [mapGet_mapSet_ne _ _ _ _ (fun e => hk3 e.symm)] at hg2
        exact (hwf k m1 hg).2.2 k2 m2 hk2 hg2 ch hc
  · intro k m1 hg
    by_cases hk : k = key
    · subst hk
      rw [mapGet_mapDelete_self] at hg
      cases hg
    · rw [mapGet_mapDelete_ne _ _ _ (fun e => hk e.symm)] at hg
      obtain ⟨h1, h2, _⟩ := other k m1 hk hg
      refine ⟨h1, h2, ?_⟩
      intro k2 m2 hk2 hg2 ch hc
      by_cases hk3 : k2 = key
      · subst hk3
        rw [mapGet_mapDelete_self] at hg2
        cases hg2
      · rw [mapGet_mapDelete_ne _ _ _ (fun e => hk3 e.symm)] at hg2
        exact (hwf k m1 hg).2.2 k2 m2 hk2 hg2 ch hc

theorem getElem?_append_of_some (chans : List Chan) (c c1 : Chan) (ch : Nat)
    (h : chans[ch]? = some c) : (chans ++ [c1])[ch]? = some c := by
  have hlt : ch < chans.length := by
    by_contra hc
    rw [List.getElem?_eq_none (Nat.le_of_not_lt hc)] at h
    cases h
  rw [List.getElem?_append_left hlt]
  exact h

theorem lt_length_of_getElem? (chans : List Chan) (c : Chan) (ch : Nat)
    (h : chans[ch]? = some c) : ch < chans.length := by
  by_contra hc
  rw [List.getElem?_eq_none (Nat.le_of_not_lt hc)] at h
  cases h

/-- Making a channel keeps the PIT well formed. -/
theorem WellFormedPIT_make (pit : Matcher Waiters) (chans : List Chan) (c1 : Chan)
    (hwf : WellFormedPIT pit chans) : WellFormedPIT pit (chans ++ [c1]) := by
  intro k m hg
  obtain ⟨h1, h2, h3⟩ := hwf k m hg
  exact ⟨h1, fun ch hc => getElem?_append_of_some chans _ c1 ch (h2 ch hc), h3⟩

/-- Installing a newly made channel as a waiter at `key` keeps the PIT well
formed; `chs` is the entry at `key` (empty when there is none). -/
theorem WellFormedPIT_install (pit : Matcher Waiters) (chans : List Chan)
    (key : GoString) (chs : Waiters) (sel : Selectors)
    (hwf : WellFormedPIT pit chans)
    (hget : mapGet pit key = some chs ∨ (mapGet pit key = none ∧ chs = [])) :
    WellFormedPIT (mapSet pit key (chs ++ [(chans.length, sel)]))
      (chans ++ [Chan.mk [] false]) := by
  have hfresh : ∀ k m, mapGet pit k = some m → chans.length ∉ mapKeys m := by
    intro k m hg hin
    exact Nat.lt_irrefl _ (lt_length_of_getElem? chans _ _ ((hwf k m hg).2.1 _ hin))
  have hchs : (mapKeys chs).Nodup ∧ WaitersOpen chans chs ∧ chans.length ∉ mapKeys chs ∧
      ∀ k2 m2, k2 ≠ key → mapGet pit k2 = some m2 → ∀ ch ∈ mapKeys chs, ch ∉ mapKeys m2 := by
    rcases hget with hg | ⟨_, e⟩
    · obtain ⟨h1, h2, h3⟩ := hwf key chs hg
      exact ⟨h1, h2, hfresh key chs hg, h3⟩
    · subst e
      refine ⟨by simp [mapKeys], ?_, by simp [mapKeys], ?_⟩
      · intro ch hc; simp [mapKeys] at hc
      · intro _ _ _ _ ch hc; simp [mapKeys] at hc
  obtain ⟨c1, c2, c3, c4⟩ := hchs
  have hkeys : mapKeys (chs ++ [(chans.length, sel)]) = mapKeys chs ++ [chans.length] := by
    simp [mapKeys]
  intro k m hg
  by_cases hk : k = key
  · subst hk
    rw [mapGet_mapSet_self] at hg
    cases hg
    rw [hkeys]
    refine ⟨?_, ?_, ?_⟩
    · rw [List.nodup_append]
      refine ⟨c1, List.nodup_singleton _, ?_⟩
      intro a ha hb
      rw [List.mem_singleton] at hb
      subst hb
      exact c3 ha
    · intro ch hc
      rw [hkeys] at hc
      rcases List.mem_append.mp hc with h1 | h1
      · exact getElem?_append_of_some chans _ _ ch (c2 ch h1)
      · rw [List.mem_singleton] at h1
        subst h1
        exact List.getElem?_concat_length chans _
    · intro k2 m2 hk2 hg2 ch hc
      rw [mapGet_mapSet_ne _ _ _ _ (fun e => hk2 e.symm)] at hg2
      rcases List.mem_append.mp hc with h1 | h1
      · exact c4 k2 m2 hk2 hg2 ch h1
      · rw [List.mem_singleton] at h1
        subst h1
        exact hfresh k2 m2 hg2
  · rw [mapGet_mapSet_ne _ _ _ _ (fun e => hk e.symm)] at hg
    obtain ⟨h1, h2, h3⟩ := hwf k m hg
    refine ⟨h1, fun ch hc => getElem?_append_of_some chans _ _ ch (h2 ch hc), ?_⟩
    intro k2 m2 hk2 hg2 ch hc
    by_cases hk3 : k2 = key
    · subst hk3
      rw [mapGet_mapSet_self] at hg2
      cases hg2
      rw [hkeys]
      intro hin
      rcases List.mem_append.mp hin with h4 | h4
      · exact c4 k m hk hg ch h4 hc
      · rw [List.mem_singleton] at h4
        subst h4
        exact hfresh k m hg hc
    · rw [mapGet_mapSet_ne _ _ _ _ (fun e => hk3 e.symm)] at hg2
      exact h3 k2 m2 hk2 hg2 ch hc

theorem WellFormed_SendInterest (cstr : Component → GoString) (f f1 : Face)
    (i : Interest) (wr : Option GoError) (r : Except GoError ChanId)
    (h : WellFormed f) (hrun : f.SendInterest cstr i wr = .ok (f1, r)) :
    WellFormed f1 := by
  unfold WellFormed at h ⊢
  cases hcs : mapGet f.rt.ContentStore (i.Name.String cstr) with
  | some e =>
    rw [SendInterest_hit_eq cstr f i wr e hcs] at hrun
    simp only [Except.ok.injEq, Prod.mk.injEq] at hrun
    rw [← hrun.1]
    intro k m hg
    obtain ⟨h1, h2, h3⟩ := h k m hg
    exact ⟨h1, fun ch hc => getElem?_append_of_some f.rt.chans _ _ ch (h2 ch hc), h3⟩
  | none =>
    cases hpit : mapGet f.pit (i.Name.String cstr) with
    | some chs =>
      rw [SendInterest_aggregate_eq cstr f i wr chs hcs hpit] at hrun
      simp only [Except.ok.injEq, Prod.mk.injEq] at hrun
      rw [← hrun.1]
      have habs : mapGet chs f.rt.chans.length = none := by
        rw [mapGet_eq_none_iff]
        intro hin
        exact Nat.lt_irrefl _ (lt_length_of_getElem? f.rt.chans _ _ ((h _ chs hpit).2.1 _ hin))
      rw [mapSet_of_absent chs _ _ habs]
      exact WellFormedPIT_install f.pit f.rt.chans _ chs i.Selectors h (Or.inl hpit)
    | none =>
      cases wr with
      | some err =>
        rw [SendInterest_writeFails_eq cstr f i err hcs hpit] at hrun
        simp only [Except.ok.injEq, Prod.mk.injEq] at hrun
        rw [← hrun.1]
        exact WellFormedPIT_make f.pit f.rt.chans _ h
      | none =>
        rw [SendInterest_new_eq cstr f i hcs hpit] at hrun
        simp only [Except.ok.injEq, Prod.mk.injEq] at hrun
        rw [← hrun.1]
        have := WellFormedPIT_install f.pit f.rt.chans (i.Name.String cstr) [] i.Selectors h
          (Or.inr ⟨hpit, rfl⟩)
        rw [mapSet_of_absent _ _ _ hpit] at this
        exact this

theorem WellFormed_lifetimeExpiry (cstr : Component → GoString) (f : Face)
    (name : Name) (ch : ChanId) (h : WellFormed f) :
    ∃ f1, f.lifetimeExpiry cstr name ch = .ok f1 ∧ WellFormed f1 := by
  unfold WellFormed at h
  cases hpit : mapGet f.pit (name.String cstr) with
  | none => exact ⟨f, lifetimeExpiry_absent_eq cstr f name ch (Or.inl hpit), h⟩
  | some m =>
    cases hin : mapGet m ch with
    | none => exact ⟨f, lifetimeExpiry_absent_eq cstr f name ch (Or.inr ⟨m, hpit, hin⟩), h⟩
    | some sel =>
      have hmem : ch ∈ mapKeys m := by
        by_contra hc
        rw [← mapGet_eq_none_iff, hin] at hc
        cases hc
      have hopen := (h _ m hpit).2.1 ch hmem
      refine ⟨_, lifetimeExpiry_present_eq cstr f name ch m sel [] hpit hin hopen, ?_⟩
      unfold WellFormed
      have hs := WellFormedPIT_shrink f.pit f.rt.chans (f.rt.chans.set ch (Chan.mk [] true))
        (name.String cstr) m (fun p => decide (p.1 ≠ ch)) h hpit
        (by
          intro c hc
          have hne : ch ≠ c := by
            intro e
            subst e
            rcases hc with hc | hc
            · exact hc hmem
            · simp [mapKeys] at hc
          exact List.getElem?_set_ne hne)
      rw [← mapDelete_eq_filter] at hs
      dsimp only
      split
      · exact hs.2
      · exact hs.1

theorem deliveredTo_subset (d : Data) (s : Int) (m : Waiters) (c : ChanId)
    (h : c ∈ deliveredTo d s m) : c ∈ mapKeys m := by
  unfold deliveredTo at h
  exact mapKeys_filter_subset m _ c h

theorem not_delivered_of_kept (d : Data) (s : Int) (m : Waiters) (hnd : (mapKeys m).Nodup)
    (c : ChanId) (h : c ∈ mapKeys (m.filter (fun p => !passes p.2 d s))) :
    c ∉ deliveredTo d s m := by
  intro hin
  simp only [mapKeys, List.mem_map, List.mem_filter] at h
  obtain ⟨p, ⟨hp, hnp⟩, e⟩ := h
  have := (mem_deliveredTo_iff d s m hnd p hp).mp (by rw [e]; exact hin)
  rw [this] at hnp
  cases hnp

theorem deliveredTo_kept (d : Data) (s : Int) (m : Waiters) :
    deliveredTo d s (m.filter (fun p => !passes p.2 d s)) = [] := by
  unfold deliveredTo
  rw [List.filter_filter]
  have : (m.filter (fun p => passes p.2 d s && !passes p.2 d s)) = [] := by
    rw [List.filter_eq_nil_iff]
    intro p _
    cases passes p.2 d s <;> simp
  rw [this]; rfl

theorem entryAfter_entryAfter (d : Data) (k : GoString) (m : Waiters) :
    (entryAfter d k m).bind (entryAfter d k) = entryAfter d k m := by
  unfold entryAfter
  split
  · rfl
  · rename_i hlen
    simp only [Option.some_bind, List.filter_filter, Bool.and_self]
    rw [if_neg hlen]

/-- The visit of one PIT node in a well-formed state that does not panic. -/
theorem recvDataVisit_run (dkey : GoString) (d : Data) (k : GoString) (m : Waiters)
    (rt : Runtime)
    (hnd : (mapKeys m).Nodup) (hopen : WaitersOpen rt.chans m)
    (hok : ∀ p ∈ m, ∃ b, selectorFilter p.2 d (suffixLen d k) = .ok b) :
    ∃ chans1, recvDataVisit dkey d k m rt =
        .ok (entryAfter d k m, { cacheFresh dkey d rt with chans := chans1 }) ∧
      (∀ ch ∈ deliveredTo d (suffixLen d k) m, chans1[ch]? = some (Chan.mk [d] true)) ∧
      (∀ ch, ch ∉ deliveredTo d (suffixLen d k) m → chans1[ch]? = rt.chans[ch]?) := by
  have hch : (cacheFresh dkey d rt).chans = rt.chans := by
    unfold cacheFresh; split <;> rfl
  obtain ⟨chans1, h1, _, h3, h4⟩ :=
    fanout_spec d (suffixLen d k) m m (cacheFresh dkey d rt).chans hnd
      (by rw [hch]; exact hopen) hok
  have hfil : m.filter (fun p => decide (p.1 ∉ deliveredTo d (suffixLen d k) m)) =
      m.filter (fun p => !passes p.2 d (suffixLen d k)) := by
    apply List.filter_congr
    intro p hp
    have := mem_deliveredTo_iff d (suffixLen d k) m hnd p hp
    cases hpass : passes p.2 d (suffixLen d k) <;> simp_all
  rw [hfil] at h1
  refine ⟨chans1, ?_, h3, ?_⟩
  · unfold recvDataVisit entryAfter
    simp only [h1]
    split <;> rfl
  · intro ch hc
    rw [h4 ch hc, hch]

theorem mem_of_mem_entryAfter (d : Data) (k : GoString) (m v : Waiters)
    (h : entryAfter d k m = some v) : v = m.filter (fun p => !passes p.2 d (suffixLen d k)) := by
  unfold entryAfter at h
  split at h
  · cases h
  · cases h; rfl

/-- The walk of `recvData` over a list of node names, from a well-formed state
in which no visited waiter makes the filter panic: the walk completes, the
state stays well formed, every entry at a walked key is replaced by its
waiters that fail the filter (or deleted when none is left), every other
entry is untouched, exactly the channels of the passing waiters of walked
entries hold `d` and are closed, and every other channel is untouched. -/
theorem UpdateAll_recvData_spec (dkey : GoString) (d : Data) (keys : List GoString) :
    ∀ (pit : Matcher Waiters) (rt : Runtime),
      WellFormedPIT pit rt.chans → NoPanic d keys pit →
      ∃ pit1 rt1, Matcher.UpdateAll pit keys (recvDataVisit dkey d) rt = .ok (pit1, rt1) ∧
        WellFormedPIT pit1 rt1.chans ∧
        (∀ k, k ∈ keys → mapGet pit1 k = (mapGet pit k).bind (entryAfter d k)) ∧
        (∀ k, k ∉ keys → mapGet pit1 k = mapGet pit k) ∧
        (∀ c, Delivered d keys pit c → rt1.chans[c]? = some (Chan.mk [d] true)) ∧
        (∀ c, ¬ Delivered d keys pit c → rt1.chans[c]? = rt.chans[c]?) ∧
        rt1.w = rt.w ∧ rt1.lifetimeTimers = rt.lifetimeTimers := by
  induction keys with
  | nil =>
    intro pit rt hwf _
    refine ⟨pit, rt, rfl, hwf, ?_, fun _ _ => rfl, ?_, fun _ _ => rfl, rfl, rfl⟩
    · intro k hk; cases hk
    · rintro c ⟨k, hk, _⟩; cases hk
  | cons key rest ih =>
    intro pit rt hwf hnp
    cases hget : mapGet pit key with
    | none =>
      have hnp1 : NoPanic d rest pit :=
        fun k hk => hnp k (List.mem_cons_of_mem _ hk)
      obtain ⟨pit1, rt1, h1, h2, h3, h4, h5, h6, h7, h8⟩ := ih pit rt hwf hnp1
      have hdel : ∀ c, Delivered d (key :: rest) pit c ↔ Delivered d rest pit c := by
        intro c
        constructor
        · rintro ⟨k, hk, m, hg, hc⟩
          rcases List.mem_cons.mp hk with e | hin
          · rw [e, hget] at hg; cases hg
          · exact ⟨k, hin, m, hg, hc⟩
        · rintro ⟨k, hk, m, hg, hc⟩
          exact ⟨k, List.mem_cons_of_mem _ hk, m, hg, hc⟩
      refine ⟨pit1, rt1, ?_, h2, ?_, ?_, ?_, ?_, h7, h8⟩
      · unfold Matcher.UpdateAll
        rw [hget]
        exact h1
      · intro k hk
        by_cases hin : k ∈ rest
        · exact h3 k hin
        · rcases List.mem_cons.mp hk with e | hin2
          · rw [h4 k hin, e, hget]; rfl
          · exact absurd hin2 hin
      · intro k hk
        exact h4 k (fun hin => hk (List.mem_cons_of_mem _ hin))
      · intro c hc
        exact h5 c ((hdel c).mp hc)
      · intro c hc
        exact h6 c (fun hd => hc ((hdel c).mpr hd))
    | some m =>
      obtain ⟨hnd, hopen, _⟩ := hwf key m hget
      obtain ⟨chans1, hv, hv1, hv2⟩ := recvDataVisit_run dkey d key m rt hnd hopen
        (hnp key (List.mem_cons_self _ _) m hget)
      have hshrink := WellFormedPIT_shrink pit rt.chans chans1 key m
        (fun p => !passes p.2 d (suffixLen d key)) hwf hget
        (by
          intro c hc
          apply hv2
          rcases hc with hc | hc
          · exact fun hin => hc (deliveredTo_subset d _ m c hin)
          · exact not_delivered_of_kept d _ m hnd c hc)
      -- the PIT after the visit of `key`
      have hpit2 : ∃ pit2, (∀ k, k ≠ key → mapGet pit2 k = mapGet pit k) ∧
          mapGet pit2 key = entryAfter d key m ∧ WellFormedPIT pit2 chans1 ∧
          Matcher.UpdateAll pit (key :: rest) (recvDataVisit dkey d) rt =
            Matcher.UpdateAll pit2 rest (recvDataVisit dkey d)
              { cacheFresh dkey d rt with chans := chans1 } := by
        cases hea : entryAfter d key m with
        | none =>
          refine ⟨mapDelete pit key, ?_, ?_, hshrink.2, ?_⟩
          · intro k hk
            exact mapGet_mapDelete_ne _ _ _ (fun e => hk e.symm)
          · exact mapGet_mapDelete_self _ _
          · conv_lhs => unfold Matcher.UpdateAll
            rw [hget]
            simp only [hv, hea]
        | some v =>
          have hveq := mem_of_mem_entryAfter d key m v hea
          refine ⟨mapSet pit key v, ?_, ?_, ?_, ?_⟩
          · intro k hk
            exact mapGet_mapSet_ne _ _ _ _ (fun e => hk e.symm)
          · exact mapGet_mapSet_self _ _ _
          · rw [hveq]; exact hshrink.1
          · conv_lhs => unfold Matcher.UpdateAll
            rw [hget]
            simp only [hv, hea]
      obtain ⟨pit2, hother, hkey, hwf2, hrun⟩ := hpit2
      have hnp2 : NoPanic d rest pit2 := by
        intro k hk m2 hg2 p hp
        by_cases hkk : k = key
        · subst hkk
          rw [hkey] at hg2
          have hveq := mem_of_mem_entryAfter d k m m2 hg2
          rw [hveq] at hp
          exact hnp k (List.mem_cons_self _ _) m hget p (List.mem_filter.mp hp).1
        · rw [hother k hkk] at hg2
          exact hnp k (List.mem_cons_of_mem _ hk) m2 hg2 p hp
      obtain ⟨pit1, rt1, h1, h2, h3, h4, h5, h6, h7, h8⟩ :=
        ih pit2 { cacheFresh dkey d rt with chans := chans1 } hwf2 hnp2
      have hw : (cacheFresh dkey d rt).w = rt.w := by unfold cacheFresh; split <;> rfl
      have hl : (cacheFresh dkey d rt).lifetimeTimers = rt.lifetimeTimers := by
        unfold cacheFresh; split <;> rfl
      have hdel2 : ∀ c, Delivered d rest pit2 c → Delivered d (key :: rest) pit c := by
        rintro c ⟨k, hk, m2, hg2, hc⟩
        by_cases hkk : k = key
        · subst hkk
          rw [hkey] at hg2
          have hveq := mem_of_mem_entryAfter d k m m2 hg2
          rw [hveq, deliveredTo_kept] at hc
          cases hc
        · rw [hother k hkk] at hg2
          exact ⟨k, List.mem_cons_of_mem _ hk, m2, hg2, hc⟩
      refine ⟨pit1, rt1, hrun.trans h1, h2, ?_, ?_, ?_, ?_, h7.trans hw, h8.trans hl⟩
      · intro k hk
        by_cases hin : k ∈ rest
        · rw [h3 k hin]
          by_cases hkk : k = key
          · subst hkk
            rw [hkey, hget]
            exact entryAfter_entryAfter d k m
          · rw [hother k hkk]
        · rcases List.mem_cons.mp hk with e | hin2
          · rw [h4 k hin, e, hkey, hget]; rfl
          · exact absurd hin2 hin
      · intro k hk
        have hne : k ≠ key := fun e => hk (by rw [e]; exact List.mem_cons_self _ _)
        rw [h4 k (fun hin => hk (List.mem_cons_of_mem _ hin)), hother k hne]
      · intro c hc
        by_cases hd2 : Delivered d rest pit2 c
        · exact h5 c hd2
        · rw [h6 c hd2]
          obtain ⟨k, hk, m0, hg0, hc0⟩ := hc
          by_cases hkk : k = key
          · subst hkk
            rw [hget] at hg0
            cases hg0
            exact hv1 c hc0
          · exfalso
            apply hd2
            rcases List.mem_cons.mp hk with e | hin
            · exact absurd e hkk
            · exact ⟨k, hin, m0, by rw [hother k hkk]; exact hg0, hc0⟩
      · intro c hc
        have hd2 : ¬ Delivered d rest pit2 c := fun h => hc (hdel2 c h)
        rw [h6 c hd2]
        apply hv2
        intro hin
        exact hc ⟨key, List.mem_cons_self _ _, m, hget, hin⟩

theorem WellFormed_recvData (cstr : Component → GoString) (f : Face) (d : Data)
    (h : WellFormed f) (hnp : NoPanic d (walkKeys cstr d.Name) f.pit) :
    ∃ f1, f.recvData cstr d = .ok f1 ∧ WellFormed f1 := by
  obtain ⟨pit1, rt1, h1, h2, _⟩ :=
    UpdateAll_recvData_spec (d.Name.String cstr) d (walkKeys cstr d.Name) f.pit f.rt h hnp
  refine ⟨Face.mk pit1 rt1, ?_, h2⟩
  unfold Face.recvData
  rw [h1]

theorem fanout_ok_filter (d : Data) (s : Int) (rest : List (ChanId × Selectors)) :
    ∀ (m : Waiters) (chans : List Chan) (x : Waiters × List Chan),
      fanout d s rest m chans = .ok x →
      ∀ p ∈ rest, ∃ b, selectorFilter p.2 d s = .ok b := by
  induction rest with
  | nil => intro _ _ _ _ p hp; cases hp
  | cons q rest ih =>
    obtain ⟨ch, sel⟩ := q
    intro m chans x hrun p hp
    unfold fanout at hrun
    cases hsel : selectorFilter sel d s with
    | error e => rw [hsel] at hrun; cases hrun
    | ok b =>
      rw [hsel] at hrun
      rcases List.mem_cons.mp hp with e | hin
      · rw [e]; exact ⟨b, hsel⟩
      · cases b with
        | false => exact ih m chans x hrun p hin
        | true =>
          dsimp only at hrun
          cases hs : chanSend chans ch d with
          | error e => rw [hs] at hrun; cases hrun
          | ok c1 =>
            rw [hs] at hrun
            dsimp only at hrun
            cases hc : chanClose c1 ch with
            | error e => rw [hc] at hrun; cases hrun
            | ok c2 =>
              rw [hc] at hrun
              exact ih _ _ x hrun p hin

theorem UpdateAll_ok_NoPanic (dkey : GoString) (d : Data) (keys : List GoString) :
    ∀ (pit : Matcher Waiters) (rt : Runtime) (x : Matcher Waiters × Runtime),
      Matcher.UpdateAll pit keys (recvDataVisit dkey d) rt = .ok x → NoPanic d keys pit := by
  induction keys with
  | nil => intro _ _ _ _ k hk; cases hk
  | cons key rest ih =>
    intro pit rt x hrun
    unfold Matcher.UpdateAll at hrun
    cases hget : mapGet pit key with
    | none =>
      rw [hget] at hrun
      have hnp := ih pit rt x hrun
      intro k hk m hg
      rcases List.mem_cons.mp hk with e | hin
      · rw [e, hget] at hg; cases hg
      · exact hnp k hin m hg
    | some m =>
      rw [hget] at hrun
      dsimp only at hrun
      cases hv : recvDataVisit dkey d key m rt with
      | error e => rw [hv] at hrun; cases hrun
      | ok res =>
        obtain ⟨o, t⟩ := res
        rw [hv] at hrun
        have hvisit : ∀ p ∈ m, ∃ b, selectorFilter p.2 d (suffixLen d key) = .ok b := by
          unfold recvDataVisit at hv
          dsimp only at hv
          cases hf : fanout d (suffixLen d key) m m (cacheFresh dkey d rt).chans with
          | error e => rw [hf] at hv; cases hv
          | ok y => exact fanout_ok_filter d _ m m _ y hf
        have hrest : ∀ pit2 : Matcher Waiters,
            (∀ k, k ≠ key → mapGet pit2 k = mapGet pit k) →
            NoPanic d rest pit2 → NoPanic d (key :: rest) pit := by
          intro pit2 hother hnp k hk m0 hg
          by_cases hkk : k = key
          · subst hkk
            rw [hget] at hg
            cases hg
            exact hvisit
          · rcases List.mem_cons.mp hk with e | hin
            · exact absurd e hkk
            · exact hnp k hin m0 (by rw [hother k hkk]; exact hg)
        cases o with
        | none =>
          exact hrest (mapDelete pit key)
            (fun k hk => mapGet_mapDelete_ne _ _ _ (fun e => hk e.symm))
            (ih _ t x hrun)
        | some v =>
          exact hrest (mapSet pit key v)
            (fun k hk => mapGet_mapSet_ne _ _ _ _ (fun e => hk e.symm))
            (ih _ t x hrun)

theorem recvData_ok_NoPanic (cstr : Component → GoString) (f f1 : Face) (d : Data)
    (hrun : f.recvData cstr d = .ok f1) : NoPanic d (walkKeys cstr d.Name) f.pit := by
  unfold Face.recvData at hrun
  cases hu : Matcher.UpdateAll f.pit (walkKeys cstr d.Name)
      (recvDataVisit (d.Name.String cstr) d) f.rt with
  | error x => rw [hu] at hrun; cases hrun
  | ok res => exact UpdateAll_ok_NoPanic _ d _ f.pit f.rt res hu

theorem WellFormed_of_recvData (cstr : Component → GoString) (f f1 : Face) (d : Data)
    (h : WellFormed f) (hrun : f.recvData cstr d = .ok f1) : WellFormed f1 := by
  obtain ⟨f2, h2, hwf⟩ := WellFormed_recvData cstr f d h (recvData_ok_NoPanic cstr f f1 d hrun)
  rw [h2] at hrun
  cases hrun
  exact hwf

theorem WellFormed_Step (cstr : Component → GoString) (f f1 : Face)
    (h : WellFormed f) (hstep : Step cstr f f1) : WellFormed f1 := by
  cases hstep with
  | sendInterest i wr _ r hrun => exact WellFormed_SendInterest cstr f f1 i wr r h hrun
  | recvData d _ hrun => exact WellFormed_of_recvData cstr f f1 d h hrun
  | lifetimeExpiry name ch lt f2 _ hrun =>
    obtain ⟨f3, h3, hwf⟩ := WellFormed_lifetimeExpiry cstr f name ch h
    rw [h3] at hrun
    cases hrun
    exact hwf
  | evict name fp _ => exact h

/-- Every state reachable from an empty PIT is well formed: the waiter channels
of an entry are pairwise distinct, open and empty, and no channel waits in two
entries. -/
theorem reachable_wellFormed (cstr : Component → GoString) (f : Face)
    (h : Reachable cstr f) : WellFormed f := by
  induction h with
  | init g hg =>
    intro k m hget
    rw [hg] at hget
    cases hget
  | step g g1 _ hstep ih => exact WellFormed_Step cstr g g1 ih hstep

/-- The fanout partition away from a panic: in every reachable state in which
no waiter on the walk makes the exclude lookup panic, `recvData(d)` completes,
and for every PIT entry it visits: each waiter whose selectors pass the filter had an open, empty channel
and ends with exactly `d` on it, closed, and out of the entry; each waiter
whose selectors fail the filter keeps its open, empty channel and stays in the
entry; the entry left holds exactly the failing waiters (and is deleted when
there is none). -/
theorem recvData_fanout_partition (cstr : Component → GoString) (f : Face) (d : Data)
    (hr : Reachable cstr f) (hnp : NoPanic d (walkKeys cstr d.Name) f.pit) :
    ∃ f1, f.recvData cstr d = .ok f1 ∧
      ∀ k ∈ walkKeys cstr d.Name, ∀ m, mapGet f.pit k = some m →
        mapGet f1.pit k = entryAfter d k m ∧
        ∀ p ∈ m,
          f.rt.chans[p.1]? = some (Chan.mk [] false) ∧
          (selectorFilter p.2 d (suffixLen d k) = .ok true →
            f1.rt.chans[p.1]? = some (Chan.mk [d] true) ∧
            ∀ m1, mapGet f1.pit k = some m1 → p.1 ∉ mapKeys m1) ∧
          (selectorFilter p.2 d (suffixLen d k) = .ok false →
            f1.rt.chans[p.1]? = some (Chan.mk [] false) ∧
            ∃ m1, mapGet f1.pit k = some m1 ∧ p ∈ m1) := by
  have hwf := reachable_wellFormed cstr f hr
  obtain ⟨pit1, rt1, h1, _, h3, _, h5, h6, _, _⟩ :=
    UpdateAll_recvData_spec (d.Name.String cstr) d (walkKeys cstr d.Name) f.pit f.rt hwf hnp
  refine ⟨Face.mk pit1 rt1, ?_, ?_⟩
  · unfold Face.recvData
    rw [h1]
  · intro k hk m hget
    obtain ⟨hnd, hopen, hdis⟩ := hwf k m hget
    have hentry : mapGet pit1 k = entryAfter d k m := by
      rw [h3 k hk, hget]; rfl
    refine ⟨hentry, ?_⟩
    intro p hp
    have hkey : p.1 ∈ mapKeys m := List.mem_map_of_mem Prod.fst hp
    refine ⟨hopen p.1 hkey, ?_, ?_⟩
    · intro hsel
      have hpass : passes p.2 d (suffixLen d k) = true := (passes_iff _ _ _).mpr hsel
      have hdel : p.1 ∈ deliveredTo d (suffixLen d k) m :=
        (mem_deliveredTo_iff d _ m hnd p hp).mpr hpass
      refine ⟨h5 p.1 ⟨k, hk, m, hget, hdel⟩, ?_⟩
      intro m1 hm1
      dsimp only at hm1
      rw [hentry] at hm1
      rw [mem_of_mem_entryAfter d k m m1 hm1]
      intro hin
      exact not_delivered_of_kept d _ m hnd p.1 hin hdel
    · intro hsel
      have hnpass : passes p.2 d (suffixLen d k) = false := by
        simp [passes, hsel]
      have hnd2 : ¬ Delivered d (walkKeys cstr d.Name) f.pit p.1 := by
        rintro ⟨k2, _, m2, hg2, hc2⟩
        by_cases hkk : k2 = k
        · subst hkk
          rw [hget] at hg2
          cases hg2
          rw [mem_deliveredTo_iff d _ m hnd p hp, hnpass] at hc2
          cases hc2
        · exact hdis k2 m2 hkk hg2 p.1 hkey (deliveredTo_subset d _ m2 p.1 hc2)
      refine ⟨?_, ?_⟩
      · dsimp only
        rw [h6 p.1 hnd2]
        exact hopen p.1 hkey
      · have hmem : p ∈ m.filter (fun q => !passes q.2 d (suffixLen d k)) :=
          List.mem_filter.mpr ⟨hp, by simp [hnpass]⟩
        refine ⟨m.filter (fun q => !passes q.2 d (suffixLen d k)), ?_, hmem⟩
        dsimp only
        rw [hentry]
        unfold entryAfter
        rw [if_neg]
        intro hlen
        rw [List.length_eq_zero] at hlen
        rw [hlen] at hmem
        cases hmem

/-- C6: in every reachable state, when the lifetime of a waiter `ch` expires
while `ch` is still in the PIT entry at the interest name, the step completes;
the channel of `ch` was open with no value and is now closed with no value;
`ch` is gone from the entry, whose other waiters are untouched; the entry is
deleted when `ch` was its last waiter; the other entries and the other
channels are untouched. -/
theorem lifetimeExpiry_timeout_cleanup (cstr : Component → GoString) (f : Face)
    (name : Name) (ch : ChanId) (m : Waiters) (sel : Selectors)
    (hr : Reachable cstr f)
    (hpit : mapGet f.pit (name.String cstr) = some m)
    (hin : mapGet m ch = some sel) :
    ∃ f1, f.lifetimeExpiry cstr name ch = .ok f1 ∧
      f.rt.chans[ch]? = some (Chan.mk [] false) ∧
      f1.rt.chans[ch]? = some (Chan.mk [] true) ∧
      (∀ c, c ≠ ch → f1.rt.chans[c]? = f.rt.chans[c]?) ∧
      (mapDelete m ch ≠ [] → mapGet f1.pit (name.String cstr) = some (mapDelete m ch)) ∧
      (mapDelete m ch = [] → mapGet f1.pit (name.String cstr) = none) ∧
      mapGet (mapDelete m ch) ch = none ∧
      (∀ c, c ≠ ch → mapGet (mapDelete m ch) c = mapGet m c) ∧
      (∀ k, k ≠ name.String cstr → mapGet f1.pit k = mapGet f.pit k) ∧
      f1.rt.w = f.rt.w ∧ f1.rt.ContentStore = f.rt.ContentStore := by
  have hmem : ch ∈ mapKeys m := by
    by_contra hc
    rw [← mapGet_eq_none_iff, hin] at hc
    cases hc
  have hopen := (reachable_wellFormed cstr f hr _ m hpit).2.1 ch hmem
  obtain ⟨f1, h1, h2, h3, h4, h5, h6, h7, h8, h9, h10⟩ :=
    lifetimeExpiry_present cstr f name ch m sel [] hpit hin hopen
  exact ⟨f1, h1, hopen, h2, h3, h4, h5, h6, h7, h8, h9, h10⟩

/-- C9: for every state and every data `d` whose walk visits at least one PIT
node, the state `recvData(d)` leaves behind (the state it returns in, or the
state at the panic of a waiter loop: the visitor inserts before it loops) has
gained the Content Store entry `d.Name ↦ d`, with exactly one eviction armed
for `FreshnessPeriod`, if `d` is fresh and the store had no entry at `d.Name`;
in every other case the store and the armed evictions are as before, whatever
the number of nodes visited. A `recvData` that returns, returns in that state,
and it does return in every reachable state where no exclude lookup on the
walk panics. -/
theorem recvData_contentStore_once (cstr : Component → GoString) (f : Face) (d : Data)
    (hvisit : ∃ k ∈ walkKeys cstr d.Name, mapGet f.pit k ≠ none) :
    ((0 < d.MetaInfo.FreshnessPeriod ∧
        mapGet f.rt.ContentStore (d.Name.String cstr) = none) →
      (f.recvDataUntil cstr d).2.rt.ContentStore =
        mapSet f.rt.ContentStore (d.Name.String cstr) d ∧
      mapGet (f.recvDataUntil cstr d).2.rt.ContentStore (d.Name.String cstr) = some d ∧
      (f.recvDataUntil cstr d).2.rt.evictionTimers =
        f.rt.evictionTimers ++ [(d.Name, d.MetaInfo.FreshnessPeriod)]) ∧
    (¬ (0 < d.MetaInfo.FreshnessPeriod ∧
        mapGet f.rt.ContentStore (d.Name.String cstr) = none) →
      (f.recvDataUntil cstr d).2.rt.ContentStore = f.rt.ContentStore ∧
      (f.recvDataUntil cstr d).2.rt.evictionTimers = f.rt.evictionTimers) ∧
    f.recvData cstr d = toExcept (f.recvDataUntil cstr d) ∧
    (∀ f1, f.recvData cstr d = .ok f1 → f1 = (f.recvDataUntil cstr d).2) ∧
    (Reachable cstr f → NoPanic d (walkKeys cstr d.Name) f.pit →
      ∃ f1, f.recvData cstr d = .ok f1) := by
  obtain ⟨h1, h2⟩ := recvDataUntil_store cstr f d hvisit
  refine ⟨?_, ?_, recvData_toExcept cstr f d, ?_, ?_⟩
  · intro hc
    have hcond : 0 < d.MetaInfo.FreshnessPeriod ∧
        (mapGet f.rt.ContentStore (d.Name.String cstr)).isNone = true := by
      refine ⟨hc.1, ?_⟩
      rw [hc.2]; rfl
    rw [h1, h2]
    unfold cacheFresh
    rw [if_pos hcond]
    exact ⟨rfl, mapGet_mapSet_self _ _ _, rfl⟩
  · intro hc
    have hcond : ¬ (0 < d.MetaInfo.FreshnessPeriod ∧
        (mapGet f.rt.ContentStore (d.Name.String cstr)).isNone = true) := by
      intro hh
      apply hc
      refine ⟨hh.1, ?_⟩
      exact Option.isNone_iff_eq_none.mp hh.2
    rw [h1, h2]
    unfold cacheFresh
    rw [if_neg hcond]
    exact ⟨rfl, rfl⟩
  · intro f1 hrun
    rw [recvData_toExcept] at hrun
    rcases hres : f.recvDataUntil cstr d with ⟨x, g⟩
    rw [hres] at hrun
    cases x with
    | some x => cases hrun
    | none =>
      simp only [toExcept, Except.ok.injEq] at hrun
      exact hrun.symm
  · intro hr hnp
    obtain ⟨f1, hf1, _⟩ := WellFormed_recvData cstr f d (reachable_wellFormed cstr f hr) hnp
    exact ⟨f1, hf1⟩

/-- C2: the fanout partition fails on a walk that meets a waiter at the empty
name (the defect of the exclude lookup at the root). In the state reached from
`emptyFace` by `SendInterest` of the empty name and then of `/a`, the waiter of
`/a` has selectors that pass the filter for the data `/a` at its node, so the
data is owed to it; `recvData` of that data panics in the exclude lookup of
the root entry, before it visits `/a`, and in the state it leaves behind the
channel of the `/a` waiter is open and holds nothing and the waiter is still
in its entry. -/
theorem recvData_fanout_root_panic :
    Reachable percentString faceRootAndA ∧
    walkKeys percentString dataA.Name = [[], [47, 97]] ∧
    mapGet faceRootAndA.pit [47, 97] = some [(1, noSelectors)] ∧
    selectorFilter noSelectors dataA (suffixLen dataA [47, 97]) = .ok true ∧
    deliveredTo dataA (suffixLen dataA [47, 97]) [(1, noSelectors)] = [1] ∧
    faceRootAndA.recvData percentString dataA = .error Fault.indexOutOfRange ∧
    (faceRootAndA.recvDataUntil percentString dataA).1 = some Fault.indexOutOfRange ∧
    (faceRootAndA.recvDataUntil percentString dataA).2.rt.chans[1]? =
      some (Chan.mk [] false) ∧
    mapGet (faceRootAndA.recvDataUntil percentString dataA).2.pit [47, 97] =
      some [(1, noSelectors)] :=
  ⟨Reachable.step faceWaitingRoot faceRootAndA
      (Reachable.step emptyFace faceWaitingRoot (Reachable.init emptyFace rfl)
        (Step.sendInterest emptyFace interestRoot none faceWaitingRoot (.ok 0) rfl))
      (Step.sendInterest faceWaitingRoot interestA none faceRootAndA (.ok 1) rfl),
    rfl, rfl, rfl, rfl, rfl, rfl, rfl, rfl⟩

/-! ## `Name.Compare` -/

theorem bytesCompare_range (a : List Nat) :
    ∀ b, bytesCompare a b = -1 ∨ bytesCompare a b = 0 ∨ bytesCompare a b = 1 := by
  induction a with
  | nil => intro b; cases b <;> simp [bytesCompare]
  | cons x xs ih =>
    intro b
    cases b with
    | nil => simp [bytesCompare]
    | cons y ys =>
      simp only [bytesCompare]
      split_ifs
      · simp
      · simp
      · exact ih ys

theorem bytesCompare_antisymm (a : List Nat) :
    ∀ b, bytesCompare a b = -(bytesCompare b a) := by
  induction a with
  | nil => intro b; cases b <;> simp [bytesCompare]
  | cons x xs ih =>
    intro b
    cases b with
    | nil => simp [bytesCompare]
    | cons y ys =>
      simp only [bytesCompare]
      split_ifs
      all_goals first
        | exact ih ys
        | omega

theorem bytesCompare_eq_zero_iff (a : List Nat) :
    ∀ b, bytesCompare a b = 0 ↔ a = b := by
  induction a with
  | nil => intro b; cases b <;> simp [bytesCompare]
  | cons x xs ih =>
    intro b
    cases b with
    | nil => simp [bytesCompare]
    | cons y ys =>
      simp only [bytesCompare, List.cons.injEq]
      split_ifs with h1 h2
      · simp; omega
      · simp; omega
      · rw [ih ys]
        have : x = y := by omega
        simp [this]

theorem bytesCompare_lt_trans (a : List Nat) :
    ∀ b c, bytesCompare a b = -1 → bytesCompare b c = -1 → bytesCompare a c = -1 := by
  induction a with
  | nil =>
    intro b c h1 h2
    cases b with
    | nil => simp [bytesCompare] at h1
    | cons y ys =>
      cases c with
      | nil => simp [bytesCompare] at h2
      | cons z zs => simp [bytesCompare]
  | cons x xs ih =>
    intro b c h1 h2
    cases b with
    | nil => simp [bytesCompare] at h1
    | cons y ys =>
      cases c with
      | nil => simp [bytesCompare] at h2
      | cons z zs =>
        simp only [bytesCompare] at h1 h2 ⊢
        split_ifs at h1 h2 ⊢ with p1 p2 p3 p4 p5 p6 p7 p8 p9 p10
        all_goals first
          | rfl
          | omega
          | exact ih ys zs h1 h2

theorem compareComponents_range (a : List Component) :
    ∀ b, compareComponents a b = -1 ∨ compareComponents a b = 0 ∨ compareComponents a b = 1 := by
  induction a with
  | nil => intro b; cases b <;> simp [compareComponents]
  | cons x xs ih =>
    intro b
    cases b with
    | nil => simp [compareComponents]
    | cons y ys =>
      simp only [compareComponents]
      split_ifs
      · exact bytesCompare_range x y
      · exact ih ys

theorem compareComponents_antisymm (a : List Component) :
    ∀ b, compareComponents a b = -(compareComponents b a) := by
  induction a with
  | nil => intro b; cases b <;> simp [compareComponents]
  | cons x xs ih =>
    intro b
    cases b with
    | nil => simp [compareComponents]
    | cons y ys =>
      have hxy := bytesCompare_antisymm x y
      simp only [compareComponents]
      split_ifs with h1 h2 h2
      · exact hxy
      · exfalso; omega
      · exfalso; omega
      · exact ih ys

theorem compareComponents_eq_zero_iff (a : List Component) :
    ∀ b, compareComponents a b = 0 ↔ a = b := by
  induction a with
  | nil => intro b; cases b <;> simp [compareComponents]
  | cons x xs ih =>
    intro b
    cases b with
    | nil => simp [compareComponents]
    | cons y ys =>
      have hxy := bytesCompare_eq_zero_iff x y
      simp only [compareComponents, List.cons.injEq]
      split_ifs with h1
      · constructor
        · intro h; exact absurd h h1
        · intro h; exact absurd (hxy.mpr h.1) h1
      · push_neg at h1
        rw [ih ys]
        constructor
        · intro h; exact ⟨hxy.mp h1, h⟩
        · intro h; exact h.2

theorem compareComponents_self (a : List Component) : compareComponents a a = 0 :=
  (compareComponents_eq_zero_iff a a).mpr rfl

theorem compareComponents_lt_trans (a : List Component) :
    ∀ b c, compareComponents a b = -1 → compareComponents b c = -1 →
      compareComponents a c = -1 := by
  induction a with
  | nil =>
    intro b c h1 h2
    cases b with
    | nil => simp [compareComponents] at h1
    | cons y ys =>
      cases c with
      | nil => simp [compareComponents] at h2
      | cons z zs => simp [compareComponents]
  | cons x xs ih =>
    intro b c h1 h2
    cases b with
    | nil => simp [compareComponents] at h1
    | cons y ys =>
      cases c with
      | nil => simp [compareComponents] at h2
      | cons z zs =>
        simp only [compareComponents] at h1 h2 ⊢
        by_cases hxy : bytesCompare x y = 0
        · have exy := (bytesCompare_eq_zero_iff x y).mp hxy
          subst exy
          simp only [hxy, ne_eq, not_true_eq_false, if_false] at h1
          by_cases hyz : bytesCompare x z = 0
          · simp only [hyz, ne_eq, not_true_eq_false, if_false] at h2 ⊢
            exact ih ys zs h1 h2
          · simp only [ne_eq, hyz, not_false_eq_true, if_true] at h2 ⊢
            exact h2
        · simp only [ne_eq, hxy, not_false_eq_true, if_true] at h1
          by_cases hyz : bytesCompare y z = 0
          · have eyz := (bytesCompare_eq_zero_iff y z).mp hyz
            subst eyz
            simp only [ne_eq, hxy, not_false_eq_true, if_true]
            exact h1
          · simp only [ne_eq, hyz, not_false_eq_true, if_true] at h2
            have hxz := bytesCompare_lt_trans x y z h1 h2
            have : bytesCompare x z ≠ 0 := by omega
            simp only [ne_eq, this, not_false_eq_true, if_true]
            exact hxz

/-- C11: `Compare` is antisymmetric, `a.Compare(b) = -(b.Compare(a))`, and every
result is `-1`, `0` or `1`. -/
theorem Compare_antisymmetric (a b : Name) :
    a.Compare b = -(b.Compare a) ∧
      (a.Compare b = -1 ∨ a.Compare b = 0 ∨ a.Compare b = 1) :=
  ⟨compareComponents_antisymm a.Components b.Components,
    compareComponents_range a.Components b.Components⟩

theorem compareComponents_le_trans (a b c : List Component)
    (h1 : compareComponents a b ≤ 0) (h2 : compareComponents b c ≤ 0) :
    compareComponents a c ≤ 0 := by
  have r1 := compareComponents_range a b
  have r2 := compareComponents_range b c
  by_cases e1 : compareComponents a b = 0
  · rw [(compareComponents_eq_zero_iff a b).mp e1]; exact h2
  · by_cases e2 : compareComponents b c = 0
    · rw [← (compareComponents_eq_zero_iff b c).mp e2]; exact h1
    · have l1 : compareComponents a b = -1 := by omega
      have l2 : compareComponents b c = -1 := by omega
      have := compareComponents_lt_trans a b c l1 l2
      omega

/-- C12: `Compare` is a total order on component sequences: the result is `0`
exactly when the two names have the same components, `≤ 0` is transitive, and
any two names are comparable. -/
theorem Compare_total_order (a b c : Name) :
    (a.Compare b = 0 ↔ a.Components = b.Components) ∧
      (a.Compare b ≤ 0 → b.Compare c ≤ 0 → a.Compare c ≤ 0) ∧
      (a.Compare b ≤ 0 ∨ b.Compare a ≤ 0) := by
  refine ⟨compareComponents_eq_zero_iff a.Components b.Components,
    compareComponents_le_trans a.Components b.Components c.Components, ?_⟩
  have h := compareComponents_antisymm a.Components b.Components
  unfold Name.Compare
  omega

theorem compareComponents_append (a : List Component) :
    ∀ (t : List Component), t ≠ [] → compareComponents a (a ++ t) = -1 := by
  induction a with
  | nil =>
    intro t ht
    cases t with
    | nil => exact absurd rfl ht
    | cons y ys => simp [compareComponents]
  | cons x xs ih =>
    intro t ht
    have hx : bytesCompare x x = 0 := (bytesCompare_eq_zero_iff x x).mpr rfl
    simp only [List.cons_append, compareComponents, hx, ne_eq, not_true_eq_false, if_false]
    exact ih t ht

/-- C13: a name whose components are a proper initial part of the components
of another (the empty name included) compares as `-1` with it, and the other
way round as `1`. -/
theorem Compare_proper_initial (a b : Name) (t : List Component) (ht : t ≠ [])
    (h : b.Components = a.Components ++ t) :
    a.Compare b = -1 ∧ b.Compare a = 1 := by
  have h1 : compareComponents a.Components b.Components = -1 := by
    rw [h]; exact compareComponents_append a.Components t ht
  have h2 := compareComponents_antisymm b.Components a.Components
  unfold Name.Compare
  refine ⟨h1, ?_⟩
  omega

/-- C14: `Compare` is not the NDN canonical order its doc comment cites: for the
one-component names `/[2]` and `/[1 1]` the canonical order puts the shorter
component first (`-1`), while `Compare`, which orders components by
`bytes.Compare`, answers `1`. -/
theorem Compare_differs_from_canonical :
    (nameOf [[2]]).Compare (nameOf [[1, 1]]) = 1 ∧
      canonicalOrder (nameOf [[2]]).Components (nameOf [[1, 1]]).Components = -1 := by
  constructor <;> decide

/-! ## Suffix length -/

theorem stringsCount_componentsString (cstr : Component → GoString) (hsf : SlashFree cstr)
    (p : List Component) : stringsCount (componentsString cstr p) = p.length := by
  induction p with
  | nil => rfl
  | cons c rest ih =>
    unfold stringsCount at ih ⊢
    simp only [componentsString, List.count_cons_self, List.count_append, ih,
      List.length_cons]
    rw [List.count_eq_zero.mpr (hsf c)]
    omega

theorem suffixLen_componentsString (cstr : Component → GoString) (hsf : SlashFree cstr)
    (d : Data) (p : List Component) :
    suffixLen d (componentsString cstr p) =
      (d.Name.Components.length : Int) - (p.length : Int) + 1 := by
  unfold suffixLen
  rw [stringsCount_componentsString cstr hsf p]

theorem percentString_slashFree : SlashFree percentString := by
  intro c
  induction c with
  | nil => simp [percentString]
  | cons b rest ih =>
    simp only [percentString, List.mem_append, not_or]
    refine ⟨?_, ih⟩
    unfold percentByte slash
    split_ifs with h1 h2
    · decide
    · decide
    · simp only [List.mem_singleton]
      exact fun e => h1 e.symm

theorem selectorFilter_max_guard (sel : Selectors) (d : Data) (s : Int)
    (h : selectorFilter sel d s = .ok true) :
    ¬ (sel.MaxSuffixComponents ≠ 0 ∧ sel.MaxSuffixComponents < toUint64 s) := by
  intro hg
  unfold selectorFilter at h
  by_cases g1 : sel.MinSuffixComponents ≠ 0 ∧ sel.MinSuffixComponents > toUint64 s
  · rw [if_pos g1] at h; cases h
  · rw [if_neg g1, if_pos hg] at h; cases h

/-- C15: when component strings hold no `'/'`, the suffix length computed for
the node whose name has the components `p` is `n - k + 1`, with `n` the number
of components of the data name (a Go `int`) and `k` the length of `p`; so a
waiter with `MaxSuffixComponents = 1` at a node that starts the data name
passes the filter only if `n = k`; and in scenario S4 (data `/a/b/c`, entry
`/a/b`, maximum `1`) the suffix length is `2`, the filter answers no, and
`recvData` leaves the waiter pending: the state is unchanged. -/
theorem suffixLen_visited_node (cstr : Component → GoString) (hsf : SlashFree cstr)
    (d : Data) (p t : List Component) (hn : d.Name.Components.length < 2 ^ 63)
    (hp : d.Name.Components = p ++ t) :
    suffixLen d (componentsString cstr p) =
        (d.Name.Components.length : Int) - (p.length : Int) + 1 ∧
      (∀ sel : Selectors, sel.MaxSuffixComponents = 1 →
        selectorFilter sel d (suffixLen d (componentsString cstr p)) = .ok true →
        d.Name.Components.length = p.length) ∧
      suffixLen dataABC (componentsString cstr [[97], [98]]) = 2 ∧
      selectorFilter (maxSuffix 1) dataABC
        (suffixLen dataABC (componentsString cstr [[97], [98]])) = .ok false ∧
      faceWaitingAB1.recvData percentString dataABC = .ok faceWaitingAB1 := by
  have hs := suffixLen_componentsString cstr hsf d p
  have hlen : d.Name.Components.length = p.length + t.length := by
    rw [hp, List.length_append]
  refine ⟨hs, ?_, ?_, ?_, rfl⟩
  · intro sel hmax hpass
    have hg := selectorFilter_max_guard sel d _ hpass
    rw [hs, hmax] at hg
    have e : (d.Name.Components.length : Int) - (p.length : Int) + 1 =
        ((t.length + 1 : Nat) : Int) := by
      rw [hlen]; push_cast; ring
    have hu : toUint64 ((d.Name.Components.length : Int) - (p.length : Int) + 1) =
        t.length + 1 := by
      unfold toUint64
      rw [e, Int.emod_eq_of_lt (by omega) (by omega)]
      exact Int.toNat_ofNat _
    rw [hu] at hg
    have : t.length = 0 := by
      by_contra hne
      exact hg ⟨by decide, by omega⟩
    omega
  · rw [suffixLen_componentsString cstr hsf dataABC [[97], [98]]]
    rfl
  · rw [suffixLen_componentsString cstr hsf dataABC [[97], [98]]]
    rfl

/-! ## The management client -/

/-- `SendInterest` always completes: it makes a new channel and never sends on
or closes any other. -/
theorem SendInterest_total (cstr : Component → GoString) (f : Face) (i : Interest)
    (wr : Option GoError) : ∃ f1 r, f.SendInterest cstr i wr = .ok (f1, r) := by
  cases hcs : mapGet f.rt.ContentStore (i.Name.String cstr) with
  | some e => exact ⟨_, _, SendInterest_hit_eq cstr f i wr e hcs⟩
  | none =>
    cases hpit : mapGet f.pit (i.Name.String cstr) with
    | some chs => exact ⟨_, _, SendInterest_aggregate_eq cstr f i wr chs hcs hpit⟩
    | none =>
      cases wr with
      | some err => exact ⟨_, _, SendInterest_writeFails_eq cstr f i err hcs hpit⟩
      | none => exact ⟨_, _, SendInterest_new_eq cstr f i hcs hpit⟩

theorem SendControlInterest_sendFails (cstr : Component → GoString) (env : ControlEnv)
    (f f1 : Face) (control : ControlInterest) (i : Interest) (wr : Option GoError)
    (received : Option Data) (e : GoError)
    (hcopy : env.Copy control = .ok i)
    (hsend : f.SendInterest cstr i wr = .ok (f1, .error e)) :
    f.SendControlInterest cstr env control wr received = .ok (f1, none, some e) := by
  simp only [Face.SendControlInterest, hcopy, hsend]

theorem SendControlInterest_timeout (cstr : Component → GoString) (env : ControlEnv)
    (f f1 : Face) (control : ControlInterest) (i : Interest) (wr : Option GoError)
    (ch : ChanId)
    (hcopy : env.Copy control = .ok i)
    (hsend : f.SendInterest cstr i wr = .ok (f1, .ok ch)) :
    f.SendControlInterest cstr env control wr none = .ok (f1, none, some timeoutError) := by
  simp only [Face.SendControlInterest, hcopy, hsend]

theorem SendControlInterest_decodeFails (cstr : Component → GoString) (env : ControlEnv)
    (f f1 : Face) (control : ControlInterest) (i : Interest) (wr : Option GoError)
    (ch : ChanId) (d : Data) (resp : ControlResponse) (e : GoError)
    (hcopy : env.Copy control = .ok i)
    (hsend : f.SendInterest cstr i wr = .ok (f1, .ok ch))
    (hdec : env.Unmarshal d.Content 101 = (resp, some e)) :
    f.SendControlInterest cstr env control wr (some d) = .ok (f1, some resp, some e) := by
  simp only [Face.SendControlInterest, hcopy, hsend, hdec]

theorem SendControlInterest_decoded (cstr : Component → GoString) (env : ControlEnv)
    (f f1 : Face) (control : ControlInterest) (i : Interest) (wr : Option GoError)
    (ch : ChanId) (d : Data) (resp : ControlResponse)
    (hcopy : env.Copy control = .ok i)
    (hsend : f.SendInterest cstr i wr = .ok (f1, .ok ch))
    (hdec : env.Unmarshal d.Content 101 = (resp, none)) :
    f.SendControlInterest cstr env control wr (some d) =
      .ok (f1, some resp,
        if resp.StatusCode ≠ 200 then some (statusError resp.StatusCode resp.StatusText)
        else none) := by
  simp only [Face.SendControlInterest, hcopy, hsend, hdec]
  split <;> rfl

/-- C16: given that the control descriptor converts to an interest `i`,
`SendControlInterest` completes, and its error is nil exactly when
`SendInterest(i)` succeeds, a Data is received on the response channel, its
content decodes as a ControlResponse (type 101) without error and the decoded
status code is 200; when `SendInterest(i)` succeeds and the channel closes
without a Data, the error is the timeout error. -/
theorem SendControlInterest_error (cstr : Component → GoString) (env : ControlEnv)
    (f : Face) (control : ControlInterest) (i : Interest) (wr : Option GoError)
    (received : Option Data)
    (hcopy : env.Copy control = .ok i) :
    ∃ f1 resp err, f.SendControlInterest cstr env control wr received = .ok (f1, resp, err) ∧
      (err = none ↔
        (∃ f2 ch, f.SendInterest cstr i wr = .ok (f2, .ok ch)) ∧
        ∃ d, received = some d ∧ (env.Unmarshal d.Content 101).2 = none ∧
          (env.Unmarshal d.Content 101).1.StatusCode = 200) ∧
      ((∃ f2 ch, f.SendInterest cstr i wr = .ok (f2, .ok ch)) → received = none →
        err = some timeoutError ∧ resp = none) := by
  obtain ⟨f1, r, hsend⟩ := SendInterest_total cstr f i wr
  cases r with
  | error e =>
    refine ⟨f1, none, some e,
      SendControlInterest_sendFails cstr env f f1 control i wr received e hcopy hsend, ?_, ?_⟩
    · constructor
      · intro h; cases h
      · rintro ⟨⟨f2, ch, h2⟩, _⟩
        rw [hsend] at h2; cases h2
    · rintro ⟨f2, ch, h2⟩ _
      rw [hsend] at h2; cases h2
  | ok ch =>
    cases received with
    | none =>
      refine ⟨f1, none, some timeoutError,
        SendControlInterest_timeout cstr env f f1 control i wr ch hcopy hsend, ?_, ?_⟩
      · constructor
        · intro h; cases h
        · rintro ⟨_, d, h2, _⟩; cases h2
      · intro _ _; exact ⟨rfl, rfl⟩
    | some d =>
      cases hdec : env.Unmarshal d.Content 101 with
      | mk resp oe =>
        cases oe with
        | some e =>
          refine ⟨f1, some resp, some e,
            SendControlInterest_decodeFails cstr env f f1 control i wr ch d resp e hcopy hsend
              hdec, ?_, ?_⟩
          · constructor
            · intro h; cases h
            · rintro ⟨_, d2, h2, h3, _⟩
              cases h2
              rw [hdec] at h3; cases h3
          · intro _ h; cases h
        | none =>
          refine ⟨f1, some resp, _,
            SendControlInterest_decoded cstr env f f1 control i wr ch d resp hcopy hsend hdec,
            ?_, ?_⟩
          · constructor
            · intro h
              refine ⟨⟨f1, ch, hsend⟩, d, rfl, by rw [hdec], ?_⟩
              rw [hdec]
              by_contra hne
              rw [if_pos hne] at h
              cases h
            · rintro ⟨_, d2, h2, _, h4⟩
              cases h2
              rw [hdec] at h4
              simp only at h4
              simp [h4]
          · intro _ h; cases h

/-- C17: when the descriptor converts to an interest, `SendInterest` succeeds, a
Data is received and its content decodes to a ControlResponse with status code
`c` and text `t`: for `c ≠ 200` `SendControlInterest` fails with the message
`"(" + decimal(c) + ") " + t`, and so do `Register` and `Unregister`; for
`c = 200` all three return a nil error; and the message for status `400` with
text `bad` is `(400) bad`. -/
theorem control_rejection_message (cstr : Component → GoString) (env : ControlEnv)
    (f f1 : Face) (control : ControlInterest) (i : Interest) (wr : Option GoError)
    (ch : ChanId) (d : Data) (resp : ControlResponse)
    (hcopy : env.Copy control = .ok i)
    (hsend : f.SendInterest cstr i wr = .ok (f1, .ok ch))
    (hdec : env.Unmarshal d.Content 101 = (resp, none)) :
    (resp.StatusCode ≠ 200 →
      f.SendControlInterest cstr env control wr (some d) =
        .ok (f1, some resp,
          some ("(" ++ Nat.repr resp.StatusCode ++ ") " ++ resp.StatusText)) ∧
      (∀ name, control = ribControl env "register" name →
        f.Register cstr env name wr (some d) =
          .ok (f1, some ("(" ++ Nat.repr resp.StatusCode ++ ") " ++ resp.StatusText))) ∧
      (∀ name, control = ribControl env "unregister" name →
        f.Unregister cstr env name wr (some d) =
          .ok (f1, some ("(" ++ Nat.repr resp.StatusCode ++ ") " ++ resp.StatusText)))) ∧
    (resp.StatusCode = 200 →
      f.SendControlInterest cstr env control wr (some d) = .ok (f1, some resp, none) ∧
      (∀ name, control = ribControl env "register" name →
        f.Register cstr env name wr (some d) = .ok (f1, none)) ∧
      (∀ name, control = ribControl env "unregister" name →
        f.Unregister cstr env name wr (some d) = .ok (f1, none))) ∧
    statusError 400 "bad" = "(400) bad" := by
  have h := SendControlInterest_decoded cstr env f f1 control i wr ch d resp hcopy hsend hdec
  refine ⟨?_, ?_, by decide⟩
  · intro hne
    rw [if_pos hne] at h
    refine ⟨h, ?_, ?_⟩
    · intro name hc
      unfold Face.Register
      rw [← hc, h]
      rfl
    · intro name hc
      unfold Face.Unregister
      rw [← hc, h]
      rfl
  · intro he
    rw [if_neg (fun hne => hne he)] at h
    refine ⟨h, ?_, ?_⟩
    · intro name hc
      unfold Face.Register
      rw [← hc, h]
    · intro name hc
      unfold Face.Unregister
      rw [← hc, h]

/-! ## Delivered data is named under the interest -/

theorem self_mem_walkKeys (cstr : Component → GoString) (n : Name) :
    n.String cstr ∈ walkKeys cstr n := by
  unfold walkKeys Name.String
  exact List.mem_map_of_mem _ ((List.mem_inits _ _).mpr ⟨[], List.append_nil _⟩)

theorem components_of_mem_walkKeys (cstr : Component → GoString) (hinj : NameInjective cstr)
    (i d : Name) (h : i.String cstr ∈ walkKeys cstr d) :
    ∃ t, d.Components = i.Components ++ t := by
  unfold walkKeys Name.String at h
  obtain ⟨p, hp, e⟩ := List.mem_map.mp h
  have hpi : p = i.Components := hinj p i.Components e
  obtain ⟨t, ht⟩ := (List.mem_inits _ _).mp hp
  exact ⟨t, by rw [← hpi, ht]⟩

theorem mem_mapKeys_of_mapGet {κ ν : Type} [DecidableEq κ] (m : List (κ × ν)) (k : κ) (v : ν)
    (h : mapGet m k = some v) : k ∈ mapKeys m := by
  by_contra hc
  rw [← mapGet_eq_none_iff, h] at hc
  cases hc

theorem waiter_lt_length (f : Face) (hwf : WellFormed f) (k : GoString) (m : Waiters)
    (hget : mapGet f.pit k = some m) (c : Nat) (hc : c ∈ mapKeys m) :
    c < f.rt.chans.length :=
  lt_length_of_getElem? f.rt.chans _ c ((hwf k m hget).2.1 c hc)

theorem Tracks_of_SendInterest (cstr : Component → GoString) (f f1 : Face) (i : Interest)
    (wr : Option GoError) (ch : ChanId)
    (hwf : WellFormed f) (hcs : CSConsistent cstr f.rt.ContentStore)
    (hrun : f.SendInterest cstr i wr = .ok (f1, .ok ch)) : Tracks cstr i ch f1 := by
  have hwf1 := WellFormed_SendInterest cstr f f1 i wr (.ok ch) hwf hrun
  refine ⟨hwf1, ?_⟩
  have hfresh : ∀ k m, mapGet f.pit k = some m → f.rt.chans.length ∉ mapKeys m :=
    fun k m hg hin => Nat.lt_irrefl _ (waiter_lt_length f hwf k m hg _ hin)
  cases hc : mapGet f.rt.ContentStore (i.Name.String cstr) with
  | some e =>
    rw [SendInterest_hit_eq cstr f i wr e hc] at hrun
    simp only [Except.ok.injEq, Prod.mk.injEq] at hrun
    obtain ⟨h1, h2⟩ := hrun
    subst h1; subst h2
    have hget : (f.rt.chans ++ [Chan.mk [e] true])[f.rt.chans.length]? =
        some (Chan.mk [e] true) := List.getElem?_concat_length _ _
    refine ⟨⟨_, hget⟩, ?_, ?_⟩
    · intro k m hg hin
      exact absurd hin (hfresh k m hg)
    · intro c hcc d hd
      dsimp only at hcc
      rw [hget] at hcc
      cases hcc
      rw [List.mem_singleton] at hd
      subst hd
      rw [hcs _ d hc]
      exact self_mem_walkKeys cstr d.Name
  | none =>
    cases hpit : mapGet f.pit (i.Name.String cstr) with
    | some chs =>
      rw [SendInterest_aggregate_eq cstr f i wr chs hc hpit] at hrun
      simp only [Except.ok.injEq, Prod.mk.injEq] at hrun
      obtain ⟨h1, h2⟩ := hrun
      subst h1; subst h2
      have hget : (f.rt.chans ++ [Chan.mk [] false])[f.rt.chans.length]? =
          some (Chan.mk [] false) := List.getElem?_concat_length _ _
      refine ⟨⟨_, hget⟩, ?_, ?_⟩
      · intro k m hg hin
        by_contra hne
        dsimp only at hg
        rw [mapGet_mapSet_ne _ _ _ _ (fun e => hne e.symm)] at hg
        exact hfresh k m hg hin
      · intro c hcc d hd
        dsimp only at hcc
        rw [hget] at hcc
        cases hcc
        cases hd
    | none =>
      cases wr with
      | some err =>
        rw [SendInterest_writeFails_eq cstr f i err hc hpit] at hrun
        simp only [Except.ok.injEq, Prod.mk.injEq] at hrun
        cases hrun.2
      | none =>
        rw [SendInterest_new_eq cstr f i hc hpit] at hrun
        simp only [Except.ok.injEq, Prod.mk.injEq] at hrun
        obtain ⟨h1, h2⟩ := hrun
        subst h1; subst h2
        have hget : (f.rt.chans ++ [Chan.mk [] false])[f.rt.chans.length]? =
            some (Chan.mk [] false) := List.getElem?_concat_length _ _
        refine ⟨⟨_, hget⟩, ?_, ?_⟩
        · intro k m hg hin
          by_contra hne
          dsimp only at hg
          rw [← mapSet_of_absent _ _ _ hpit,
            mapGet_mapSet_ne _ _ _ _ (fun e => hne e.symm)] at hg
          exact hfresh k m hg hin
        · intro c hcc d hd
          dsimp only at hcc
          rw [hget] at hcc
          cases hcc
          cases hd

theorem Tracks_of_effect (cstr : Component → GoString) (i : Interest) (ch : ChanId)
    (f f1 : Face) (ht : Tracks cstr i ch f) (hwf1 : WellFormed f1)
    (hch : ∀ c0, f.rt.chans[ch]? = some c0 →
      ∃ c1, f1.rt.chans[ch]? = some c1 ∧
        ∀ d ∈ c1.buf, d ∈ c0.buf ∨ i.Name.String cstr ∈ walkKeys cstr d.Name)
    (hpit : ∀ k m1, mapGet f1.pit k = some m1 → ch ∈ mapKeys m1 →
      ∃ m, mapGet f.pit k = some m ∧ ch ∈ mapKeys m) :
    Tracks cstr i ch f1 := by
  obtain ⟨_, ⟨c0, hc0⟩, h3, h4⟩ := ht
  obtain ⟨c1, hc1, hbuf⟩ := hch c0 hc0
  refine ⟨hwf1, ⟨c1, hc1⟩, ?_, ?_⟩
  · intro k m1 hg hin
    obtain ⟨m, hm, hcm⟩ := hpit k m1 hg hin
    exact h3 k m hm hcm
  · intro c hc d hd
    rw [hc1] at hc
    cases hc
    rcases hbuf d hd with h | h
    · exact h4 c0 hc0 d h
    · exact h

theorem SendInterest_effect (cstr : Component → GoString) (f f1 : Face) (j : Interest)
    (wr : Option GoError) (r : Except GoError ChanId)
    (hrun : f.SendInterest cstr j wr = .ok (f1, r)) :
    (∀ c : Nat, c < f.rt.chans.length → f1.rt.chans[c]? = f.rt.chans[c]?) ∧
      (∀ k m1, mapGet f1.pit k = some m1 → ∀ c ∈ mapKeys m1,
        c = f.rt.chans.length ∨ ∃ m, mapGet f.pit k = some m ∧ c ∈ mapKeys m) := by
  have happ : ∀ (x : Chan) (c : Nat), c < f.rt.chans.length →
      (f.rt.chans ++ [x])[c]? = f.rt.chans[c]? :=
    fun x c hc => List.getElem?_append_left hc
  have hsame : ∀ k m1, mapGet f.pit k = some m1 → ∀ c ∈ mapKeys m1,
      c = f.rt.chans.length ∨ ∃ m, mapGet f.pit k = some m ∧ c ∈ mapKeys m :=
    fun k m1 hg c hc => Or.inr ⟨m1, hg, hc⟩
  cases hcs : mapGet f.rt.ContentStore (j.Name.String cstr) with
  | some e =>
    rw [SendInterest_hit_eq cstr f j wr e hcs] at hrun
    simp only [Except.ok.injEq, Prod.mk.injEq] at hrun
    rw [← hrun.1]
    exact ⟨happ _, hsame⟩
  | none =>
    cases hpit : mapGet f.pit (j.Name.String cstr) with
    | some chs =>
      rw [SendInterest_aggregate_eq cstr f j wr chs hcs hpit] at hrun
      simp only [Except.ok.injEq, Prod.mk.injEq] at hrun
      rw [← hrun.1]
      refine ⟨happ _, ?_⟩
      intro k m1 hg c hc
      dsimp only at hg
      by_cases hk : k = j.Name.String cstr
      · subst hk
        rw [mapGet_mapSet_self] at hg
        cases hg
        by_cases hcn : c = f.rt.chans.length
        · exact Or.inl hcn
        · right
          refine ⟨chs, hpit, ?_⟩
          have hkey := mem_mapKeys_of_mapGet chs c
          by_contra hnot
          have hnone : mapGet chs c = none := (mapGet_eq_none_iff chs c).mpr hnot
          have hc2 : mapGet (mapSet chs f.rt.chans.length j.Selectors) c = none := by
            rw [mapGet_mapSet_ne _ _ _ _ (fun e => hcn e.symm)]
            exact hnone
          exact ((mapGet_eq_none_iff _ c).mp hc2) hc
      · rw [mapGet_mapSet_ne _ _ _ _ (fun e => hk e.symm)] at hg
        exact Or.inr ⟨m1, hg, hc⟩
    | none =>
      cases wr with
      | some err =>
        rw [SendInterest_writeFails_eq cstr f j err hcs hpit] at hrun
        simp only [Except.ok.injEq, Prod.mk.injEq] at hrun
        rw [← hrun.1]
        exact ⟨happ _, hsame⟩
      | none =>
        rw [SendInterest_new_eq cstr f j hcs hpit] at hrun
        simp only [Except.ok.injEq, Prod.mk.injEq] at hrun
        rw [← hrun.1]
        refine ⟨happ _, ?_⟩
        intro k m1 hg c hc
        dsimp only at hg
        rw [← mapSet_of_absent _ _ _ hpit] at hg
        by_cases hk : k = j.Name.String cstr
        · subst hk
          rw [mapGet_mapSet_self] at hg
          cases hg
          simp only [mapKeys, List.map_cons, List.map_nil, List.mem_singleton] at hc
          exact Or.inl hc
        · rw [mapGet_mapSet_ne _ _ _ _ (fun e => hk e.symm)] at hg
          exact Or.inr ⟨m1, hg, hc⟩

theorem Tracks_SendInterest (cstr : Component → GoString) (i : Interest) (ch : ChanId)
    (f f1 : Face) (j : Interest) (wr : Option GoError) (r : Except GoError ChanId)
    (ht : Tracks cstr i ch f) (hrun : f.SendInterest cstr j wr = .ok (f1, r)) :
    Tracks cstr i ch f1 := by
  obtain ⟨h1, h2⟩ := SendInterest_effect cstr f f1 j wr r hrun
  have hlt : ∀ c0, f.rt.chans[ch]? = some c0 → ch < f.rt.chans.length :=
    fun c0 h => lt_length_of_getElem? f.rt.chans c0 ch h
  apply Tracks_of_effect cstr i ch f f1 ht
    (WellFormed_SendInterest cstr f f1 j wr r ht.1 hrun)
  · intro c0 hc0
    exact ⟨c0, by rw [h1 ch (hlt c0 hc0)]; exact hc0, fun d hd => Or.inl hd⟩
  · intro k m1 hg hin
    rcases h2 k m1 hg ch hin with e | h
    · obtain ⟨c0, hc0⟩ := ht.2.1
      have := hlt c0 hc0
      rw [e] at this
      exact absurd this (Nat.lt_irrefl _)
    · exact h

theorem Tracks_lifetimeExpiry (cstr : Component → GoString) (i : Interest) (ch : ChanId)
    (f f1 : Face) (name : Name) (ch1 : ChanId)
    (ht : Tracks cstr i ch f) (hrun : f.lifetimeExpiry cstr name ch1 = .ok f1) :
    Tracks cstr i ch f1 := by
  have hwf := ht.1
  obtain ⟨f2, h2, hwf2⟩ := WellFormed_lifetimeExpiry cstr f name ch1 hwf
  rw [h2] at hrun
  cases hrun
  cases hpit : mapGet f.pit (name.String cstr) with
  | none =>
    rw [lifetimeExpiry_absent_eq cstr f name ch1 (Or.inl hpit)] at h2
    cases h2
    exact ht
  | some m =>
    cases hin : mapGet m ch1 with
    | none =>
      rw [lifetimeExpiry_absent_eq cstr f name ch1 (Or.inr ⟨m, hpit, hin⟩)] at h2
      cases h2
      exact ht
    | some sel =>
      have hopen := (hwf _ m hpit).2.1 ch1 (mem_mapKeys_of_mapGet m ch1 sel hin)
      rw [lifetimeExpiry_present_eq cstr f name ch1 m sel [] hpit hin hopen] at h2
      simp only [Except.ok.injEq] at h2
      subst h2
      apply Tracks_of_effect cstr i ch f _ ht hwf2
      · intro c0 hc0
        dsimp only
        by_cases hcc : ch1 = ch
        · subst hcc
          refine ⟨Chan.mk [] true, getElem?_set_self_of_some _ _ _ _ hc0, ?_⟩
          intro d hd; cases hd
        · exact ⟨c0, by rw [List.getElem?_set_ne hcc]; exact hc0, fun d hd => Or.inl hd⟩
      · intro k m1 hg hcm
        dsimp only at hg
        by_cases hk : k = name.String cstr
        · subst hk
          refine ⟨m, hpit, ?_⟩
          split at hg
          · rw [mapGet_mapDelete_self] at hg; cases hg
          · rw [mapGet_mapSet_self] at hg
            cases hg
            rw [mapDelete_eq_filter] at hcm
            exact mapKeys_filter_subset m _ ch hcm
        · refine ⟨m1, ?_, hcm⟩
          split at hg
          · rw [mapGet_mapDelete_ne _ _ _ (fun e => hk e.symm)] at hg; exact hg
          · rw [mapGet_mapSet_ne _ _ _ _ (fun e => hk e.symm)] at hg; exact hg

theorem Tracks_recvData (cstr : Component → GoString) (i : Interest) (ch : ChanId)
    (f f1 : Face) (d : Data)
    (ht : Tracks cstr i ch f) (hrun : f.recvData cstr d = .ok f1) :
    Tracks cstr i ch f1 := by
  have hwf := ht.1
  have hnp := recvData_ok_NoPanic cstr f f1 d hrun
  obtain ⟨pit1, rt1, h1, hwf1, h3, h4, h5, h6, _, _⟩ :=
    UpdateAll_recvData_spec (d.Name.String cstr) d (walkKeys cstr d.Name) f.pit f.rt hwf hnp
  unfold Face.recvData at hrun
  rw [h1] at hrun
  simp only [Except.ok.injEq] at hrun
  subst hrun
  apply Tracks_of_effect cstr i ch f (Face.mk pit1 rt1) ht hwf1
  · intro c0 hc0
    dsimp only
    by_cases hdel : Delivered d (walkKeys cstr d.Name) f.pit ch
    · refine ⟨Chan.mk [d] true, h5 ch hdel, ?_⟩
      intro d1 hd1
      rw [List.mem_singleton] at hd1
      subst hd1
      right
      obtain ⟨k, hk, m, hg, hc⟩ := hdel
      have := ht.2.2.1 k m hg (deliveredTo_subset d1 _ m ch hc)
      rw [← this]
      exact hk
    · exact ⟨c0, by rw [h6 ch hdel]; exact hc0, fun d1 hd1 => Or.inl hd1⟩
  · intro k m1 hg hcm
    dsimp only at hg
    by_cases hk : k ∈ walkKeys cstr d.Name
    · rw [h3 k hk] at hg
      cases hm : mapGet f.pit k with
      | none => rw [hm] at hg; cases hg
      | some m =>
        rw [hm] at hg
        simp only [Option.some_bind] at hg
        rw [mem_of_mem_entryAfter d k m m1 hg] at hcm
        exact ⟨m, rfl, mapKeys_filter_subset m _ ch hcm⟩
    · rw [h4 k hk] at hg
      exact ⟨m1, hg, hcm⟩

theorem Tracks_Step (cstr : Component → GoString) (i : Interest) (ch : ChanId)
    (f f1 : Face) (ht : Tracks cstr i ch f) (hstep : Step cstr f f1) :
    Tracks cstr i ch f1 := by
  cases hstep with
  | sendInterest j wr _ r hrun => exact Tracks_SendInterest cstr i ch f f1 j wr r ht hrun
  | recvData d _ hrun => exact Tracks_recvData cstr i ch f f1 d ht hrun
  | lifetimeExpiry name ch1 lt f2 _ hrun =>
    exact Tracks_lifetimeExpiry cstr i ch f f2 name ch1 ht hrun
  | evict name fp _ => exact ht

theorem Tracks_Steps (cstr : Component → GoString) (i : Interest) (ch : ChanId)
    (f f1 : Face) (ht : Tracks cstr i ch f) (hsteps : Steps cstr f f1) :
    Tracks cstr i ch f1 := by
  induction hsteps with
  | refl => exact ht
  | tail g h _ hstep ih => exact Tracks_Step cstr i ch g h ih hstep

/-! ## The Content Store keeps every data at the key of its name -/

theorem CSConsistent_cacheFresh (cstr : Component → GoString) (d : Data) (rt : Runtime)
    (h : CSConsistent cstr rt.ContentStore) :
    CSConsistent cstr (cacheFresh (d.Name.String cstr) d rt).ContentStore := by
  unfold cacheFresh
  split
  · intro k e hg
    dsimp only at hg
    by_cases hk : d.Name.String cstr = k
    · subst hk
      rw [mapGet_mapSet_self] at hg
      cases hg
      rfl
    · rw [mapGet_mapSet_ne _ _ _ _ hk] at hg
      exact h k e hg
  · exact h

theorem SendInterest_store (cstr : Component → GoString) (f f1 : Face) (i : Interest)
    (wr : Option GoError) (r : Except GoError ChanId)
    (hrun : f.SendInterest cstr i wr = .ok (f1, r)) :
    f1.rt.ContentStore = f.rt.ContentStore := by
  cases hc : mapGet f.rt.ContentStore (i.Name.String cstr) with
  | some e =>
    rw [SendInterest_hit_eq cstr f i wr e hc] at hrun
    simp only [Except.ok.injEq, Prod.mk.injEq] at hrun
    rw [← hrun.1]
  | none =>
    cases hpit : mapGet f.pit (i.Name.String cstr) with
    | some chs =>
      rw [SendInterest_aggregate_eq cstr f i wr chs hc hpit] at hrun
      simp only [Except.ok.injEq, Prod.mk.injEq] at hrun
      rw [← hrun.1]
    | none =>
      cases wr with
      | some err =>
        rw [SendInterest_writeFails_eq cstr f i err hc hpit] at hrun
        simp only [Except.ok.injEq, Prod.mk.injEq] at hrun
        rw [← hrun.1]
      | none =>
        rw [SendInterest_new_eq cstr f i hc hpit] at hrun
        simp only [Except.ok.injEq, Prod.mk.injEq] at hrun
        rw [← hrun.1]

theorem lifetimeExpiry_store (cstr : Component → GoString) (f f1 : Face) (name : Name)
    (ch : ChanId) (hrun : f.lifetimeExpiry cstr name ch = .ok f1) :
    f1.rt.ContentStore = f.rt.ContentStore := by
  cases hpit : mapGet f.pit (name.String cstr) with
  | none =>
    rw [lifetimeExpiry_absent_eq cstr f name ch (Or.inl hpit)] at hrun
    cases hrun
    rfl
  | some m =>
    cases hin : mapGet m ch with
    | none =>
      rw [lifetimeExpiry_absent_eq cstr f name ch (Or.inr ⟨m, hpit, hin⟩)] at hrun
      cases hrun
      rfl
    | some sel =>
      cases hcl : chanClose f.rt.chans ch with
      | error x =>
        simp only [Face.lifetimeExpiry, Matcher.Update, lifetimeExpiryUpdate, hpit, hin,
          hcl] at hrun
        cases hrun
      | ok c =>
        by_cases hlen : (mapDelete m ch).length = 0
        · simp only [Face.lifetimeExpiry, Matcher.Update, lifetimeExpiryUpdate, hpit, hin,
            hcl, hlen, if_true, Except.ok.injEq] at hrun
          rw [← hrun]
        · simp only [Face.lifetimeExpiry, Matcher.Update, lifetimeExpiryUpdate, hpit, hin,
            hcl, hlen, if_false, Except.ok.injEq] at hrun
          rw [← hrun]

theorem CSConsistent_recvData (cstr : Component → GoString) (f f1 : Face) (d : Data)
    (h : CSConsistent cstr f.rt.ContentStore) (hrun : f.recvData cstr d = .ok f1) :
    CSConsistent cstr f1.rt.ContentStore := by
  unfold Face.recvData at hrun
  cases hu : Matcher.UpdateAll f.pit (walkKeys cstr d.Name)
      (recvDataVisit (d.Name.String cstr) d) f.rt with
  | error x => rw [hu] at hrun; cases hrun
  | ok res =>
    obtain ⟨pit1, rt1⟩ := res
    rw [hu] at hrun
    simp only [Except.ok.injEq] at hrun
    rw [← hrun]
    dsimp only
    obtain ⟨hv, hn⟩ := UpdateAll_store _ d _ f.pit pit1 f.rt rt1 hu
    by_cases hvisit : ∃ k ∈ walkKeys cstr d.Name, mapGet f.pit k ≠ none
    · rw [(hv hvisit).1]
      exact CSConsistent_cacheFresh cstr d f.rt h
    · have hall : ∀ k ∈ walkKeys cstr d.Name, mapGet f.pit k = none := by
        intro k hk
        by_contra hne
        exact hvisit ⟨k, hk, hne⟩
      rw [(hn hall).2]
      exact h

theorem CSConsistent_evict (cstr : Component → GoString) (f : Face) (name : Name)
    (h : CSConsistent cstr f.rt.ContentStore) :
    CSConsistent cstr (f.evict cstr name).rt.ContentStore := by
  intro k e hg
  unfold Face.evict at hg
  dsimp only at hg
  by_cases hk : name.String cstr = k
  · subst hk
    rw [mapGet_mapDelete_self] at hg
    cases hg
  · rw [mapGet_mapDelete_ne _ _ _ hk] at hg
    exact h k e hg

/-- Every step of a Face keeps each Content Store entry at the key of the name
of its data: the only insert is the one of `recvData`, at `d.Name`. -/
theorem CSConsistent_Step (cstr : Component → GoString) (f f1 : Face)
    (h : CSConsistent cstr f.rt.ContentStore) (hstep : Step cstr f f1) :
    CSConsistent cstr f1.rt.ContentStore := by
  cases hstep with
  | sendInterest i wr _ r hrun =>
    rw [SendInterest_store cstr f f1 i wr r hrun]
    exact h
  | recvData d _ hrun => exact CSConsistent_recvData cstr f f1 d h hrun
  | lifetimeExpiry name ch lt f2 _ hrun =>
    dsimp only
    rw [lifetimeExpiry_store cstr f f2 name ch hrun]
    exact h
  | evict name fp _ => exact CSConsistent_evict cstr f name h

theorem CSConsistent_Steps (cstr : Component → GoString) (f f1 : Face)
    (h : CSConsistent cstr f.rt.ContentStore) (hsteps : Steps cstr f f1) :
    CSConsistent cstr f1.rt.ContentStore := by
  induction hsteps with
  | refl => exact h
  | tail g g1 _ hstep ih => exact CSConsistent_Step cstr g g1 ih hstep

theorem Reachable_of_Steps (cstr : Component → GoString) (f f1 : Face)
    (h : f.pit = []) (hsteps : Steps cstr f f1) : Reachable cstr f1 := by
  induction hsteps with
  | refl => exact Reachable.init f h
  | tail g g1 _ hstep ih => exact Reachable.step g g1 ih hstep

/-- C18: when the string of a name determines its components, every data on the
channel returned by `SendInterest(i)`, in any later state, is named under the
interest: the components of `i.Name` start the components of its name. The
Face starts with an empty PIT and a Content Store (a package variable, which
other Faces may have filled) that holds each data at the key of its own name,
and takes any number of steps before the call and after it; the data comes
from the store at the call, where `recvData` put it at the key of its name, or
from a later `recvData`. -/
theorem delivered_data_under_interest (cstr : Component → GoString)
    (hinj : NameInjective cstr) (g f0 f1 f2 : Face) (i : Interest) (wr : Option GoError)
    (ch : ChanId)
    (hinit : g.pit = []) (hcs : CSConsistent cstr g.rt.ContentStore)
    (hbefore : Steps cstr g f0)
    (hsend : f0.SendInterest cstr i wr = .ok (f1, .ok ch))
    (hsteps : Steps cstr f1 f2)
    (c : Chan) (d : Data) (hc : f2.rt.chans[ch]? = some c) (hd : d ∈ c.buf) :
    ∃ t, d.Name.Components = i.Name.Components ++ t := by
  have hr := Reachable_of_Steps cstr g f0 hinit hbefore
  have hcs0 := CSConsistent_Steps cstr g f0 hcs hbefore
  have ht1 := Tracks_of_SendInterest cstr f0 f1 i wr ch (reachable_wellFormed cstr f0 hr)
    hcs0 hsend
  have ht2 := Tracks_Steps cstr i ch f1 f2 ht1 hsteps
  exact components_of_mem_walkKeys cstr hinj i.Name d.Name (ht2.2.2.2 c hc d hd)

theorem append_split_at_slash (x : GoString) :
    ∀ (y r1 r2 : GoString), slash ∉ x → slash ∉ y →
      (r1 = [] ∨ ∃ t, r1 = slash :: t) → (r2 = [] ∨ ∃ t, r2 = slash :: t) →
      x ++ r1 = y ++ r2 → x = y ∧ r1 = r2 := by
  induction x with
  | nil =>
    intro y r1 r2 _ hy h1 _ h
    cases y with
    | nil => exact ⟨rfl, by simpa using h⟩
    | cons b y1 =>
      exfalso
      simp only [List.nil_append, List.cons_append] at h
      rcases h1 with e | ⟨t, e⟩
      · rw [e] at h; cases h
      · rw [e] at h
        have hb : slash = b := (List.cons.inj h).1
        exact hy (by rw [hb]; exact List.mem_cons_self _ _)
  | cons a x1 ih =>
    intro y r1 r2 hx hy h1 h2 h
    cases y with
    | nil =>
      exfalso
      simp only [List.nil_append, List.cons_append] at h
      rcases h2 with e | ⟨t, e⟩
      · rw [e] at h; cases h
      · rw [e] at h
        have ha : a = slash := (List.cons.inj h).1
        exact hx (by rw [ha]; exact List.mem_cons_self _ _)
    | cons b y1 =>
      simp only [List.cons_append, List.cons.injEq] at h
      obtain ⟨e1, e2⟩ := ih y1 r1 r2
        (fun hin => hx (List.mem_cons_of_mem _ hin))
        (fun hin => hy (List.mem_cons_of_mem _ hin)) h1 h2 h.2
      exact ⟨by rw [h.1, e1], e2⟩

theorem componentsString_head (cstr : Component → GoString) (p : List Component) :
    componentsString cstr p = [] ∨ ∃ t, componentsString cstr p = slash :: t := by
  cases p with
  | nil => exact Or.inl rfl
  | cons c rest => exact Or.inr ⟨_, rfl⟩

/-- A component string function that is injective and never emits `'/'` gives
name strings that determine the components. -/
theorem NameInjective_of_slashFree (cstr : Component → GoString) (hsf : SlashFree cstr)
    (hinj : Function.Injective cstr) : NameInjective cstr := by
  intro p
  induction p with
  | nil =>
    intro q h
    cases q with
    | nil => rfl
    | cons c rest => simp [componentsString] at h
  | cons c rest ih =>
    intro q h
    cases q with
    | nil => simp [componentsString] at h
    | cons c1 rest1 =>
      simp only [componentsString, List.cons.injEq, true_and] at h
      obtain ⟨e1, e2⟩ := append_split_at_slash (cstr c) (cstr c1) _ _ (hsf c) (hsf c1)
        (componentsString_head cstr rest) (componentsString_head cstr rest1) h
      rw [hinj e1, ih rest1 e2]

theorem percentByte_ne_nil (b : Nat) : percentByte b ≠ [] := by
  unfold percentByte
  split_ifs <;> simp

theorem percentString_injective : Function.Injective percentString := by
  intro a
  induction a with
  | nil =>
    intro b h
    cases b with
    | nil => rfl
    | cons y ys =>
      exfalso
      simp only [percentString] at h
      have := percentByte_ne_nil y
      cases hy : percentByte y with
      | nil => exact this hy
      | cons u us => rw [hy] at h; cases h
  | cons x xs ih =>
    intro b h
    cases b with
    | nil =>
      exfalso
      simp only [percentString] at h
      have := percentByte_ne_nil x
      cases hx : percentByte x with
      | nil => exact this hx
      | cons u us => rw [hx] at h; cases h
    | cons y ys =>
      simp only [percentString, percentByte] at h
      have key : x = y ∧ percentString xs = percentString ys := by
        split_ifs at h with h1 h2 h3 h4 h5 h6 <;>
          simp only [List.cons_append, List.nil_append, List.cons.injEq] at h <;>
          exact ⟨by omega, by tauto⟩
      rw [key.1, ih key.2]

theorem percentString_nameInjective : NameInjective percentString :=
  NameInjective_of_slashFree percentString percentString_slashFree percentString_injective

/-! ## The exclude lookup and the root entry -/

/-- For a node that is not the root and starts the data name, the index of the
exclude lookup is in range (component strings without `'/'`). -/
theorem exclude_index_in_range (cstr : Component → GoString) (hsf : SlashFree cstr)
    (d : Data) (p t : List Component) (hp : d.Name.Components = p ++ t) (hne : p ≠ []) :
    0 < suffixLen d (componentsString cstr p) ∧
      0 ≤ (d.Name.Components.length : Int) - suffixLen d (componentsString cstr p) ∧
      (d.Name.Components.length : Int) - suffixLen d (componentsString cstr p) <
        (d.Name.Components.length : Int) := by
  rw [suffixLen_componentsString cstr hsf d p]
  have hlen : d.Name.Components.length = p.length + t.length := by
    rw [hp, List.length_append]
  have hpos : 0 < p.length := List.length_pos.mpr hne
  refine ⟨?_, ?_, ?_⟩ <;> omega

/-- C19: the exclude lookup does not stay in bounds at the root: after
`SendInterest` of an interest with the empty name, the PIT has an entry at the
empty name string; when the data `/a` arrives, the suffix computed for that
node is `2`, the index `1 - 2` is negative, the component access fails and
`recvData` panics with index out of range. -/
theorem exclude_lookup_out_of_range (cstr : Component → GoString) :
    emptyFace.SendInterest cstr interestRoot none = .ok (faceWaitingRoot, .ok 0) ∧
      suffixLen dataA (Name.String cstr (nameOf [])) = 2 ∧
      indexAt dataA.Name.Components
        ((dataA.Name.Components.length : Int) -
          suffixLen dataA (Name.String cstr (nameOf []))) = none ∧
      faceWaitingRoot.recvData cstr dataA = .error Fault.indexOutOfRange := by
  refine ⟨rfl, rfl, rfl, rfl⟩

/-! ## Channel safety -/

theorem selectorFilter_error (sel : Selectors) (d : Data) (s : Int) (e : Fault)
    (h : selectorFilter sel d s = .error e) : e = Fault.indexOutOfRange := by
  unfold selectorFilter at h
  split_ifs at h
  · split at h
    · cases h; rfl
    · split_ifs at h
  

theorem fanout_error (d : Data) (s : Int) (rest : List (ChanId × Selectors)) :
    ∀ (m : Waiters) (chans : List Chan) (e : Fault),
      (mapKeys rest).Nodup → WaitersOpen chans rest →
      fanout d s rest m chans = .error e → e = Fault.indexOutOfRange := by
  induction rest with
  | nil => intro m chans e _ _ h; cases h
  | cons q rest ih =>
    obtain ⟨ch, sel⟩ := q
    intro m chans e hnd hopen h
    simp only [mapKeys, List.map_cons, List.nodup_cons] at hnd
    have hopen1 : WaitersOpen chans rest :=
      fun c hc => hopen c (List.mem_cons_of_mem _ hc)
    unfold fanout at h
    cases hsel : selectorFilter sel d s with
    | error x =>
      rw [hsel] at h
      cases h
      exact selectorFilter_error sel d s _ hsel
    | ok b =>
      rw [hsel] at h
      cases b with
      | false => exact ih m chans e hnd.2 hopen1 h
      | true =>
        have hch : chans[ch]? = some (Chan.mk [] false) := hopen ch (List.mem_cons_self _ _)
        have hsend := chanSend_open_empty chans ch d hch
        have hc1 : (chans.set ch (Chan.mk [d] false))[ch]? = some (Chan.mk [d] false) :=
          getElem?_set_self_of_some chans ch _ _ hch
        have hclose := chanClose_open (chans.set ch (Chan.mk [d] false)) ch [d] hc1
        simp only [List.set_set] at hclose
        simp only [hsend, hclose] at h
        refine ih _ _ e hnd.2 ?_ h
        intro c hc
        have hne : ch ≠ c := by
          intro e1; subst e1; exact hnd.1 hc
        rw [List.getElem?_set_ne hne]
        exact hopen1 c hc

theorem recvDataVisit_error (dkey : GoString) (d : Data) (k : GoString) (m : Waiters)
    (rt : Runtime) (e : Fault)
    (hnd : (mapKeys m).Nodup) (hopen : WaitersOpen rt.chans m)
    (h : recvDataVisit dkey d k m rt = .error e) : e = Fault.indexOutOfRange := by
  have hch : (cacheFresh dkey d rt).chans = rt.chans := by
    unfold cacheFresh; split <;> rfl
  unfold recvDataVisit at h
  dsimp only at h
  cases hf : fanout d (suffixLen d k) m m (cacheFresh dkey d rt).chans with
  | error x =>
    rw [hf] at h
    cases h
    exact fanout_error d _ m m _ _ hnd (by rw [hch]; exact hopen) hf
  | ok res =>
    rw [hf] at h
    dsimp only at h
    split at h <;> cases h

/-- One visit that completes keeps the PIT well formed. -/
theorem WellFormedPIT_visit (dkey : GoString) (d : Data) (key : GoString)
    (pit : Matcher Waiters) (m : Waiters) (rt t : Runtime) (o : Option Waiters)
    (hwf : WellFormedPIT pit rt.chans) (hget : mapGet pit key = some m)
    (hv : recvDataVisit dkey d key m rt = .ok (o, t)) :
    WellFormedPIT (match o with
      | none => mapDelete pit key
      | some v => mapSet pit key v) t.chans := by
  have hu : Matcher.UpdateAll pit [key] (recvDataVisit dkey d) rt =
      .ok (match o with
        | none => mapDelete pit key
        | some v => mapSet pit key v, t) := by
    unfold Matcher.UpdateAll
    rw [hget]
    simp only [hv]
    cases o <;> rfl
  have hnp := UpdateAll_ok_NoPanic dkey d [key] pit rt _ hu
  obtain ⟨pit1, rt1, h1, h2, _⟩ := UpdateAll_recvData_spec dkey d [key] pit rt hwf hnp
  rw [hu] at h1
  simp only [Except.ok.injEq, Prod.mk.injEq] at h1
  rw [h1.1, h1.2]
  exact h2

theorem UpdateAll_error (dkey : GoString) (d : Data) (keys : List GoString) :
    ∀ (pit : Matcher Waiters) (rt : Runtime) (e : Fault),
      WellFormedPIT pit rt.chans →
      Matcher.UpdateAll pit keys (recvDataVisit dkey d) rt = .error e →
      e = Fault.indexOutOfRange := by
  induction keys with
  | nil => intro pit rt e _ h; cases h
  | cons key rest ih =>
    intro pit rt e hwf h
    unfold Matcher.UpdateAll at h
    cases hget : mapGet pit key with
    | none =>
      rw [hget] at h
      exact ih pit rt e hwf h
    | some m =>
      rw [hget] at h
      dsimp only at h
      obtain ⟨hnd, hopen, _⟩ := hwf key m hget
      cases hv : recvDataVisit dkey d key m rt with
      | error x =>
        rw [hv] at h
        cases h
        exact recvDataVisit_error dkey d key m rt _ hnd hopen hv
      | ok res =>
        obtain ⟨o, t⟩ := res
        have hwf2 := WellFormedPIT_visit dkey d key pit m rt t o hwf hget hv
        rw [hv] at h
        cases o with
        | none => exact ih _ t e hwf2 h
        | some v => exact ih _ t e hwf2 h

theorem recvData_error (cstr : Component → GoString) (f : Face) (d : Data) (e : Fault)
    (hwf : WellFormed f) (h : f.recvData cstr d = .error e) :
    e = Fault.indexOutOfRange := by
  unfold Face.recvData at h
  cases hu : Matcher.UpdateAll f.pit (walkKeys cstr d.Name)
      (recvDataVisit (d.Name.String cstr) d) f.rt with
  | error x =>
    rw [hu] at h
    cases h
    exact UpdateAll_error _ d _ f.pit f.rt _ hwf hu
  | ok res =>
    rw [hu] at h
    cases h

/-- C20: in every state reachable from an empty PIT by `SendInterest`,
`recvData`, lifetime-expiry (and eviction) steps, every waiter channel in the
PIT is open and holds no value, and a closed channel waits in no PIT entry;
hence every `SendInterest` and every lifetime expiry from such a state
completes, and a `recvData` either completes or stops on the index panic of
the exclude lookup: no step closes a closed channel, sends on a closed
channel, or sends on a channel that already holds a value. -/
theorem reachable_channel_safety (cstr : Component → GoString) (f : Face)
    (hr : Reachable cstr f) :
    (∀ k m, mapGet f.pit k = some m →
      ∀ ch ∈ mapKeys m, f.rt.chans[ch]? = some (Chan.mk [] false)) ∧
    (∀ (ch : ChanId) (c : Chan), f.rt.chans[ch]? = some c → c.closed = true →
      ∀ k m, mapGet f.pit k = some m → ch ∉ mapKeys m) ∧
    (∀ i wr, ∃ f1 r, f.SendInterest cstr i wr = .ok (f1, r)) ∧
    (∀ name ch, ∃ f1, f.lifetimeExpiry cstr name ch = .ok f1) ∧
    (∀ d e, f.recvData cstr d = .error e →
      e ≠ Fault.closeOfClosedChannel ∧ e ≠ Fault.sendOnClosedChannel ∧
      e ≠ Fault.sendBlocked ∧ e ≠ Fault.nilChannel) := by
  have hwf := reachable_wellFormed cstr f hr
  refine ⟨fun k m hg => (hwf k m hg).2.1, ?_, ?_, ?_, ?_⟩
  · intro ch c hc hclosed k m hg hin
    have := (hwf k m hg).2.1 ch hin
    rw [hc] at this
    cases this
    cases hclosed
  · intro i wr
    exact SendInterest_total cstr f i wr
  · intro name ch
    obtain ⟨f1, h1, _⟩ := WellFormed_lifetimeExpiry cstr f name ch hwf
    exact ⟨f1, h1⟩
  · intro d e h
    rw [recvData_error cstr f d e hwf h]
    exact ⟨by decide, by decide, by decide, by decide⟩

/-! ## A Content Store hit and the selector filter -/

theorem selectorFilter_publisher_rejects (sel : Selectors) (d : Data) (s : Int)
    (hne : sel.PublisherPublicKeyLocator.Name.Components ≠ [])
    (hcmp : sel.PublisherPublicKeyLocator.Name.Compare d.SignatureInfo.KeyLocator.Name ≠ 0) :
    selectorFilter sel d s = .ok false := by
  have hlen : sel.PublisherPublicKeyLocator.Name.Components.length ≠ 0 := by
    rw [ne_eq, List.length_eq_zero]; exact hne
  unfold selectorFilter
  by_cases g1 : sel.MinSuffixComponents ≠ 0 ∧ sel.MinSuffixComponents > toUint64 s
  · rw [if_pos g1]
  · by_cases g2 : sel.MaxSuffixComponents ≠ 0 ∧ sel.MaxSuffixComponents < toUint64 s
    · rw [if_neg g1, if_pos g2]
    · rw [if_neg g1, if_neg g2, if_pos ⟨hlen, hcmp⟩]

theorem selectorFilter_exclude_rejects (sel : Selectors) (d : Data) (s : Int) (c : Component)
    (hs : 0 < s)
    (hidx : indexAt d.Name.Components ((d.Name.Components.length : Int) - s) = some c)
    (hex : sel.Exclude.IsExcluded c = true) :
    selectorFilter sel d s = .ok false := by
  unfold selectorFilter
  split_ifs
  all_goals first
    | rfl
    | simp only [hidx, hex, if_true]

/-- C21: when the Content Store holds `d` at the name of the interest,
`SendInterest` returns a closed channel holding exactly `d` whatever the
selectors of the interest are; this includes selectors for which the filter of
`recvData` answers no for `d` at every suffix length (a non-empty publisher key
locator name that does not compare equal to the one of `d`) or at the suffix
length whose lookup hits a component the exclude covers (the last component
of `d` at suffix length `1`). -/
theorem contentStore_hit_bypasses_filter (cstr : Component → GoString) (f : Face)
    (i : Interest) (wr : Option GoError) (d : Data)
    (h : mapGet f.rt.ContentStore (i.Name.String cstr) = some d) :
    (∃ f1 ch, f.SendInterest cstr i wr = .ok (f1, .ok ch) ∧
      f1.rt.chans[ch]? = some (Chan.mk [d] true)) ∧
    (i.Selectors.PublisherPublicKeyLocator.Name.Components ≠ [] →
      i.Selectors.PublisherPublicKeyLocator.Name.Compare d.SignatureInfo.KeyLocator.Name ≠ 0 →
      ∀ s, selectorFilter i.Selectors d s = .ok false) ∧
    (∀ (s : Int) (c : Component), 0 < s →
      indexAt d.Name.Components ((d.Name.Components.length : Int) - s) = some c →
      i.Selectors.Exclude.IsExcluded c = true →
      selectorFilter i.Selectors d s = .ok false) := by
  refine ⟨⟨_, _, SendInterest_hit_eq cstr f i wr d h, ?_⟩, ?_, ?_⟩
  · exact List.getElem?_concat_length _ _
  · intro hne hcmp s
    exact selectorFilter_publisher_rejects i.Selectors d s hne hcmp
  · intro s c hs hidx hex
    exact selectorFilter_exclude_rejects i.Selectors d s c hs hidx hex

/-! ## `Compare` and the implicit digest -/

theorem selectorFilter_withKeyLocatorName (sel : Selectors) (d : Data) (s : Int) (n : Name)
    (h : n.Components = d.SignatureInfo.KeyLocator.Name.Components) :
    selectorFilter sel (withKeyLocatorName d n) s = selectorFilter sel d s := by
  unfold selectorFilter Name.Compare withKeyLocatorName
  simp only [h]

/-- C22: two names with the same components compare as `0`, whatever their
implicit digests; so the selector filter gives the same answer for a data and
for the same data whose key locator name has another implicit digest, and
there are two different names that compare as `0`. -/
theorem Compare_ignores_digest (a b : Name) (h : a.Components = b.Components) :
    a.Compare b = 0 ∧
      (∀ (sel : Selectors) (d : Data) (s : Int),
        d.SignatureInfo.KeyLocator.Name = a →
        selectorFilter sel (withKeyLocatorName d b) s = selectorFilter sel d s) ∧
      ((Name.mk [[97]] [1]).Compare (Name.mk [[97]] [2]) = 0 ∧
        Name.mk [[97]] [1] ≠ Name.mk [[97]] [2]) := by
  refine ⟨?_, ?_, by decide, by decide⟩
  · unfold Name.Compare
    rw [h]
    exact compareComponents_self _
  · intro sel d s hd
    apply selectorFilter_withKeyLocatorName
    rw [hd, h]

/-! ## Unsolicited data -/

theorem UpdateAll_no_entry {ν σ : Type} (keys : List GoString)
    (fn : GoString → ν → σ → Except Fault (Option ν × σ)) (pit : Matcher ν) (s : σ)
    (h : ∀ k ∈ keys, mapGet pit k = none) :
    Matcher.UpdateAll pit keys fn s = .ok (pit, s) := by
  induction keys with
  | nil => rfl
  | cons key rest ih =>
    unfold Matcher.UpdateAll
    rw [h key (List.mem_cons_self _ _)]
    exact ih (fun k hk => h k (List.mem_cons_of_mem _ hk))

/-- C23: when the PIT holds no entry at the string of any initial part of
`d.Name`, `recvData(d)` completes and returns the state it started from: the
PIT, the Content Store, every channel and the armed timers are unchanged,
whether `d` is fresh or not. -/
theorem recvData_unsolicited (cstr : Component → GoString) (f : Face) (d : Data)
    (h : ∀ k ∈ walkKeys cstr d.Name, mapGet f.pit k = none) :
    f.recvData cstr d = .ok f ∧
      ∀ f1, f.recvData cstr d = .ok f1 →
        f1.pit = f.pit ∧ f1.rt.ContentStore = f.rt.ContentStore ∧
        f1.rt.chans = f.rt.chans ∧ f1.rt.evictionTimers = f.rt.evictionTimers ∧
        mapGet f1.rt.ContentStore (d.Name.String cstr) =
          mapGet f.rt.ContentStore (d.Name.String cstr) := by
  have h0 : f.recvData cstr d = .ok f := by
    unfold Face.recvData
    rw [UpdateAll_no_entry _ _ f.pit f.rt h]
  refine ⟨h0, ?_⟩
  intro f1 h1
  rw [h0] at h1
  cases h1
  exact ⟨rfl, rfl, rfl, rfl, rfl⟩

/-- Fresh data is cached only when it answers a pending interest: a `recvData`
that changes the Content Store visited a PIT entry. -/
theorem recvData_caches_only_pending (cstr : Component → GoString) (f f1 : Face) (d : Data)
    (hrun : f.recvData cstr d = .ok f1)
    (hcs : f1.rt.ContentStore ≠ f.rt.ContentStore) :
    ∃ k ∈ walkKeys cstr d.Name, ∃ m, mapGet f.pit k = some m := by
  by_contra hno
  have hall : ∀ k ∈ walkKeys cstr d.Name, mapGet f.pit k = none := by
    intro k hk
    cases hg : mapGet f.pit k with
    | none => rfl
    | some m => exact absurd ⟨k, hk, m, hg⟩ hno
  have h0 : f.recvData cstr d = .ok f := by
    unfold Face.recvData
    rw [UpdateAll_no_entry _ _ f.pit f.rt hall]
  rw [h0] at hrun
  cases hrun
  exact hcs rfl

/-! ## The theorems at concrete inputs -/

theorem sendInterests_aggregation_witness :
    ∃ f1 rs m, sendInterests rawString emptyFace
        [interestOf [[121]] noSelectors 100, interestOf [[121]] (maxSuffix 1) 100] =
          .ok (f1, rs) ∧
      f1.rt.w.length = 1 ∧ f1.pit = [([47, 121], m)] ∧ rs = [.ok 0, .ok 1] := by
  obtain ⟨f1, rs, m, h, hw, hpit, _, hrs, hlen, _, _⟩ :=
    sendInterests_aggregation rawString emptyFace (nameOf [[121]])
      [interestOf [[121]] noSelectors 100, interestOf [[121]] (maxSuffix 1) 100]
      (by simp)
      (by
        intro i hi
        simp only [List.mem_cons, List.mem_singleton, List.not_mem_nil, or_false] at hi
        rcases hi with e | e <;> rw [e] <;> rfl)
      rfl rfl
  refine ⟨f1, rs, m, h, ?_, hpit, ?_⟩
  · rw [hw]; rfl
  · have h2 : sendInterests rawString emptyFace
        [interestOf [[121]] noSelectors 100, interestOf [[121]] (maxSuffix 1) 100] =
        .ok (Face.mk [([47, 121], [(0, noSelectors), (1, maxSuffix 1)])]
          (Runtime.mk [] [Chan.mk [] false, Chan.mk [] false]
            [interestOf [[121]] noSelectors 100]
            [(nameOf [[121]], 0, 100), (nameOf [[121]], 1, 100)] []), [.ok 0, .ok 1]) := rfl
    rw [h2] at h
    simp only [Except.ok.injEq, Prod.mk.injEq] at h
    exact h.2.symm

theorem SendInterest_contentStore_hit_witness :
    ∃ f1 ch, faceCachedA.SendInterest rawString interestA (some "broken pipe") =
        .ok (f1, .ok ch) ∧
      f1.rt.chans[ch]? = some (Chan.mk [dataA] true) ∧ f1.rt.w = [] ∧ f1.pit = [] := by
  obtain ⟨f1, ch, h, _, hc, hw, hp, _, _⟩ :=
    SendInterest_contentStore_hit rawString faceCachedA interestA (some "broken pipe") dataA rfl
  exact ⟨f1, ch, h, hc, hw, hp⟩

theorem SendInterest_write_failure_witness :
    ∃ f1, emptyFace.SendInterest rawString interestA (some "broken pipe") =
        .ok (f1, .error "broken pipe") ∧
      f1.pit = [] ∧ f1.rt.lifetimeTimers = [] := by
  obtain ⟨f1, h, hp, _, ht, _, _⟩ :=
    SendInterest_write_failure rawString emptyFace interestA "broken pipe" rfl rfl
  exact ⟨f1, h, hp, ht⟩

theorem lifetimeExpiry_satisfied_noop_witness :
    (faceWaitingA.recvData rawString dataAB = .ok faceDeliveredAB ∧
      faceDeliveredAB.rt.chans[0]? = some (Chan.mk [dataAB] true) ∧
      faceDeliveredAB.lifetimeExpiry rawString (nameOf [[97]]) 0 = .ok faceDeliveredAB) ∧
    (faceTwoWaiters.recvData rawString dataAB = .ok faceTwoAfterAB ∧
      faceTwoAfterAB.rt.chans[1]? = some (Chan.mk [dataAB] true) ∧
      mapGet faceTwoAfterAB.pit [47, 97] = some [(0, maxSuffix 1)] ∧
      faceTwoAfterAB.lifetimeExpiry rawString (nameOf [[97]]) 1 = .ok faceTwoAfterAB) :=
  ⟨⟨rfl, rfl,
      (lifetimeExpiry_satisfied_noop rawString faceDeliveredAB (nameOf [[97]]) 0
        (Or.inl rfl)).1⟩,
    ⟨rfl, rfl, rfl,
      (lifetimeExpiry_satisfied_noop rawString faceTwoAfterAB (nameOf [[97]]) 1
        (Or.inr ⟨[(0, maxSuffix 1)], rfl, rfl⟩)).1⟩⟩

theorem reachable_pit_nonempty_witness :
    Reachable rawString faceWaitingA ∧
      ∀ key m, mapGet faceWaitingA.pit key = some m → m ≠ [] :=
  have hr : Reachable rawString faceWaitingA :=
    Reachable.step emptyFace faceWaitingA (Reachable.init emptyFace rfl)
      (Step.sendInterest emptyFace interestA none faceWaitingA (.ok 0) rfl)
  ⟨hr, reachable_pit_nonempty rawString faceWaitingA hr⟩


theorem reachable_faceTwoWaiters : Reachable rawString faceTwoWaiters :=
  Reachable.step faceWaitingA1 faceTwoWaiters
    (Reachable.step emptyFace faceWaitingA1 (Reachable.init emptyFace rfl)
      (Step.sendInterest emptyFace interestA1 none faceWaitingA1 (.ok 0) rfl))
    (Step.sendInterest faceWaitingA1 interestA none faceTwoWaiters (.ok 1) rfl)

theorem noPanic_faceTwoWaiters (d : Data) (hd : d = dataAB ∨ d = dataA) :
    NoPanic d (walkKeys rawString d.Name) faceTwoWaiters.pit := by
  intro k hk m hg p hp
  have hkey : k = [47, 97] := by
    by_contra hne
    have : mapGet faceTwoWaiters.pit k = none := by
      have hne2 : ¬ ([47, 97] : GoString) = k := fun e => hne e.symm
      simp [faceTwoWaiters, mapGet, hne2]
    rw [this] at hg
    cases hg
  subst hkey
  have hm : m = [(0, maxSuffix 1), (1, noSelectors)] := by
    have : mapGet faceTwoWaiters.pit [47, 97] = some [(0, maxSuffix 1), (1, noSelectors)] := rfl
    rw [this] at hg
    exact (Option.some.inj hg).symm
  subst hm
  simp only [List.mem_cons, List.mem_singleton, List.not_mem_nil, or_false] at hp
  rcases hd with e | e <;> subst e <;> rcases hp with e | e <;> subst e
  · exact ⟨false, rfl⟩
  · exact ⟨true, rfl⟩
  · exact ⟨true, rfl⟩
  · exact ⟨true, rfl⟩

theorem recvData_fanout_partition_witness :
    ∃ f1, faceTwoWaiters.recvData rawString dataAB = .ok f1 ∧
      f1.rt.chans[1]? = some (Chan.mk [dataAB] true) ∧
      f1.rt.chans[0]? = some (Chan.mk [] false) ∧
      mapGet f1.pit [47, 97] = some [(0, maxSuffix 1)] := by
  obtain ⟨f1, h, hall⟩ := recvData_fanout_partition rawString faceTwoWaiters dataAB
    reachable_faceTwoWaiters (noPanic_faceTwoWaiters dataAB (Or.inl rfl))
  obtain ⟨hentry, hw⟩ := hall [47, 97] (by decide) [(0, maxSuffix 1), (1, noSelectors)] rfl
  refine ⟨f1, h, ?_, ?_, ?_⟩
  · exact ((hw (1, noSelectors) (by simp)).2.1 rfl).1
  · exact ((hw (0, maxSuffix 1) (by simp)).2.2 rfl).1
  · rw [hentry]; rfl

theorem lifetimeExpiry_timeout_cleanup_witness :
    ∃ f1, faceTwoWaiters.lifetimeExpiry rawString (nameOf [[97]]) 0 = .ok f1 ∧
      f1.rt.chans[0]? = some (Chan.mk [] true) ∧
      f1.rt.chans[1]? = some (Chan.mk [] false) ∧
      mapGet f1.pit [47, 97] = some [(1, noSelectors)] := by
  obtain ⟨f1, h, _, hc, hother, hkeep, _⟩ :=
    lifetimeExpiry_timeout_cleanup rawString faceTwoWaiters (nameOf [[97]]) 0
      [(0, maxSuffix 1), (1, noSelectors)] (maxSuffix 1) reachable_faceTwoWaiters rfl rfl
  refine ⟨f1, h, hc, ?_, ?_⟩
  · rw [hother 1 (by decide)]; rfl
  · exact hkeep (by simp [mapDelete])

theorem recvData_contentStore_once_witness :
    (faceRootAndA.recvData percentString dataA = .error Fault.indexOutOfRange ∧
      (faceRootAndA.recvDataUntil percentString dataA).2.rt.ContentStore =
        [([47, 97], dataA)] ∧
      (faceRootAndA.recvDataUntil percentString dataA).2.rt.evictionTimers =
        [(nameOf [[97]], 500)]) ∧
    (faceTwoWaiters.recvData rawString dataA =
        .ok (faceTwoWaiters.recvDataUntil rawString dataA).2 ∧
      (faceTwoWaiters.recvDataUntil rawString dataA).2.rt.ContentStore =
        [([47, 97], dataA)] ∧
      (faceTwoWaiters.recvDataUntil rawString dataA).2.rt.evictionTimers =
        [(nameOf [[97]], 500)]) ∧
    (faceCachedA.pit = [] ∧
      ((Face.mk faceWaitingA.pit faceCachedA.rt).recvDataUntil rawString dataAB).2.rt.ContentStore
        = faceCachedA.rt.ContentStore) :=
  ⟨⟨rfl,
      ((recvData_contentStore_once percentString faceRootAndA dataA
        ⟨[], by decide, by intro e; cases e⟩).1 ⟨by decide, rfl⟩).1,
      ((recvData_contentStore_once percentString faceRootAndA dataA
        ⟨[], by decide, by intro e; cases e⟩).1 ⟨by decide, rfl⟩).2.2⟩,
    ⟨rfl,
      ((recvData_contentStore_once rawString faceTwoWaiters dataA
        ⟨[47, 97], by decide, by intro e; cases e⟩).1 ⟨by decide, rfl⟩).1,
      ((recvData_contentStore_once rawString faceTwoWaiters dataA
        ⟨[47, 97], by decide, by intro e; cases e⟩).1 ⟨by decide, rfl⟩).2.2⟩,
    ⟨rfl,
      ((recvData_contentStore_once rawString (Face.mk faceWaitingA.pit faceCachedA.rt) dataAB
        ⟨[47, 97], by decide, by intro e; cases e⟩).2.1
          (by intro h; exact absurd h.1 (by decide))).1⟩⟩

theorem Compare_total_order_witness :
    (nameOf [[97]]).Compare (nameOf [[97], [98]]) ≤ 0 ∧
      (nameOf [[97], [98]]).Compare (nameOf [[98]]) ≤ 0 ∧
      (nameOf [[97]]).Compare (nameOf [[98]]) ≤ 0 :=
  ⟨by decide, by decide,
    (Compare_total_order (nameOf [[97]]) (nameOf [[97], [98]]) (nameOf [[98]])).2.1
      (by decide) (by decide)⟩

theorem Compare_proper_initial_witness :
    (nameOf [[97]]).Compare (nameOf [[97], [98]]) = -1 ∧
      (nameOf [[97], [98]]).Compare (nameOf [[97]]) = 1 :=
  Compare_proper_initial (nameOf [[97]]) (nameOf [[97], [98]]) [[98]] (by decide) rfl

theorem suffixLen_visited_node_witness :
    suffixLen dataABC (componentsString percentString [[97], [98]]) = 3 - 2 + 1 :=
  (suffixLen_visited_node percentString percentString_slashFree dataABC [[97], [98]] [[99]]
    (by decide) rfl).1

theorem SendControlInterest_error_witness :
    ∃ f1 resp err,
      emptyFace.SendControlInterest rawString toyEnv (ribControl toyEnv "register" [102])
        none (some (dataOf [[102]] 0 [200])) = .ok (f1, resp, err) ∧ err = none := by
  obtain ⟨f1, resp, err, h, hiff, _⟩ :=
    SendControlInterest_error rawString toyEnv emptyFace (ribControl toyEnv "register" [102])
      (interestOf [[102]] noSelectors 4000) none (some (dataOf [[102]] 0 [200])) rfl
  exact ⟨f1, resp, err, h,
    hiff.mpr ⟨⟨_, _, SendInterest_new_eq rawString emptyFace _ rfl rfl⟩, _, rfl, rfl, rfl⟩⟩

theorem control_rejection_message_witness :
    ∃ f1, emptyFace.Register rawString toyEnv [102] none (some (dataOf [[102]] 0 [400])) =
      .ok (f1, some "(400) bad") :=
  ⟨_, ((control_rejection_message rawString toyEnv emptyFace _
    (ribControl toyEnv "register" [102]) (interestOf [[102]] noSelectors 4000) none _
    (dataOf [[102]] 0 [400]) (ControlResponse.mk 400 "bad" noParameters) rfl
    (SendInterest_new_eq rawString emptyFace _ rfl rfl) rfl).1 (by decide)).2.1 [102] rfl⟩

theorem delivered_data_under_interest_witness :
    (emptyFace.SendInterest percentString interestA none = .ok (faceWaitingA, .ok 0) ∧
      faceWaitingA.recvData percentString dataA = .ok faceCachedDeliveredA ∧
      faceCachedDeliveredA.rt.ContentStore = [([47, 97], dataA)] ∧
      faceCachedDeliveredA.SendInterest percentString interestA none = .ok (faceHitA, .ok 1) ∧
      faceHitA.rt.chans[1]? = some (Chan.mk [dataA] true) ∧
      ∃ t, dataA.Name.Components = interestA.Name.Components ++ t) ∧
    (faceWaitingA.recvData percentString dataAB = .ok faceDeliveredAB ∧
      faceDeliveredAB.rt.chans[0]? = some (Chan.mk [dataAB] true) ∧
      ∃ t, dataAB.Name.Components = interestA.Name.Components ++ t) :=
  ⟨⟨rfl, rfl, rfl, rfl, rfl,
      delivered_data_under_interest percentString percentString_nameInjective
        emptyFace faceCachedDeliveredA faceHitA faceHitA interestA none 1
        rfl (by intro k d h; cases h)
        (Steps.tail emptyFace faceWaitingA faceCachedDeliveredA
          (Steps.tail emptyFace emptyFace faceWaitingA (Steps.refl emptyFace)
            (Step.sendInterest emptyFace interestA none faceWaitingA (.ok 0) rfl))
          (Step.recvData faceWaitingA dataA faceCachedDeliveredA rfl))
        rfl (Steps.refl faceHitA)
        (Chan.mk [dataA] true) dataA rfl (List.mem_singleton.mpr rfl)⟩,
    ⟨rfl, rfl,
      delivered_data_under_interest percentString percentString_nameInjective
        emptyFace emptyFace faceWaitingA faceDeliveredAB interestA none 0
        rfl (by intro k d h; cases h) (Steps.refl emptyFace)
        rfl
        (Steps.tail faceWaitingA faceWaitingA faceDeliveredAB (Steps.refl faceWaitingA)
          (Step.recvData faceWaitingA dataAB faceDeliveredAB rfl))
        (Chan.mk [dataAB] true) dataAB rfl (List.mem_singleton.mpr rfl)⟩⟩

theorem reachable_channel_safety_witness :
    Reachable rawString faceTwoWaiters ∧
      faceTwoWaiters.rt.chans[1]? = some (Chan.mk [] false) ∧
      ∃ f1, faceTwoWaiters.lifetimeExpiry rawString (nameOf [[97]]) 1 = .ok f1 :=
  ⟨reachable_faceTwoWaiters,
    (reachable_channel_safety rawString faceTwoWaiters reachable_faceTwoWaiters).1
      [47, 97] [(0, maxSuffix 1), (1, noSelectors)] rfl 1 (by decide),
    (reachable_channel_safety rawString faceTwoWaiters reachable_faceTwoWaiters).2.2.2.1
      (nameOf [[97]]) 1⟩



theorem contentStore_hit_bypasses_filter_witness :
    (∃ f1 ch, faceCachedA.SendInterest rawString
        (interestOf [[97]] (excludeSelectors [97]) 4000) none = .ok (f1, .ok ch) ∧
      f1.rt.chans[ch]? = some (Chan.mk [dataA] true)) ∧
    selectorFilter (excludeSelectors [97]) dataA 1 = .ok false ∧
    (∃ f1 ch, faceCachedA.SendInterest rawString
        (interestOf [[97]] publisherSelectors 4000) none = .ok (f1, .ok ch) ∧
      f1.rt.chans[ch]? = some (Chan.mk [dataA] true)) ∧
    selectorFilter publisherSelectors dataA 1 = .ok false :=
  ⟨(contentStore_hit_bypasses_filter rawString faceCachedA
      (interestOf [[97]] (excludeSelectors [97]) 4000) none dataA rfl).1,
    (contentStore_hit_bypasses_filter rawString faceCachedA
      (interestOf [[97]] (excludeSelectors [97]) 4000) none dataA rfl).2.2
      1 [97] (by decide) rfl rfl,
    (contentStore_hit_bypasses_filter rawString faceCachedA
      (interestOf [[97]] publisherSelectors 4000) none dataA rfl).1,
    (contentStore_hit_bypasses_filter rawString faceCachedA
      (interestOf [[97]] publisherSelectors 4000) none dataA rfl).2.1
      (by decide) (by decide) 1⟩

theorem Compare_ignores_digest_witness :
    (Name.mk [[107]] [1]).Compare (Name.mk [[107]] [2]) = 0 :=
  (Compare_ignores_digest (Name.mk [[107]] [1]) (Name.mk [[107]] [2]) rfl).1

theorem recvData_unsolicited_witness :
    faceWaitingAB1.recvData rawString dataA = .ok faceWaitingAB1 :=
  (recvData_unsolicited rawString faceWaitingAB1 dataA
    (by
      intro k hk
      have hw : walkKeys rawString dataA.Name = [[], [47, 97]] := rfl
      rw [hw] at hk
      simp only [List.mem_cons, List.mem_singleton, List.not_mem_nil, or_false] at hk
      rcases hk with e | e <;> rw [e] <;> rfl)).1


end Ndn
